import Mathlib

/-!
# cron2: recurrence rules, the entry registry, the run loop and job wrappers

A shallow embedding of the Go package `cron` (files `constant_delay.go`,
`spec.go`, `cron.go`, `chain.go`) together with the properties proved about it.

## Conventions of the embedding

* `time.Duration` is an `int64` count of nanoseconds.  It is embedded as an
  `Int`; every arithmetic operation the package performs on durations is
  followed by `wrapInt64`, the two's-complement wrap-around of Go.
* `time.Time` belongs to the standard library.  It is embedded as an instant
  on an unbounded time line: the number of nanoseconds elapsed since the zero
  time `0001-01-01 00:00:00 UTC`, together with the location used to display
  it.  `Time.Add` is the addition on that line.  In the library the seconds
  are kept in an `int64` and `Add` saturates at the ends of its range;
  `Time.AddSaturating` is the method in full, `Time.AddExact` says that it does
  not saturate, and `Add_eq_AddSaturating` that the two then agree.  The
  theorems on `ConstantDelaySchedule.Next` carry `Time.AddExact` as a
  hypothesis.  The search of `SpecSchedule.Next` is embedded on the unbounded
  line, where it always returns; what the code does at the last instant a
  `time.Time` can hold is evaluated with `Time.AddSaturating` in the last
  section.
* `*time.Location` is embedded as a zone with a constant offset from UTC
  (no daylight-saving transitions), and a flag telling whether the pointer is
  `time.Local`.  A nil location is not modelled.
* The calendar is the proleptic Gregorian calendar used by `time`.
* `EntryID` is an `int`, taken to be 64 bits wide: `nextID++` is followed by
  `wrapInt64`.
* A `Cron` that is not running is embedded by state passing: each method
  takes the `Cron` and returns the new one.  The channels of the run loop are
  not part of the model; the cases of its `select` are functions on the entry
  list.
* A job is an effect on a world that returns or panics (`Run`); a wrapper is
  a function on jobs.  The job wrapped by `SkipIfStillRunning` is shared by
  goroutines: it is embedded as a transition system whose steps are its
  channel operations, and an execution is any interleaving of them.
-/

namespace Cron

/-! ## Durations -/

/-- Two's-complement wrap-around of a mathematical integer into `int64`. -/
def wrapInt64 (x : Int) : Int :=
  (x + 9223372036854775808) % 18446744073709551616 - 9223372036854775808

/-- The values an `int64` can hold. -/
def isInt64 (x : Int) : Prop :=
  -9223372036854775808 ≤ x ∧ x ≤ 9223372036854775807

instance (x : Int) : Decidable (isInt64 x) := by
  unfold isInt64; infer_instance

/-- Constant `time.Nanosecond`. -/
def Nanosecond : Int := 1

/-- Constant `time.Second`. -/
def Second : Int := 1000000000

/-- Constant `time.Minute`. -/
def Minute : Int := 60 * Second

/-- Constant `time.Hour`. -/
def Hour : Int := 60 * Minute

/-! ## Calendar -/

/-- Number of days from 0001-01-01 to January 1 of `year`. -/
def daysSinceEpoch (year : Int) : Int :=
  365 * (year - 1) + (year - 1) / 4 - (year - 1) / 100 + (year - 1) / 400

/-- Leap years of the Gregorian calendar (`time.isLeap`). -/
def isLeap (year : Int) : Bool :=
  year % 4 = 0 && (year % 100 ≠ 0 || year % 400 = 0)

/-- Table `time.daysBefore`: days of a non-leap year before month `m`
(`m = 1` is January; `m = 13` gives the length of the year). -/
def daysBefore (m : Int) : Int :=
  if m ≤ 1 then 0
  else if m = 2 then 31
  else if m = 3 then 59
  else if m = 4 then 90
  else if m = 5 then 120
  else if m = 6 then 151
  else if m = 7 then 181
  else if m = 8 then 212
  else if m = 9 then 243
  else if m = 10 then 273
  else if m = 11 then 304
  else if m = 12 then 334
  else 365

/-- Days of `year` before the first day of month `m`, leap day included. -/
def daysBeforeMonth (year m : Int) : Int :=
  if isLeap year && decide (3 ≤ m) then daysBefore m + 1 else daysBefore m

/-- Year and zero-based day of the year of a day number counted from
0001-01-01, by 400-, 100-, 4- and 1-year cycles (`time.absDate`). -/
def absDate (d : Int) : Int × Int :=
  let n400 := d / 146097
  let d1 := d - 146097 * n400
  let n100 := d1 / 36524
  let n100 := n100 - n100 / 4
  let d2 := d1 - 36524 * n100
  let n4 := d2 / 1461
  let d3 := d2 - 1461 * n4
  let n1 := d3 / 365
  let n1 := n1 - n1 / 4
  (400 * n400 + 100 * n100 + 4 * n4 + n1 + 1, d3 - 365 * n1)

/-- Month (1..12) of the zero-based day `yday` of `year`. -/
def monthOfYday (year yday : Int) : Int :=
  if yday < daysBeforeMonth year 2 then 1
  else if yday < daysBeforeMonth year 3 then 2
  else if yday < daysBeforeMonth year 4 then 3
  else if yday < daysBeforeMonth year 5 then 4
  else if yday < daysBeforeMonth year 6 then 5
  else if yday < daysBeforeMonth year 7 then 6
  else if yday < daysBeforeMonth year 8 then 7
  else if yday < daysBeforeMonth year 9 then 8
  else if yday < daysBeforeMonth year 10 then 9
  else if yday < daysBeforeMonth year 11 then 10
  else if yday < daysBeforeMonth year 12 then 11
  else 12

/-- Year of a day number counted from 0001-01-01. -/
def yearOfDays (d : Int) : Int := (absDate d).1

/-- Month (1..12) of a day number counted from 0001-01-01. -/
def monthOfDays (d : Int) : Int := monthOfYday (absDate d).1 (absDate d).2

/-- Day of the month of a day number counted from 0001-01-01. -/
def dayOfDays (d : Int) : Int :=
  (absDate d).2 - daysBeforeMonth (yearOfDays d) (monthOfDays d) + 1

/-! ## Instants -/

/-- A `*time.Location`: whether it is the pointer `time.Local`, and its
constant offset east of UTC in seconds. -/
structure Location where
  isLocal : Bool
  offset : Int
deriving DecidableEq, Repr

/-- Location `time.UTC`. -/
def UTC : Location := ⟨false, 0⟩

/-- A `time.Time`: nanoseconds since 0001-01-01 00:00:00 UTC and the
location it is displayed in. -/
structure Time where
  ns : Int
  loc : Location
deriving DecidableEq, Repr

namespace Time

/-- The zero value `time.Time{}`. -/
def zero : Time := ⟨0, UTC⟩

/-- Method `IsZero`. -/
def IsZero (t : Time) : Bool := t.ns = 0

/-- Method `Before`. -/
def Before (t u : Time) : Bool := t.ns < u.ns

/-- Method `After`. -/
def After (t u : Time) : Bool := u.ns < t.ns

/-- Method `Location`. -/
def Location (t : Time) : Cron.Location := t.loc

/-- Method `In`: same instant, displayed in `loc`. -/
def In (t : Time) (loc : Cron.Location) : Time := ⟨t.ns, loc⟩

/-- Method `Add`, on the unbounded time line: the library computes this sum
as long as its count of seconds stays within an `int64` (`Time.AddExact`) and
saturates otherwise (`Time.AddSaturating`). -/
def Add (t : Time) (d : Int) : Time := ⟨t.ns + d, t.loc⟩

/-- Method `Truncate`: round down to a multiple of `d` since the zero time. -/
def Truncate (t : Time) (d : Int) : Time :=
  if d ≤ 0 then t else ⟨t.ns - t.ns % d, t.loc⟩

/-- Seconds since 0001-01-01 00:00:00 on the local clock of `t`. -/
def abs (t : Time) : Int := t.ns / 1000000000 + t.loc.offset

/-- Method `Nanosecond`. -/
def Nanosecond (t : Time) : Int := t.ns % 1000000000

/-- Method `Second`. -/
def Second (t : Time) : Int := t.abs % 60

/-- Method `Minute`. -/
def Minute (t : Time) : Int := t.abs % 3600 / 60

/-- Method `Hour`. -/
def Hour (t : Time) : Int := t.abs % 86400 / 3600

/-- Local day number since 0001-01-01. -/
def days (t : Time) : Int := t.abs / 86400

/-- Method `Year`. -/
def Year (t : Time) : Int := yearOfDays t.days

/-- Method `Month` (January is 1). -/
def Month (t : Time) : Int := monthOfDays t.days

/-- Method `Day`. -/
def Day (t : Time) : Int := dayOfDays t.days

/-- Method `Weekday` (Sunday is 0); 0001-01-01 was a Monday. -/
def Weekday (t : Time) : Int := (t.days + 1) % 7

end Time

/-- Function `time.Date`: months outside 1..12 overflow into the year, and
the other fields are added up on the local clock of `loc`. -/
def Date (year month day hour min sec nsec : Int) (loc : Location) : Time :=
  let m := month - 1
  let year := year + m / 12
  let month := m % 12 + 1
  let d := daysSinceEpoch year + daysBeforeMonth year month + (day - 1)
  let abs := d * 86400 + hour * 3600 + min * 60 + sec
  ⟨(abs - loc.offset) * 1000000000 + nsec, loc⟩

/-- Method `AddDate`. -/
def Time.AddDate (t : Time) (years months days : Int) : Time :=
  Date (t.Year + years) (t.Month + months) (t.Day + days)
    t.Hour t.Minute t.Second t.Nanosecond t.Location

/-- Constant `time.January`. -/
def January : Int := 1

/-! ## constant_delay.go -/

/-- ConstantDelaySchedule: a simple recurring duty cycle. -/
structure ConstantDelaySchedule where
  Delay : Int
deriving DecidableEq, Repr

/-- Function `Every`: delays below one second are rounded up to one second,
and anything below a second is truncated. -/
def Every (duration : Int) : ConstantDelaySchedule :=
  let duration := if duration < Second then Second else duration
  ⟨wrapInt64 (duration - Int.tmod duration Second)⟩

/-- Method `ConstantDelaySchedule.Next`. -/
def ConstantDelaySchedule.Next (schedule : ConstantDelaySchedule) (t : Time) : Time :=
  t.Add (wrapInt64 (schedule.Delay - wrapInt64 (t.Nanosecond * Nanosecond)))

/-! ## spec.go -/

/-- SpecSchedule: the permitted values of each field as bit sets (`uint64`). -/
structure SpecSchedule where
  Second : Nat
  Minute : Nat
  Hour : Nat
  Dom : Nat
  Month : Nat
  Dow : Nat
  Location : Cron.Location
deriving DecidableEq, Repr

/-- Constant `starBit = 1 << 63`. -/
def starBit : Nat := 1 <<< 63

/-- The Go expression `1<<uint(v) & mask` on `uint64` operands: a negative
`v` converts to a shift count of at least 64, which shifts the 1 out. -/
def bitAnd (v : Int) (mask : Nat) : Nat :=
  (if v < 0 then 0 else (1 <<< v.toNat) % 18446744073709551616) &&& mask

/-- Function `dayMatches`. -/
def dayMatches (s : SpecSchedule) (t : Time) : Bool :=
  let domMatch : Bool := bitAnd t.Day s.Dom > 0
  let dowMatch : Bool := bitAnd t.Weekday s.Dow > 0
  if s.Dom &&& starBit > 0 || s.Dow &&& starBit > 0 then
    domMatch && dowMatch
  else
    domMatch || dowMatch

/-- Program points of `SpecSchedule.Next`: the label `WRAP` and the heads of
the five `for` loops. -/
inductive Label where
  | WRAP | MONTH | DAY | HOUR | MINUTE | SECOND
deriving DecidableEq, Repr

/-- Local variables of `SpecSchedule.Next` that change during the search. -/
structure NextState where
  pc : Label
  t : Time
  added : Bool
deriving DecidableEq, Repr

/-- One step of `SpecSchedule.Next` from a program point: either the next
program point (`Sum.inl`) or the returned time (`Sum.inr`). -/
def nextStep (s : SpecSchedule) (loc origLocation : Location) (yearLimit : Int)
    (st : NextState) : NextState ⊕ Time :=
  let t := st.t
  let added := st.added
  match st.pc with
  | .WRAP =>
    if t.Year > yearLimit then .inr Time.zero
    else .inl ⟨.MONTH, t, added⟩
  | .MONTH =>
    if bitAnd t.Month s.Month = 0 then
      let t := if !added then Date t.Year t.Month 1 0 0 0 0 loc else t
      let t := t.AddDate 0 1 0
      if t.Month = January then .inl ⟨.WRAP, t, true⟩
      else .inl ⟨.MONTH, t, true⟩
    else .inl ⟨.DAY, t, added⟩
  | .DAY =>
    if !dayMatches s t then
      let t := if !added then Date t.Year t.Month t.Day 0 0 0 0 loc else t
      let t := t.AddDate 0 0 1
      let t :=
        if t.Hour ≠ 0 then
          if t.Hour > 12 then t.Add (wrapInt64 (wrapInt64 (24 - t.Hour) * Hour))
          else t.Add (wrapInt64 (wrapInt64 (-t.Hour) * Hour))
        else t
      if t.Day = 1 then .inl ⟨.WRAP, t, true⟩
      else .inl ⟨.DAY, t, true⟩
    else .inl ⟨.HOUR, t, added⟩
  | .HOUR =>
    if bitAnd t.Hour s.Hour = 0 then
      let t := if !added then Date t.Year t.Month t.Day t.Hour 0 0 0 loc else t
      let t := t.Add (wrapInt64 (1 * Hour))
      if t.Hour = 0 then .inl ⟨.WRAP, t, true⟩
      else .inl ⟨.HOUR, t, true⟩
    else .inl ⟨.MINUTE, t, added⟩
  | .MINUTE =>
    if bitAnd t.Minute s.Minute = 0 then
      let t := if !added then t.Truncate Minute else t
      let t := t.Add (wrapInt64 (1 * Minute))
      if t.Minute = 0 then .inl ⟨.WRAP, t, true⟩
      else .inl ⟨.MINUTE, t, true⟩
    else .inl ⟨.SECOND, t, added⟩
  | .SECOND =>
    if bitAnd t.Second s.Second = 0 then
      let t := if !added then t.Truncate Second else t
      let t := t.Add (wrapInt64 (1 * Second))
      if t.Second = 0 then .inl ⟨.WRAP, t, true⟩
      else .inl ⟨.SECOND, t, true⟩
    else .inr (t.In origLocation)

/-- Run `nextStep` until the function returns, for at most `fuel` steps. -/
def nextRun (s : SpecSchedule) (loc origLocation : Location) (yearLimit : Int) :
    Nat → NextState → Option Time
  | 0, _ => none
  | fuel + 1, st =>
    match nextStep s loc origLocation yearLimit st with
    | .inl st' => nextRun s loc origLocation yearLimit fuel st'
    | .inr r => some r

/-- The search start of `SpecSchedule.Next`: the time converted to the
location of the schedule and advanced to the upcoming whole second. -/
def nextStart (s : SpecSchedule) (t : Time) : Time :=
  let t := if s.Location.isLocal then t else t.In s.Location
  t.Add (wrapInt64 (wrapInt64 (1 * Second) - wrapInt64 (t.Nanosecond * Nanosecond)))

/-- A number of steps within which the search of `SpecSchedule.Next` from
`t` is over: seven for each second up to the end of the year after
`yearLimit`. -/
def nextFuel (t : Time) (yearLimit : Int) : Nat :=
  (7 * (daysSinceEpoch (yearLimit + 2) * 86400 - t.abs) + 7).toNat

/-- Method `SpecSchedule.Next`, on the unbounded time line; `none` only if
the step budget `nextFuel` were exhausted, which `Next_result` shows never
happens there. -/
def SpecSchedule.Next (s : SpecSchedule) (t : Time) : Option Time :=
  let origLocation := t.Location
  let loc := if s.Location.isLocal then t.Location else s.Location
  let t := nextStart s t
  let added := false
  let yearLimit := t.Year + 5
  nextRun s loc origLocation yearLimit (nextFuel t yearLimit) ⟨.WRAP, t, added⟩

/-! ## cron.go -/

/-- Entry: a schedule and the job to run on it.  The `Schedule` interface
is embedded as its single method `Next`. -/
structure Entry (J : Type) where
  ID : Int
  Schedule : Time → Time
  Next : Time
  Prev : Time
  WrappedJob : J
  Job : J

/-- Type `byTime`: a slice of entries, ordered by time with the zero time
at the end. -/
abbrev byTime (J : Type) := List (Entry J)

/-- Method `byTime.Less`. -/
def byTime.Less {J : Type} (s : byTime J) (i j : Fin s.length) : Bool :=
  if (s.get i).Next.IsZero then false
  else if (s.get j).Next.IsZero then true
  else (s.get i).Next.Before (s.get j).Next

/-! ## chain.go -/

/-- Chain: a sequence of job wrappers (`JobWrapper` is `func(Job) Job`). -/
structure Chain (J : Type) where
  wrappers : List (J → J)

/-- Function `NewChain`. -/
def NewChain {J : Type} (c : List (J → J)) : Chain J := ⟨c⟩

/-- Method `Chain.Then`: the loop `for i := range c.wrappers` applying
`c.wrappers[len(c.wrappers)-i-1]` to the job built so far. -/
def Chain.Then {J : Type} (c : Chain J) (j : J) : J :=
  (List.range c.wrappers.length).foldl
    (fun j i =>
      match c.wrappers[c.wrappers.length - i - 1]? with
      | some w => w j
      | none => j)
    j

/-- A job that appends its name to the log it is run on. -/
def namedJob (name : String) : List String → List String :=
  fun log => log ++ [name]

/-- A wrapper that logs before and after running its inner job. -/
def logWrapper (name : String) (j : List String → List String) :
    List String → List String :=
  fun log => j (log ++ ["before-" ++ name]) ++ ["after-" ++ name]

/-! ## Specification-side notions -/

/-- The instant `t` with its sub-second component set to zero. -/
def Time.zeroSubsecond (t : Time) : Time := ⟨t.ns - t.Nanosecond, t.loc⟩

/-- The leap day, for a leap year: the days `year` has beyond 365. -/
def leapDay (y : Int) : Int := if isLeap y then 1 else 0

/-- The day number `D` (counted from 0001-01-01) is day `d` of month `m` of
year `y`, a date of the calendar. -/
def IsCivil (D y m d : Int) : Prop :=
  1 ≤ m ∧ m ≤ 12 ∧ 1 ≤ d ∧ d ≤ daysBeforeMonth y (m + 1) - daysBeforeMonth y m ∧
  D = daysSinceEpoch y + daysBeforeMonth y m + (d - 1)

/-- The whole-second instant that reads `A` seconds since 0001-01-01 00:00:00
on the local clock of `loc`. -/
def atAbs (loc : Location) (A : Int) : Time := ⟨(A - loc.offset) * 1000000000, loc⟩

/-! ## The loop bodies of `SpecSchedule.Next` on the local clock

The effect of one iteration of each loop on the number of seconds the local
clock reads; `nextStep_MONTH` to `nextStep_SECOND` relate them to `nextStep`. -/

/-- Month loop: back to the first of the month if nothing was added yet,
then one month ahead. -/
def monthAdvance (added : Bool) (A : Int) : Int :=
  let first := if added then A else (A / 86400 - (dayOfDays (A / 86400) - 1)) * 86400
  first + (daysBeforeMonth (yearOfDays (first / 86400)) (monthOfDays (first / 86400) + 1)
    - daysBeforeMonth (yearOfDays (first / 86400)) (monthOfDays (first / 86400))) * 86400

/-- Day loop: back to midnight if nothing was added yet, one day ahead, and
the correction of the hour when it is not midnight. -/
def dayAdvance (added : Bool) (A : Int) : Int :=
  let A1 := (if added then A else A / 86400 * 86400) + 86400
  let h := A1 % 86400 / 3600
  if h ≠ 0 then
    if h > 12 then A1 + (24 - h) * 3600 else A1 + (-h) * 3600
  else A1

/-- Hour loop: back to the start of the hour if nothing was added yet, then
one hour ahead. -/
def hourAdvance (added : Bool) (A : Int) : Int :=
  (if added then A else A / 3600 * 3600) + 3600

/-- Minute loop: `Truncate(time.Minute)`, which rounds the absolute time, if
nothing was added yet, then one minute ahead. -/
def minuteAdvance (offset : Int) (added : Bool) (A : Int) : Int :=
  (if added then A else A - (A - offset) % 60) + 60

/-- Second loop: one second ahead. -/
def secondAdvance (A : Int) : Int := A + 1

/-! ## Invariant of the search of `SpecSchedule.Next` -/

/-- Position of a program point in the order the loops are written. -/
def Label.idx : Label → Int
  | .WRAP => 0
  | .MONTH => 1
  | .DAY => 2
  | .HOUR => 3
  | .MINUTE => 4
  | .SECOND => 5

/-- What holds whenever the search is at program point `pc` with the local
clock of `t` reading `A` seconds, having started at `A0` with year limit `yl`:
the time never moves back behind the start, the fields already checked at
`pc` are permitted, the year is within the limit, and once something was
added the time is at midnight unless its month and day are still permitted. -/
structure NextInv (s : SpecSchedule) (loc : Location) (A0 yl : Int)
    (pc : Label) (A : Int) (added : Bool) : Prop where
  ge : A0 ≤ A
  fresh : added = false → A = A0
  year : yearOfDays (A / 86400) ≤ yl + (if pc = .WRAP then 1 else 0)
  month : 2 ≤ pc.idx → bitAnd (monthOfDays (A / 86400)) s.Month ≠ 0
  day : 3 ≤ pc.idx → dayMatches s (atAbs loc A) = true
  hour : 4 ≤ pc.idx → bitAnd (A % 86400 / 3600) s.Hour ≠ 0
  minute : 5 ≤ pc.idx → bitAnd (A % 3600 / 60) s.Minute ≠ 0
  aligned : added = true → pc.idx ≤ 2 →
    A % 86400 / 3600 = 0 ∨
      (bitAnd (monthOfDays (A / 86400)) s.Month ≠ 0 ∧ dayMatches s (atAbs loc A) = true)

/-- Number of steps the search can still take from program point `pc` with
the local clock reading `A`. -/
def nextMeasure (yl : Int) (pc : Label) (A : Int) : Int :=
  7 * (daysSinceEpoch (yl + 2) * 86400 - A) + (6 - pc.idx)

/-- Outcome of one step from a state satisfying the invariant: a state
satisfying it with a smaller measure, the zero time returned at `WRAP` past
the year limit, or the current time returned at the end of the second loop. -/
def StepOK (s : SpecSchedule) (loc orig : Location) (A0 yl : Int)
    (pc : Label) (A : Int) (added : Bool) : Prop :=
  (∃ pc' A' added',
      nextStep s loc orig yl ⟨pc, atAbs loc A, added⟩ = .inl ⟨pc', atAbs loc A', added'⟩ ∧
      NextInv s loc A0 yl pc' A' added' ∧ nextMeasure yl pc' A' < nextMeasure yl pc A) ∨
  (nextStep s loc orig yl ⟨pc, atAbs loc A, added⟩ = .inr Time.zero ∧
      pc = .WRAP ∧ yl < yearOfDays (A / 86400)) ∨
  (nextStep s loc orig yl ⟨pc, atAbs loc A, added⟩ = .inr ((atAbs loc A).In orig) ∧
      pc = .SECOND ∧ bitAnd (A % 60) s.Second ≠ 0)

/-- Bit `v` of the bit set `mask` is set: the value `v` is permitted. -/
def permits (mask : Nat) (v : Int) : Bool := mask.testBit v.toNat

/-- The instant `u`, read on its own clock, satisfies the rule `s`: it falls
on a whole second, its second, minute, hour and month are permitted, and
`dayMatches` holds. -/
def Satisfies (s : SpecSchedule) (u : Time) : Prop :=
  u.Nanosecond = 0 ∧ permits s.Second u.Second = true ∧ permits s.Minute u.Minute = true ∧
  permits s.Hour u.Hour = true ∧ permits s.Month u.Month = true ∧ dayMatches s u = true

/-- The location `SpecSchedule.Next` searches in (its variable `loc`): the
location of the schedule, or that of the given time for `time.Local`. -/
def nextLoc (s : SpecSchedule) (t : Time) : Location :=
  if s.Location.isLocal then t.Location else s.Location

/-! ## Rules and instants of the examples -/

/-- The rule "February 30 at midnight": `Second`, `Minute` and `Hour` permit
only 0, `Dom` only 30, `Month` only February, and `Dow` is a wildcard. -/
def ruleFeb30 : SpecSchedule :=
  ⟨1, 1, 1, 1 <<< 30, 1 <<< 2, 127 ||| starBit, UTC⟩

/-- The rule "February 29 at midnight": `Second`, `Minute` and `Hour` permit
only 0, `Dom` only 29, `Month` only February, and `Dow` is a wildcard. -/
def ruleFeb29 : SpecSchedule :=
  ⟨1, 1, 1, 1 <<< 29, 1 <<< 2, 127 ||| starBit, UTC⟩

/-- The rule "every hour at minute 30" (`30 * * * *`): `Second` permits only
0, `Minute` only 30, and `Hour`, `Dom`, `Month` and `Dow` are wildcards: all
the values of the field and the star bit. -/
def ruleHourly30 : SpecSchedule :=
  ⟨1, 1 <<< 30, 16777215 ||| starBit, 4294967294 ||| starBit, 8190 ||| starBit,
    127 ||| starBit, UTC⟩

/-! ## The search skips no instant that satisfies the rule -/

/-- The whole second at which the local clock reads `x` satisfies the
rule, stated with the tests `SpecSchedule.Next` makes. -/
def MatchAt (s : SpecSchedule) (loc : Location) (x : Int) : Prop :=
  bitAnd (x % 60) s.Second ≠ 0 ∧ bitAnd (x % 3600 / 60) s.Minute ≠ 0 ∧
  bitAnd (x % 86400 / 3600) s.Hour ≠ 0 ∧ bitAnd (monthOfDays (x / 86400)) s.Month ≠ 0 ∧
  dayMatches s (atAbs loc x) = true

/-- In a zone whose offset is a whole number of minutes: no second between
the start `A0` and the current time `A` satisfies the rule, and once
something was added the current time is at the start of a month, day, hour or
minute unless that field and the coarser ones are still permitted. -/
structure NextSkip (s : SpecSchedule) (loc : Location) (A0 : Int)
    (pc : Label) (A : Int) (added : Bool) : Prop where
  skip : ∀ x, A0 ≤ x → x < A → ¬ MatchAt s loc x
  alMonth : added = true → pc.idx ≤ 1 →
    (dayOfDays (A / 86400) = 1 ∧ A % 86400 = 0) ∨
      bitAnd (monthOfDays (A / 86400)) s.Month ≠ 0
  alDay : added = true → pc.idx ≤ 2 →
    A % 86400 = 0 ∨
      (bitAnd (monthOfDays (A / 86400)) s.Month ≠ 0 ∧ dayMatches s (atAbs loc A) = true)
  alHour : added = true → pc.idx ≤ 3 →
    A % 3600 = 0 ∨
      (bitAnd (monthOfDays (A / 86400)) s.Month ≠ 0 ∧ dayMatches s (atAbs loc A) = true ∧
        bitAnd (A % 86400 / 3600) s.Hour ≠ 0)
  alMinute : added = true → pc.idx ≤ 4 →
    A % 60 = 0 ∨
      (bitAnd (monthOfDays (A / 86400)) s.Month ≠ 0 ∧ dayMatches s (atAbs loc A) = true ∧
        bitAnd (A % 86400 / 3600) s.Hour ≠ 0 ∧ bitAnd (A % 3600 / 60) s.Minute ≠ 0)

/-! ## cron.go: the registry and the facade -/

set_option linter.dupNamespace false

/-- Cron: the fields of the struct that the facade and the run loop compute
with.  The entries are held by value; the channels, the mutex, the logger,
the parser and the wait group are not part of the model.  `EntryID` is an
`int`, taken to be 64 bits wide. -/
structure Cron (J : Type) where
  entries : List (Entry J)
  chain : Chain J
  running : Bool
  location : Location
  nextID : Int

/-- The options of option.go.  `WithParser`, `WithSeconds` and `WithLogger`
set fields that are not part of the model. -/
inductive CronOption (J : Type) where
  | WithLocation (loc : Location)
  | WithSeconds
  | WithParser
  | WithChain (wrappers : List (J → J))
  | WithLogger

/-- Applying an option to a `Cron`. -/
def CronOption.apply {J : Type} : CronOption J → Cron J → Cron J
  | .WithLocation loc, c => { c with location := loc }
  | .WithSeconds, c => c
  | .WithParser, c => c
  | .WithChain wrappers, c => { c with chain := NewChain wrappers }
  | .WithLogger, c => c

/-- Function `New`; `timeLocal` is the location `time.Local` of the machine. -/
def New {J : Type} (timeLocal : Location) (opts : List (CronOption J)) : Cron J :=
  opts.foldl (fun c opt => opt.apply c)
    { entries := [], chain := NewChain [], running := false, location := timeLocal,
      nextID := 0 }

/-- Method `Entry.Valid`. -/
def Entry.Valid {J : Type} (e : Entry J) : Bool := e.ID ≠ 0

/-- The zero value `Entry{}`.  Its jobs are the nil `Job`, the `default` of
`J`; its nil `Schedule`, which has no method to call, is embedded as the
schedule that always answers the zero time. -/
def Entry.zero {J : Type} [Inhabited J] : Entry J :=
  { ID := 0, Schedule := fun _ => Time.zero, Next := Time.zero, Prev := Time.zero,
    WrappedJob := default, Job := default }

/-- Method `Cron.Schedule`: the new registry and the identifier returned.
On a running `Cron` the entry is sent to the run loop and the registry is left
as it is. -/
def Cron.Schedule {J : Type} (c : Cron J) (schedule : Time → Time) (cmd : J) : Cron J × Int :=
  let c := { c with nextID := wrapInt64 (c.nextID + 1) }
  let entry : Entry J :=
    { ID := c.nextID, Schedule := schedule, Next := Time.zero, Prev := Time.zero,
      WrappedJob := c.chain.Then cmd, Job := cmd }
  if !c.running then
    ({ c with entries := c.entries ++ [entry] }, entry.ID)
  else
    (c, entry.ID)

/-- Method `Cron.removeEntry`: the loop that appends every entry whose `ID`
is not `id` to a new slice. -/
def Cron.removeEntry {J : Type} (c : Cron J) (id : Int) : Cron J :=
  let entries : List (Entry J) :=
    c.entries.foldl (fun entries e => if e.ID ≠ id then entries ++ [e] else entries) []
  { c with entries := entries }

/-- Method `Cron.Remove`.  On a running `Cron` the identifier is sent to the
run loop and the registry is left as it is. -/
def Cron.Remove {J : Type} (c : Cron J) (id : Int) : Cron J :=
  if c.running then c else c.removeEntry id

/-- Method `Cron.entrySnapshot`: a copy of every entry, in order. -/
def Cron.entrySnapshot {J : Type} (c : Cron J) : List (Entry J) :=
  c.entries.map fun e => e

/-- Method `Cron.Entries`.  On a running `Cron` the run loop answers with its
own `entrySnapshot`. -/
def Cron.Entries {J : Type} (c : Cron J) : List (Entry J) :=
  if c.running then c.entrySnapshot else c.entrySnapshot

/-- Method `Cron.Entry`: the first entry of `Entries` with the identifier, or
the zero `Entry`. -/
def Cron.Entry {J : Type} [Inhabited J] (c : Cron J) (id : Int) : Entry J :=
  match c.Entries.find? (fun entry => id == entry.ID) with
  | some entry => entry
  | none => Entry.zero

/-- A call of `Schedule` or `Remove` on a `Cron`. -/
inductive CronCall (J : Type) where
  | Schedule (schedule : Time → Time) (cmd : J)
  | Remove (id : Int)

/-- The `Cron` after a call, and the identifier the call returned, if it
returns one. -/
def Cron.call {J : Type} (c : Cron J) : CronCall J → Cron J × Option Int
  | .Schedule schedule cmd => ((c.Schedule schedule cmd).1, some (c.Schedule schedule cmd).2)
  | .Remove id => (c.Remove id, none)

/-- The `Cron` after a sequence of calls, and the identifiers the `Schedule`
calls returned, in order. -/
def Cron.calls {J : Type} (c : Cron J) : List (CronCall J) → Cron J × List Int
  | [] => (c, [])
  | call :: rest =>
    match c.call call with
    | (c', some id) => (((c'.calls rest).1), id :: (c'.calls rest).2)
    | (c', none) => c'.calls rest

/-- Number of `Schedule` calls in a sequence of calls. -/
def countSchedule {J : Type} : List (CronCall J) → Nat
  | [] => 0
  | .Schedule _ _ :: rest => countSchedule rest + 1
  | .Remove _ :: rest => countSchedule rest

/-- What holds of a `Cron` that is not running after `m` calls of `Schedule`
on it since `New`: the counter is `m`, and the entries have pairwise distinct
identifiers among `1, ..., m`. -/
structure RegistryInv {J : Type} (c : Cron J) (m : Nat) : Prop where
  notRunning : c.running = false
  counter : c.nextID = m
  range : ∀ e ∈ c.entries, 1 ≤ e.ID ∧ e.ID ≤ m
  nodup : (c.entries.map fun e => e.ID).Nodup

/-- A sequence of calls: a job is scheduled, the entry 1 is removed, and a
second job is scheduled (jobs are numbers here). -/
def exampleCalls : List (CronCall Nat) :=
  [.Schedule (fun t => t) 7, .Remove 1, .Schedule (fun t => t) 8]

/-! ## cron.go: the run loop -/

/-- Method `Time.Sub`: the difference as a `Duration`, which saturates at the
least and the greatest `int64` when it is out of range. -/
def Time.Sub (t u : Time) : Int :=
  if isInt64 (t.ns - u.ns) then t.ns - u.ns
  else if t.Before u then -9223372036854775808
  else 9223372036854775807

/-- The test of `byTime.Less` on two entries. -/
def entryLess {J : Type} (a b : Entry J) : Bool :=
  if a.Next.IsZero then false
  else if b.Next.IsZero then true
  else a.Next.Before b.Next

/-- What `sort.Sort(byTime(entries))` leaves: no entry is `Less` than an
entry that stands before it. -/
def byTime.Sorted {J : Type} (s : byTime J) : Prop :=
  ∀ i j : Fin s.length, i < j → byTime.Less s j i = false

/-- The loop `for _, e := range c.entries` of the wake case of `Cron.run`:
the entries after it and the jobs handed to `startJob`, in order. -/
def wakeLoop {J : Type} (now : Time) : List (Entry J) → List (Entry J) × List J
  | [] => ([], [])
  | e :: rest =>
    if e.Next.After now || e.Next.IsZero then (e :: rest, [])
    else
      ({ e with Prev := e.Next, Next := e.Schedule now } :: (wakeLoop now rest).1,
        e.WrappedJob :: (wakeLoop now rest).2)

/-- The wake case of `Cron.run`: `now` read from the timer is put in the
location of the `Cron`, and the due entries are run. -/
def Cron.wake {J : Type} (c : Cron J) (now : Time) : Cron J × List J :=
  let now := now.In c.location
  ({ c with entries := (wakeLoop now c.entries).1 }, (wakeLoop now c.entries).2)

/-- The condition under which `Cron.run` sleeps for the long idle duration:
`len(c.entries) == 0 || c.entries[0].Next.IsZero()`. -/
def timerIdle {J : Type} : List (Entry J) → Bool
  | [] => true
  | e :: _ => e.Next.IsZero

/-- The duration `Cron.run` gives to `time.NewTimer` once the entries are
sorted. -/
def timerDuration {J : Type} (entries : List (Entry J)) (now : Time) : Int :=
  match entries with
  | [] => wrapInt64 (100000 * Hour)
  | e :: _ => if e.Next.IsZero then wrapInt64 (100000 * Hour) else e.Next.Sub now

/-- An entry is due at `now`: its `Next` is not the zero time and not after
`now`. -/
def Entry.due {J : Type} (now : Time) (e : Entry J) : Bool :=
  !e.Next.IsZero && !e.Next.After now

/-- An entry after it was run at `now`. -/
def Entry.fired {J : Type} (now : Time) (e : Entry J) : Entry J :=
  { e with Prev := e.Next, Next := e.Schedule now }

/-- Three entries in the `byTime` order, with `Next` at 10 s, at 20 s and
zero; their schedules are fixed intervals of 60 s and jobs are numbers. -/
def exampleEntries : List (Entry Nat) :=
  [{ ID := 1, Schedule := (Every (60 * Second)).Next, Next := ⟨10000000000, UTC⟩,
     Prev := Time.zero, WrappedJob := 101, Job := 101 },
   { ID := 2, Schedule := (Every (60 * Second)).Next, Next := ⟨20000000000, UTC⟩,
     Prev := Time.zero, WrappedJob := 102, Job := 102 },
   { ID := 3, Schedule := (Every (60 * Second)).Next, Next := Time.zero,
     Prev := Time.zero, WrappedJob := 103, Job := 103 }]

/-- A zone without daylight-saving transitions whose offset is not a whole
number of minutes: `time.FixedZone("", 30)`, 30 seconds east of UTC. -/
def zoneHalfMinute : Location := ⟨false, 30⟩

/-- The rule "at second 0 of minute 1 of every hour" in `zoneHalfMinute`:
`Second` permits only 0, `Minute` only 1, and the hour, day of month, month
and day of week are wildcards. -/
def ruleMinute1 : SpecSchedule :=
  ⟨1, 1 <<< 1, 16777215 ||| starBit, 4294967294 ||| starBit, 8190 ||| starBit,
    127 ||| starBit, zoneHalfMinute⟩

/-! ## chain.go: jobs that may panic, and `Recover` -/

/-- A value a panic carries, as `recover()` returns it: a non-nil
`interface{}` that either implements `error` or does not (the runtime turns
`panic(nil)` into the error `*runtime.PanicNilError`). -/
inductive Payload (Err Val : Type) where
  | error (e : Err)
  | value (v : Val)
deriving DecidableEq, Repr

/-- How a call ends: it returns, or it panics with a payload. -/
inductive Outcome (Err Val : Type) where
  | returned
  | panicked (r : Payload Err Val)
deriving DecidableEq, Repr

/-- Method `Job.Run` as an effect on the world `W`: the world it leaves and
how the call ended. -/
abbrev Run (W Err Val : Type) : Type := W → W × Outcome Err Val

/-- Interface `Logger`; the key/value arguments are kept as text. -/
structure Logger (W Err Val : Type) where
  Info : String → List String → Run W Err Val
  Error : Err → String → List String → Run W Err Val

/-- Builtin `recover()` in a deferred function of a call that ended with
`o`: the payload while panicking, and nil otherwise. -/
def recover {Err Val : Type} : Outcome Err Val → Option (Payload Err Val)
  | .returned => none
  | .panicked r => some r

/-- Function `Recover`.  `Errorf v` is `fmt.Errorf("%v", v)` and `Stack w` is
the text `runtime.Stack` leaves in the 64 KiB buffer.  The deferred function
runs when `j.Run()` is over; when it recovers a panic, the call ends the way
its `logger.Error` call ends. -/
def Recover {W Err Val : Type} (Errorf : Val → Err) (Stack : W → String)
    (logger : Logger W Err Val) (j : Run W Err Val) : Run W Err Val :=
  fun w =>
    let (w, o) := j w
    match recover o with
    | some r =>
      let err :=
        match r with
        | .error e => e
        | .value v => Errorf v
      logger.Error err "panic" ["stack", "...\n" ++ Stack w]
        w
    | none => (w, .returned)

/-- A call of a `Logger` method with its arguments. -/
inductive LogCall (Err : Type) where
  | Info (msg : String) (keysAndValues : List String)
  | Error (err : Err) (msg : String) (keysAndValues : List String)
deriving DecidableEq, Repr

/-- A `Logger` that appends every call to the list of calls made so far and
returns. -/
def recordingLogger (Err Val : Type) : Logger (List (LogCall Err)) Err Val where
  Info := fun msg kv calls => (calls ++ [.Info msg kv], .returned)
  Error := fun err msg kv calls => (calls ++ [.Error err msg kv], .returned)

/-- A job that panics with the non-error value `v` without logging. -/
def panickingJob {W Err Val : Type} (v : Val) : Run W Err Val :=
  fun w => (w, .panicked (.value v))

/-! ## chain.go: `SkipIfStillRunning`

The wrapped job is run by any number of goroutines.  Its shared state is the
channel `ch`; an execution is an interleaving of the channel operations of the
invocations and of the ends of their `j.Run()` calls. -/

/-- The state of one job wrapped by `SkipIfStillRunning`: the number of values
buffered in `ch` (capacity 1), the invocations inside `j.Run()`, those whose
`j.Run()` is over (with whether it panicked) and whose deferred send is
pending, those that are over (with whether they ended by a panic), every
invocation that made its `select`, those that began `j.Run()`, and the
`logger.Info` calls made. -/
structure SkipGate where
  ch : Nat
  inner : List Nat
  deferred : List (Nat × Bool)
  finished : List (Nat × Bool)
  started : List Nat
  runs : List Nat
  log : List (String × List String)
deriving DecidableEq, Repr

/-- State when `SkipIfStillRunning(logger)(j)` returns the wrapped job:
`make(chan struct{}, 1)` followed by `ch <- struct{}{}`. -/
def SkipGate.init : SkipGate := ⟨1, [], [], [], [], [], []⟩

/-- The atomic steps of the invocations: the `select` of invocation `i`, the
end of its `j.Run()` (by a panic or not), and its deferred `ch <- v`. -/
inductive GateEvent where
  | invoke (i : Nat)
  | innerEnds (i : Nat) (panics : Bool)
  | send (i : Nat)
deriving DecidableEq, Repr

/-- One step of the wrapped job; `none` when the step cannot happen in this
state (the invocation is not at that point, or the send would block).
`invoke`: with a value in `ch` the receive case takes it and `j.Run()` begins,
otherwise the default case logs "skip" and the invocation is over.
`send`: the deferred function puts the value back, and the invocation is
over, by a panic if `j.Run()` panicked. -/
def SkipGate.step (g : SkipGate) : GateEvent → Option SkipGate
  | .invoke i =>
    if i ∈ g.started then none
    else if 0 < g.ch then
      some { g with ch := g.ch - 1, inner := i :: g.inner, started := i :: g.started,
                    runs := g.runs ++ [i] }
    else
      some { g with log := g.log ++ [("skip", [])], started := i :: g.started,
                    finished := (i, false) :: g.finished }
  | .innerEnds i panics =>
    if i ∈ g.inner then
      some { g with inner := g.inner.erase i, deferred := (i, panics) :: g.deferred }
    else none
  | .send i =>
    match g.deferred.find? (fun x => x.1 == i) with
    | some x =>
      if g.ch < 1 then
        some { g with ch := g.ch + 1, deferred := g.deferred.erase x,
                      finished := x :: g.finished }
      else none
    | none => none

/-- The steps of `events` one after the other. -/
def SkipGate.run (g : SkipGate) : List GateEvent → Option SkipGate
  | [] => some g
  | e :: events =>
    match g.step e with
    | some g1 => g1.run events
    | none => none

/-- The value of `ch` is in the channel or held by exactly one invocation. -/
def SkipGate.Inv (g : SkipGate) : Prop :=
  g.ch + g.inner.length + g.deferred.length = 1

/-! ## cron.go: the states of the run loop -/

/-- Method `Cron.now`: the reading `clock` of `time2.Now()`, put in the
location of the `Cron`. -/
def Cron.now {J : Type} (c : Cron J) (clock : Time) : Time := clock.In c.location

/-- The variables of `Cron.run` while it waits in its `select`: the `Cron`,
whose entries are sorted, and the local variable `now`. -/
structure RunState (J : Type) where
  c : Cron J
  now : Time

/-- The body of the first loop of `Cron.run`: `entry.Next` is set to
`entry.Schedule.Next(now)`. -/
def scheduleEntry {J : Type} (now : Time) (entry : Entry J) : Entry J :=
  { entry with Next := entry.Schedule now }

/-- Method `Cron.run` from its beginning to the first `select`: `now` is read
from the clock, the `Next` of every entry is computed from it, and the entries
are sorted.  `sort` is what `sort.Sort(byTime(...))` does to the entry list. -/
def Cron.run {J : Type} (sort : byTime J → byTime J) (c : Cron J)
    (clock : Time) : RunState J :=
  let now := c.now clock
  let c := { c with entries := c.entries.map (scheduleEntry now) }
  ⟨{ c with entries := sort c.entries }, now⟩

/-- What the `select` of `Cron.run` receives (the stop case ends the loop):
the timer fires at `clock`; a `Schedule(schedule, cmd)` call on the running
`Cron` sends its new entry, and the loop reads `clock`; a snapshot is asked
for; a `Remove(id)` call sends `id`, and the loop reads `clock`. -/
inductive RunEvent (J : Type) where
  | wake (clock : Time)
  | add (clock : Time) (schedule : Time → Time) (cmd : J)
  | snapshot
  | remove (clock : Time) (id : Int)

/-- One case of the `select` of `Cron.run`, up to the next `select`.  The
wake, add and remove cases leave the inner loop, so the entries are sorted
again; the snapshot case answers with `entrySnapshot` and stays in the inner
loop.  In the add case the entry is the one `Schedule` built: the counter
`nextID` is advanced, and `Next` and `Prev` are the zero time until the loop
sets `Next`. -/
def RunState.step {J : Type} (sort : List (Entry J) → List (Entry J)) (s : RunState J) :
    RunEvent J → RunState J
  | .wake clock =>
    let now := clock.In s.c.location
    let c := (s.c.wake clock).1
    ⟨{ c with entries := sort c.entries }, now⟩
  | .add clock schedule cmd =>
    let c := { s.c with nextID := wrapInt64 (s.c.nextID + 1) }
    let newEntry : Entry J :=
      { ID := c.nextID, Schedule := schedule, Next := Time.zero, Prev := Time.zero,
        WrappedJob := c.chain.Then cmd, Job := cmd }
    let now := c.now clock
    let newEntry := { newEntry with Next := newEntry.Schedule now }
    let c := { c with entries := c.entries ++ [newEntry] }
    ⟨{ c with entries := sort c.entries }, now⟩
  | .snapshot => s
  | .remove clock id =>
    let now := s.c.now clock
    let c := s.c.removeEntry id
    ⟨{ c with entries := sort c.entries }, now⟩

/-- The answer of the snapshot case. -/
def RunState.snapshot {J : Type} (s : RunState J) : List (Entry J) := s.c.entrySnapshot

/-- The state of the run loop after a sequence of events. -/
def RunState.steps {J : Type} (sort : List (Entry J) → List (Entry J)) (s : RunState J) :
    List (RunEvent J) → RunState J
  | [] => s
  | ev :: events => (s.step sort ev).steps sort events

/-- The clock readings of a sequence of events never go back, from the
reading `ns` (in nanoseconds) on. -/
def clockOK {J : Type} (ns : Int) : List (RunEvent J) → Bool
  | [] => true
  | .wake clock :: events => decide (ns ≤ clock.ns) && clockOK clock.ns events
  | .add clock _ _ :: events => decide (ns ≤ clock.ns) && clockOK clock.ns events
  | .snapshot :: events => clockOK ns events
  | .remove clock _ :: events => decide (ns ≤ clock.ns) && clockOK clock.ns events

/-- The time of the last wake of a sequence of events, `w` if there is
none. -/
def lastWake {J : Type} (w : Option Time) : List (RunEvent J) → Option Time
  | [] => w
  | .wake clock :: events => lastWake (some clock) events
  | .add _ _ _ :: events => lastWake w events
  | .snapshot :: events => lastWake w events
  | .remove _ _ :: events => lastWake w events

/-- A schedule whose `Next(t)` is the zero time or strictly after `t`. -/
def Punctual (schedule : Time → Time) : Prop :=
  ∀ t, (schedule t).IsZero = true ∨ (schedule t).After t = true

/-- An implementation of `sort.Sort(byTime(...))`: insertion sort with
`byTime.Less`. -/
def sortByTime {J : Type} (entries : List (Entry J)) : List (Entry J) :=
  entries.insertionSort (fun a b => entryLess b a = false)

/-- A `Cron` in UTC with the three entries of `exampleEntries`. -/
def exampleCron : Cron Nat :=
  { entries := exampleEntries, chain := NewChain [], running := true, location := UTC,
    nextID := 3 }

/-- A run: a wake at 15 s, a new job every 30 s at 16 s, a snapshot, the
removal of entry 2 at 17 s, and a wake at 80 s. -/
def exampleEvents : List (RunEvent Nat) :=
  [.wake ⟨15000000000, UTC⟩, .add ⟨16000000000, UTC⟩ (Every (30 * Second)).Next 104,
   .snapshot, .remove ⟨17000000000, UTC⟩ 2, .wake ⟨80000000000, UTC⟩]

/-- What the run loop keeps of its entries, `w` being the time of the last
wake and `now` the last clock reading. -/
structure RunInv {J : Type} (w : Option Time) (now : Int) (entries : List (Entry J)) :
    Prop where
  wake_le : ∀ x, w = some x → x.ns ≤ now
  punctual : ∀ e ∈ entries, Punctual e.Schedule
  prev : ∀ e ∈ entries, e.Prev.ns = 0 ∨ ∃ x, w = some x ∧ e.Prev.ns ≤ x.ns
  order : ∀ e ∈ entries, e.Prev.ns ≠ 0 → e.Next.ns ≠ 0 → e.Prev.ns < e.Next.ns

/-! ## The library's `Add` at the ends of the time line -/

/-- The seconds of `t` since the zero time, the count that `time.Time` keeps
in an `int64`. -/
def Time.sec (t : Time) : Int := t.ns / 1000000000

/-- Method `Add` of the library in full.  The nanoseconds are added first,
with a carry into the seconds; the seconds are then added by `addSec`, which
on overflow of the `int64` leaves the greatest value `1<<63 - 1`, or the least
one `-(1<<63 - 1)` for a negative duration: the instant saturates. -/
def Time.AddSaturating (t : Time) (d : Int) : Time :=
  let dsec := Int.tdiv d 1000000000
  let nsec := t.Nanosecond + Int.tmod d 1000000000
  let dsec := if nsec ≥ 1000000000 then dsec + 1 else if nsec < 0 then dsec - 1 else dsec
  let nsec :=
    if nsec ≥ 1000000000 then nsec - 1000000000
    else if nsec < 0 then nsec + 1000000000 else nsec
  let sum := wrapInt64 (t.sec + dsec)
  let ext :=
    if decide (sum > t.sec) = decide (dsec > 0) then sum
    else if dsec > 0 then 9223372036854775807
    else -9223372036854775807
  ⟨ext * 1000000000 + nsec, t.loc⟩

/-- The library computes `t.Add(d)` without saturating: the seconds of `t`
and those of the sum are values of an `int64`. -/
def Time.AddExact (t : Time) (d : Int) : Prop :=
  isInt64 t.sec ∧ isInt64 ((t.ns + d) / 1000000000)

instance (t : Time) (d : Int) : Decidable (t.AddExact d) := by
  unfold Time.AddExact; infer_instance

/-- The last instant a `time.Time` can hold, in UTC:
`time.Unix(1<<63-1-62135596800, 999999999).UTC()`, which is
292277024627-12-06 15:30:07.999999999. -/
def lastInstant : Time := ⟨9223372036854775807 * 1000000000 + 999999999, UTC⟩

/-- The start of the last second a `time.Time` can hold, in UTC:
292277024627-12-06 15:30:07. -/
def lastSecond : Time := ⟨9223372036854775807 * 1000000000, UTC⟩

/-- The rule "every second" in UTC: every field permits all its values and
is a wildcard. -/
def ruleEverySecond : SpecSchedule :=
  ⟨1152921504606846975 ||| starBit, 1152921504606846975 ||| starBit, 16777215 ||| starBit,
    4294967294 ||| starBit, 8190 ||| starBit, 127 ||| starBit, UTC⟩

/-- A rule that no instant satisfies, in UTC: `Hour` permits no value;
`Second` and `Minute` permit only 0, and the day of month, month and day of
week are wildcards. -/
def ruleNoHour : SpecSchedule :=
  ⟨1, 1, 0, 4294967294 ||| starBit, 8190 ||| starBit, 127 ||| starBit, UTC⟩

/-- A registry of one entry whose `Next` is `next`. -/
def entryAt (next : Time) : List (Entry Nat) :=
  [{ ID := 1, Schedule := (Every (60 * Second)).Next, Next := next, Prev := Time.zero,
     WrappedJob := 101, Job := 101 }]

end Cron

namespace Cron

/-! ## Where the embedding of `Add` is exact -/

/-- Where the library's `Add` does not saturate, it is the addition on the
time line, which is the embedding `Time.Add`. -/
theorem Add_eq_AddSaturating (t : Time) (d : Int) (hd : isInt64 d) (h : t.AddExact d) :
    t.AddSaturating d = t.Add d := by
  obtain ⟨h1, h2⟩ := h
  unfold isInt64 at hd h1 h2
  unfold Time.sec at h1
  unfold Time.AddSaturating Time.Add Time.Nanosecond Time.sec wrapInt64
  simp only [Time.mk.injEq, and_true]
  have hqr : ∃ q r : Int, Int.tdiv d 1000000000 = q ∧ Int.tmod d 1000000000 = r ∧
      q * 1000000000 + r = d ∧ -1000000000 < r ∧ r < 1000000000 ∧
      (0 ≤ d → 0 ≤ r) ∧ (d < 0 → r ≤ 0) := by
    by_cases h0 : 0 ≤ d
    · refine ⟨d / 1000000000, d % 1000000000, Int.tdiv_eq_ediv h0 (by decide),
        Int.tmod_eq_emod h0 (by decide), ?_, ?_, ?_, ?_, ?_⟩ <;> omega
    · have e1 : Int.tdiv d 1000000000 = -((-d) / 1000000000) := by
        have := Int.neg_tdiv (-d) 1000000000
        rw [neg_neg] at this
        rw [this, Int.tdiv_eq_ediv (by omega) (by decide)]
      have e2 : Int.tmod d 1000000000 = d - 1000000000 * -((-d) / 1000000000) := by
        rw [Int.tmod_def, e1]
      refine ⟨_, _, e1, e2, ?_, ?_, ?_, ?_, ?_⟩ <;> omega
  obtain ⟨q, r, e1, e2, hq, hr1, hr2, hr3, hr4⟩ := hqr
  rw [e1, e2]
  by_cases c1 : t.ns % 1000000000 + r ≥ 1000000000
  · simp only [c1, if_true]
    have hs : (t.ns / 1000000000 + (q + 1) + 9223372036854775808) % 18446744073709551616
        - 9223372036854775808 = t.ns / 1000000000 + (q + 1) := by omega
    rw [hs]
    have hc : decide (t.ns / 1000000000 + (q + 1) > t.ns / 1000000000) = decide (q + 1 > 0) := by
      congr 1
      exact propext ⟨fun h => by omega, fun h => by omega⟩
    rw [if_pos hc]
    omega
  · by_cases c2 : t.ns % 1000000000 + r < 0
    · simp only [c1, c2, if_true, if_false]
      have hs : (t.ns / 1000000000 + (q - 1) + 9223372036854775808) % 18446744073709551616
          - 9223372036854775808 = t.ns / 1000000000 + (q - 1) := by omega
      rw [hs]
      have hc : decide (t.ns / 1000000000 + (q - 1) > t.ns / 1000000000)
          = decide (q - 1 > 0) := by
        congr 1
        exact propext ⟨fun h => by omega, fun h => by omega⟩
      rw [if_pos hc]
      omega
    · simp only [c1, c2, if_false]
      have hs : (t.ns / 1000000000 + q + 9223372036854775808) % 18446744073709551616
          - 9223372036854775808 = t.ns / 1000000000 + q := by omega
      rw [hs]
      have hc : decide (t.ns / 1000000000 + q > t.ns / 1000000000) = decide (q > 0) := by
        congr 1
        exact propext ⟨fun h => by omega, fun h => by omega⟩
      rw [if_pos hc]
      omega

/-- At the last instant a `time.Time` can hold, the library's `Add` of one
nanosecond carries into the seconds, which saturate: the result is the start
of the last second, before the instant itself; and from the start of the
last second, adding a second, a minute or an hour changes nothing. -/
theorem AddSaturating_lastInstant :
    lastInstant.AddSaturating 1 = ⟨9223372036854775807 * 1000000000, UTC⟩ ∧
    (lastInstant.AddSaturating 1).Before lastInstant = true ∧
    (lastInstant.AddSaturating 1).AddSaturating Second = lastInstant.AddSaturating 1 ∧
    (lastInstant.AddSaturating 1).AddSaturating Minute = lastInstant.AddSaturating 1 ∧
    (lastInstant.AddSaturating 1).AddSaturating Hour = lastInstant.AddSaturating 1 ∧
    (lastInstant.AddSaturating 1).Hour = 15 ∧ (lastInstant.AddSaturating 1).Minute = 30 ∧
    (lastInstant.AddSaturating 1).Second = 7 := by
  decide

/-! ## Fixed-interval rules -/

theorem wrapInt64_of_isInt64 {x : Int} (h : isInt64 x) : wrapInt64 x = x := by
  unfold isInt64 at h
  unfold wrapInt64
  omega

/-- C1 (as stated, refuted): a schedule whose `Delay` is the least `int64`
evaluated at an instant one nanosecond past a whole second: the subtraction
`Delay - Nanosecond` wraps around, and `Next` lands 2^63 - 1 nanoseconds
after the instant instead of 2^63 nanoseconds before its whole second.  The
library's `Add` does not saturate at this input. -/
theorem C1_counterexample :
    isInt64 (-9223372036854775808) ∧
    (ConstantDelaySchedule.mk (-9223372036854775808)).Next ⟨1, UTC⟩
      = ⟨9223372036854775808, UTC⟩ ∧
    (Time.zeroSubsecond ⟨1, UTC⟩).Add (-9223372036854775808)
      = ⟨-9223372036854775808, UTC⟩ ∧
    (ConstantDelaySchedule.mk (-9223372036854775808)).Next ⟨1, UTC⟩
      ≠ (Time.zeroSubsecond ⟨1, UTC⟩).Add (-9223372036854775808) ∧
    Time.AddExact ⟨1, UTC⟩ 9223372036854775807 ∧
    Time.AddSaturating ⟨1, UTC⟩
        (wrapInt64 (-9223372036854775808 - wrapInt64 (Time.Nanosecond ⟨1, UTC⟩ * Nanosecond)))
      = ⟨9223372036854775808, UTC⟩ ∧
    Time.AddExact (Time.zeroSubsecond ⟨1, UTC⟩) (-9223372036854775808) := by
  decide

/-- C1 (amended): for every schedule `s` and instant `t` such that
`s.Delay - t.Nanosecond()` does not underflow `int64` — in particular for
every `Delay` of at least `-2^63 + 999999999` nanoseconds, hence for every
schedule built by `Every` — and such that the library's `Add` of that
duration to `t` does not saturate (the seconds of `t` and of the sum are
values of an `int64`), `s.Next(t)` is `t` with its sub-second component set
to zero, advanced by `s.Delay`: the library's `Add` gives that instant; and
`Every(1h30m10s).Next(t)` is `t` truncated to the whole second plus 1h30m10s
for every `t` for which that `Add` does not saturate. -/
theorem C1_Next_eq (s : ConstantDelaySchedule) (t : Time)
    (hDelay : isInt64 s.Delay)
    (hsub : -9223372036854775808 ≤ s.Delay - t.Nanosecond)
    (hexact : t.AddExact (s.Delay - t.Nanosecond)) :
    s.Next t = t.zeroSubsecond.Add s.Delay ∧
    s.Next t
      = t.AddSaturating (wrapInt64 (s.Delay - wrapInt64 (t.Nanosecond * Nanosecond))) ∧
    isInt64 (s.Next t).sec ∧
    (Every (1 * Hour + 30 * Minute + 10 * Second)).Delay = 5410 * Second ∧
    (t.AddExact (5410 * Second - t.Nanosecond) →
      (Every (1 * Hour + 30 * Minute + 10 * Second)).Next t
        = t.zeroSubsecond.Add (5410 * Second) ∧
      (Every (1 * Hour + 30 * Minute + 10 * Second)).Next t
        = t.AddSaturating (wrapInt64 (5410 * Second - wrapInt64 (t.Nanosecond * Nanosecond)))) := by
  have hn : 0 ≤ t.Nanosecond ∧ t.Nanosecond < 1000000000 := by
    unfold Time.Nanosecond; omega
  have hE : (Every (1 * Hour + 30 * Minute + 10 * Second)).Delay = 5410 * Second := by
    decide
  have key : ∀ D : Int, isInt64 D → -9223372036854775808 ≤ D - t.Nanosecond →
      t.AddExact (D - t.Nanosecond) →
      (ConstantDelaySchedule.mk D).Next t = t.zeroSubsecond.Add D ∧
      (ConstantDelaySchedule.mk D).Next t
        = t.AddSaturating (wrapInt64 (D - wrapInt64 (t.Nanosecond * Nanosecond))) ∧
      isInt64 ((ConstantDelaySchedule.mk D).Next t).sec := by
    intro D hD hs hx
    have hw : wrapInt64 (D - wrapInt64 (t.Nanosecond * Nanosecond)) = D - t.Nanosecond := by
      unfold isInt64 at hD
      unfold wrapInt64 Nanosecond
      omega
    have hfit : isInt64 (D - t.Nanosecond) := by
      unfold isInt64 at hD ⊢
      omega
    have h1 : (ConstantDelaySchedule.mk D).Next t = t.Add (D - t.Nanosecond) := by
      unfold ConstantDelaySchedule.Next
      rw [hw]
    refine ⟨?_, ?_, ?_⟩
    · rw [h1]
      unfold Time.zeroSubsecond Time.Add
      simp only [Time.mk.injEq, and_true]
      omega
    · rw [hw, Add_eq_AddSaturating t _ hfit hx, h1]
    · rw [h1]
      exact hx.2
  obtain ⟨k1, k2, k3⟩ := key s.Delay hDelay hsub hexact
  refine ⟨k1, k2, k3, hE, fun hx => ?_⟩
  have hD : isInt64 (5410 * Second) := by decide
  have hs : -9223372036854775808 ≤ 5410 * Second - t.Nanosecond := by
    unfold Second; omega
  obtain ⟨j1, j2, -⟩ := key (5410 * Second) hD hs hx
  have e : Every (1 * Hour + 30 * Minute + 10 * Second) = ⟨5410 * Second⟩ := by decide
  rw [e]
  exact ⟨j1, j2⟩

theorem C1_Next_eq_witness :
    Time.AddExact ⟨1234567890, UTC⟩ (5000000000 - Time.Nanosecond ⟨1234567890, UTC⟩) ∧
    (ConstantDelaySchedule.mk 5000000000).Next ⟨1234567890, UTC⟩
      = (Time.zeroSubsecond ⟨1234567890, UTC⟩).Add 5000000000 :=
  ⟨by decide, (C1_Next_eq ⟨5000000000⟩ ⟨1234567890, UTC⟩ (by decide) (by decide) (by decide)).1⟩

/-- C2: for every `int64` duration `d`, zero and negative ones included,
`Every(d).Delay` is a whole number of seconds and at least one second; it is
one second when `d` is below one second, and otherwise `d` without its
sub-second remainder, the largest multiple of one second not above `d`. -/
theorem C2_Every_Delay (d : Int) (hd : isInt64 d) :
    (Every d).Delay % Second = 0 ∧
    Second ≤ (Every d).Delay ∧
    (d < Second → (Every d).Delay = Second) ∧
    (Second ≤ d → (Every d).Delay = d - d % Second ∧
      (Every d).Delay ≤ d ∧
      ∀ k : Int, k * Second ≤ d → k * Second ≤ (Every d).Delay) := by
  unfold isInt64 at hd
  by_cases h : d < Second
  · have hE : (Every d).Delay = Second := by
      unfold Every
      simp only [h, if_true]
      decide
    rw [hE]
    refine ⟨by decide, le_refl _, fun _ => rfl, fun h' => ?_⟩
    omega
  · have hE : (Every d).Delay = d - d % Second := by
      unfold Every
      simp only [h, if_false]
      unfold Second at h ⊢
      rw [Int.tmod_eq_emod (by omega) (by omega)]
      unfold wrapInt64
      omega
    rw [hE]
    unfold Second at h ⊢
    refine ⟨by omega, by omega, fun h' => by omega, fun _ => ⟨rfl, by omega, fun k hk => ?_⟩⟩
    omega

theorem C2_Every_Delay_witness :
    (Every 2500000000).Delay % Second = 0 ∧
    Second ≤ (Every 2500000000).Delay ∧
    ((2500000000 : Int) < Second → (Every 2500000000).Delay = Second) ∧
    (Second ≤ 2500000000 → (Every 2500000000).Delay = 2500000000 - 2500000000 % Second ∧
      (Every 2500000000).Delay ≤ 2500000000 ∧
      ∀ k : Int, k * Second ≤ 2500000000 → k * Second ≤ (Every 2500000000).Delay) :=
  C2_Every_Delay 2500000000 (by decide)

end Cron

namespace Cron

/-! ## Calendar lemmas -/

theorem daysSinceEpoch_succ (y : Int) :
    daysSinceEpoch (y + 1) = daysSinceEpoch y + (if isLeap y then 366 else 365) := by
  unfold daysSinceEpoch isLeap
  simp only [Bool.and_eq_true, Bool.or_eq_true, decide_eq_true_eq, ne_eq, decide_not, Bool.not_eq_true']
  have h5 : y + 1 - 1 = y := by omega
  rw [h5]
  have e4 : y / 4 = (y - 1) / 4 + (if y % 4 = 0 then 1 else 0) := by split <;> omega
  have e100 : y / 100 = (y - 1) / 100 + (if y % 100 = 0 then 1 else 0) := by split <;> omega
  have e400 : y / 400 = (y - 1) / 400 + (if y % 400 = 0 then 1 else 0) := by split <;> omega
  have d1 : y % 400 = 0 → y % 100 = 0 := by omega
  have d2 : y % 100 = 0 → y % 4 = 0 := by omega
  rw [e4, e100, e400]
  by_cases c4 : y % 4 = 0 <;> by_cases c100 : y % 100 = 0 <;> by_cases c400 : y % 400 = 0 <;>
    simp [c4, c100, c400] at d1 d2 ⊢ <;> omega

theorem daysSinceEpoch_lt (y : Int) : daysSinceEpoch y + 365 ≤ daysSinceEpoch (y + 1) := by
  rw [daysSinceEpoch_succ]; split <;> omega

theorem daysSinceEpoch_le (y : Int) : daysSinceEpoch (y + 1) ≤ daysSinceEpoch y + 366 := by
  rw [daysSinceEpoch_succ]; split <;> omega

theorem daysSinceEpoch_mono {y z : Int} (h : y ≤ z) : daysSinceEpoch y ≤ daysSinceEpoch z := by
  obtain ⟨k, rfl⟩ := Int.le.dest h
  induction k with
  | zero => simp
  | succ n ih =>
    have := daysSinceEpoch_lt (y + n)
    have := ih (by omega)
    push_cast
    rw [← add_assoc]
    omega

theorem absDate_spec (d : Int) :
    daysSinceEpoch (absDate d).1 ≤ d ∧ d < daysSinceEpoch ((absDate d).1 + 1) ∧
    (absDate d).2 = d - daysSinceEpoch (absDate d).1 := by
  unfold daysSinceEpoch absDate
  simp only []
  generalize ha : d / 146097 = a
  generalize hb : (d - 146097 * a) / 36524 = b
  generalize he : (d - 146097 * a - 36524 * (b - b / 4)) / 1461 = e
  generalize hf : (d - 146097 * a - 36524 * (b - b / 4) - 1461 * e) / 365 = f
  have hb' : b = 0 ∨ b = 1 ∨ b = 2 ∨ b = 3 ∨ b = 4 := by omega
  have hf' : f = 0 ∨ f = 1 ∨ f = 2 ∨ f = 3 ∨ f = 4 := by omega
  rcases hb' with rfl | rfl | rfl | rfl | rfl <;> rcases hf' with rfl | rfl | rfl | rfl | rfl <;> omega

theorem leapDay_range (y : Int) : leapDay y = 0 ∨ leapDay y = 1 := by
  unfold leapDay; split <;> simp

theorem daysBeforeMonth_1 (y : Int) : daysBeforeMonth y 1 = 0 := by
  simp only [daysBeforeMonth, daysBefore, leapDay]
  generalize isLeap y = b
  cases b <;> decide

theorem daysBeforeMonth_2 (y : Int) : daysBeforeMonth y 2 = 31 := by
  simp only [daysBeforeMonth, daysBefore, leapDay]
  generalize isLeap y = b
  cases b <;> decide

theorem daysBeforeMonth_3 (y : Int) : daysBeforeMonth y 3 = 59 + leapDay y := by
  simp only [daysBeforeMonth, daysBefore, leapDay]
  generalize isLeap y = b
  cases b <;> decide

theorem daysBeforeMonth_4 (y : Int) : daysBeforeMonth y 4 = 90 + leapDay y := by
  simp only [daysBeforeMonth, daysBefore, leapDay]
  generalize isLeap y = b
  cases b <;> decide

theorem daysBeforeMonth_5 (y : Int) : daysBeforeMonth y 5 = 120 + leapDay y := by
  simp only [daysBeforeMonth, daysBefore, leapDay]
  generalize isLeap y = b
  cases b <;> decide

theorem daysBeforeMonth_6 (y : Int) : daysBeforeMonth y 6 = 151 + leapDay y := by
  simp only [daysBeforeMonth, daysBefore, leapDay]
  generalize isLeap y = b
  cases b <;> decide

theorem daysBeforeMonth_7 (y : Int) : daysBeforeMonth y 7 = 181 + leapDay y := by
  simp only [daysBeforeMonth, daysBefore, leapDay]
  generalize isLeap y = b
  cases b <;> decide

theorem daysBeforeMonth_8 (y : Int) : daysBeforeMonth y 8 = 212 + leapDay y := by
  simp only [daysBeforeMonth, daysBefore, leapDay]
  generalize isLeap y = b
  cases b <;> decide

theorem daysBeforeMonth_9 (y : Int) : daysBeforeMonth y 9 = 243 + leapDay y := by
  simp only [daysBeforeMonth, daysBefore, leapDay]
  generalize isLeap y = b
  cases b <;> decide

theorem daysBeforeMonth_10 (y : Int) : daysBeforeMonth y 10 = 273 + leapDay y := by
  simp only [daysBeforeMonth, daysBefore, leapDay]
  generalize isLeap y = b
  cases b <;> decide

theorem daysBeforeMonth_11 (y : Int) : daysBeforeMonth y 11 = 304 + leapDay y := by
  simp only [daysBeforeMonth, daysBefore, leapDay]
  generalize isLeap y = b
  cases b <;> decide

theorem daysBeforeMonth_12 (y : Int) : daysBeforeMonth y 12 = 334 + leapDay y := by
  simp only [daysBeforeMonth, daysBefore, leapDay]
  generalize isLeap y = b
  cases b <;> decide

theorem daysBeforeMonth_13 (y : Int) : daysBeforeMonth y 13 = 365 + leapDay y := by
  simp only [daysBeforeMonth, daysBefore, leapDay]
  generalize isLeap y = b
  cases b <;> decide

theorem yday_range (d : Int) :
    0 ≤ (absDate d).2 ∧ (absDate d).2 < 365 + leapDay (absDate d).1 := by
  have h := absDate_spec d
  have h2 := daysSinceEpoch_succ (absDate d).1
  unfold leapDay
  split at h2 <;> simp_all <;> omega

theorem monthOfYday_unique (y yd m : Int) (h1 : 1 ≤ m) (h2 : m ≤ 12)
    (h3 : daysBeforeMonth y m ≤ yd) (h4 : yd < daysBeforeMonth y (m + 1)) :
    monthOfYday y yd = m := by
  have hl := leapDay_range y
  have hm : m = 1 ∨ m = 2 ∨ m = 3 ∨ m = 4 ∨ m = 5 ∨ m = 6 ∨ m = 7 ∨ m = 8 ∨ m = 9 ∨ m = 10 ∨
    m = 11 ∨ m = 12 := by omega
  unfold monthOfYday
  rw [daysBeforeMonth_2, daysBeforeMonth_3, daysBeforeMonth_4, daysBeforeMonth_5, daysBeforeMonth_6, daysBeforeMonth_7, daysBeforeMonth_8, daysBeforeMonth_9, daysBeforeMonth_10, daysBeforeMonth_11, daysBeforeMonth_12]
  rcases hm with rfl | rfl | rfl | rfl | rfl | rfl | rfl | rfl | rfl | rfl | rfl | rfl <;>
    simp only [Int.reduceAdd] at h4 <;>
    simp only [daysBeforeMonth_1, daysBeforeMonth_2, daysBeforeMonth_3, daysBeforeMonth_4, daysBeforeMonth_5, daysBeforeMonth_6, daysBeforeMonth_7, daysBeforeMonth_8, daysBeforeMonth_9, daysBeforeMonth_10, daysBeforeMonth_11, daysBeforeMonth_12, daysBeforeMonth_13] at h3 h4 <;>
    repeat (first | rw [if_pos (by omega)] | rw [if_neg (by omega)])

theorem monthOfYday_spec (y yd : Int) (h0 : 0 ≤ yd) (h1 : yd < 365 + leapDay y) :
    1 ≤ monthOfYday y yd ∧ monthOfYday y yd ≤ 12 ∧
    daysBeforeMonth y (monthOfYday y yd) ≤ yd ∧
    yd < daysBeforeMonth y (monthOfYday y yd + 1) := by
  have hl := leapDay_range y
  have key : ∃ m : Int, 1 ≤ m ∧ m ≤ 12 ∧ daysBeforeMonth y m ≤ yd ∧
      yd < daysBeforeMonth y (m + 1) := by
    by_cases c2 : yd < 31
    · refine ⟨1, by decide, by decide, ?_, ?_⟩
      · rw [daysBeforeMonth_1]; omega
      · rw [show (1:Int) + 1 = 2 from rfl, daysBeforeMonth_2]; omega
    by_cases c3 : yd < 59 + leapDay y
    · refine ⟨2, by decide, by decide, ?_, ?_⟩
      · rw [daysBeforeMonth_2]; omega
      · rw [show (2:Int) + 1 = 3 from rfl, daysBeforeMonth_3]; omega
    by_cases c4 : yd < 90 + leapDay y
    · refine ⟨3, by decide, by decide, ?_, ?_⟩
      · rw [daysBeforeMonth_3]; omega
      · rw [show (3:Int) + 1 = 4 from rfl, daysBeforeMonth_4]; omega
    by_cases c5 : yd < 120 + leapDay y
    · refine ⟨4, by decide, by decide, ?_, ?_⟩
      · rw [daysBeforeMonth_4]; omega
      · rw [show (4:Int) + 1 = 5 from rfl, daysBeforeMonth_5]; omega
    by_cases c6 : yd < 151 + leapDay y
    · refine ⟨5, by decide, by decide, ?_, ?_⟩
      · rw [daysBeforeMonth_5]; omega
      · rw [show (5:Int) + 1 = 6 from rfl, daysBeforeMonth_6]; omega
    by_cases c7 : yd < 181 + leapDay y
    · refine ⟨6, by decide, by decide, ?_, ?_⟩
      · rw [daysBeforeMonth_6]; omega
      · rw [show (6:Int) + 1 = 7 from rfl, daysBeforeMonth_7]; omega
    by_cases c8 : yd < 212 + leapDay y
    · refine ⟨7, by decide, by decide, ?_, ?_⟩
      · rw [daysBeforeMonth_7]; omega
      · rw [show (7:Int) + 1 = 8 from rfl, daysBeforeMonth_8]; omega
    by_cases c9 : yd < 243 + leapDay y
    · refine ⟨8, by decide, by decide, ?_, ?_⟩
      · rw [daysBeforeMonth_8]; omega
      · rw [show (8:Int) + 1 = 9 from rfl, daysBeforeMonth_9]; omega
    by_cases c10 : yd < 273 + leapDay y
    · refine ⟨9, by decide, by decide, ?_, ?_⟩
      · rw [daysBeforeMonth_9]; omega
      · rw [show (9:Int) + 1 = 10 from rfl, daysBeforeMonth_10]; omega
    by_cases c11 : yd < 304 + leapDay y
    · refine ⟨10, by decide, by decide, ?_, ?_⟩
      · rw [daysBeforeMonth_10]; omega
      · rw [show (10:Int) + 1 = 11 from rfl, daysBeforeMonth_11]; omega
    by_cases c12 : yd < 334 + leapDay y
    · refine ⟨11, by decide, by decide, ?_, ?_⟩
      · rw [daysBeforeMonth_11]; omega
      · rw [show (11:Int) + 1 = 12 from rfl, daysBeforeMonth_12]; omega
    · refine ⟨12, by decide, by decide, ?_, ?_⟩
      · rw [daysBeforeMonth_12]; omega
      · rw [show (12:Int) + 1 = 13 from rfl, daysBeforeMonth_13]; omega
  obtain ⟨m, m1, m2, m3, m4⟩ := key
  rw [monthOfYday_unique y yd m m1 m2 m3 m4]
  exact ⟨m1, m2, m3, m4⟩

theorem daysBeforeMonth_step (y m : Int) (h1 : 1 ≤ m) (h2 : m ≤ 12) :
    0 ≤ daysBeforeMonth y m ∧ daysBeforeMonth y m + 28 ≤ daysBeforeMonth y (m + 1) ∧
    daysBeforeMonth y (m + 1) ≤ daysBeforeMonth y m + 31 ∧
    daysBeforeMonth y (m + 1) ≤ 365 + leapDay y := by
  have hl := leapDay_range y
  have hm : m = 1 ∨ m = 2 ∨ m = 3 ∨ m = 4 ∨ m = 5 ∨ m = 6 ∨ m = 7 ∨ m = 8 ∨ m = 9 ∨ m = 10 ∨
    m = 11 ∨ m = 12 := by omega
  rcases hm with rfl | rfl | rfl | rfl | rfl | rfl | rfl | rfl | rfl | rfl | rfl | rfl <;>
    simp only [Int.reduceAdd] <;>
    simp only [daysBeforeMonth_1, daysBeforeMonth_2, daysBeforeMonth_3, daysBeforeMonth_4,
      daysBeforeMonth_5, daysBeforeMonth_6, daysBeforeMonth_7, daysBeforeMonth_8,
      daysBeforeMonth_9, daysBeforeMonth_10, daysBeforeMonth_11, daysBeforeMonth_12,
      daysBeforeMonth_13] <;>
    omega

theorem daysSinceEpoch_succ_leapDay (y : Int) :
    daysSinceEpoch (y + 1) = daysSinceEpoch y + 365 + leapDay y := by
  rw [daysSinceEpoch_succ]; unfold leapDay; split <;> omega

theorem yearOfDays_unique (D y : Int) (h1 : daysSinceEpoch y ≤ D)
    (h2 : D < daysSinceEpoch (y + 1)) : yearOfDays D = y := by
  have h := absDate_spec D
  unfold yearOfDays
  generalize (absDate D).1 = Y at h
  obtain ⟨h3, h4, -⟩ := h
  by_contra hne
  rcases Int.lt_or_gt_of_ne hne with hlt | hgt
  · have := daysSinceEpoch_mono (show Y + 1 ≤ y by omega)
    omega
  · have := daysSinceEpoch_mono (show y + 1 ≤ Y by omega)
    omega

theorem civil_of_days (D : Int) : IsCivil D (yearOfDays D) (monthOfDays D) (dayOfDays D) := by
  have h := absDate_spec D
  have hy := yday_range D
  have hm := monthOfYday_spec (absDate D).1 (absDate D).2 hy.1 hy.2
  unfold IsCivil dayOfDays monthOfDays yearOfDays
  generalize monthOfYday (absDate D).1 (absDate D).2 = m at hm
  generalize (absDate D).2 = yd at *
  generalize (absDate D).1 = y at *
  obtain ⟨m1, m2, m3, m4⟩ := hm
  obtain ⟨-, -, h3⟩ := h
  refine ⟨m1, m2, ?_, ?_, ?_⟩ <;> omega

theorem civil_unique {D y m d : Int} (h : IsCivil D y m d) :
    yearOfDays D = y ∧ monthOfDays D = m ∧ dayOfDays D = d := by
  obtain ⟨m1, m2, d1, d2, hD⟩ := h
  have hs := daysBeforeMonth_step y m m1 m2
  have hl := leapDay_range y
  have hsucc := daysSinceEpoch_succ_leapDay y
  have hy : yearOfDays D = y := yearOfDays_unique D y (by omega) (by omega)
  have hyd := (absDate_spec D).2.2
  have hy' : (absDate D).1 = y := hy
  rw [hy'] at hyd
  have hm : monthOfDays D = m := by
    unfold monthOfDays
    rw [hy']
    exact monthOfYday_unique y _ m m1 m2 (by omega) (by omega)
  refine ⟨hy, hm, ?_⟩
  unfold dayOfDays
  rw [hy, hm, hyd]
  omega

/-! ## Lemmas on instants -/

theorem atAbs_abs (loc : Location) (A : Int) : (atAbs loc A).abs = A := by
  unfold atAbs Time.abs
  simp only
  omega

theorem atAbs_loc (loc : Location) (A : Int) : (atAbs loc A).loc = loc := rfl

theorem atAbs_days (loc : Location) (A : Int) : (atAbs loc A).days = A / 86400 := by
  unfold Time.days; rw [atAbs_abs]

theorem atAbs_Nanosecond (loc : Location) (A : Int) : (atAbs loc A).Nanosecond = 0 := by
  unfold atAbs Time.Nanosecond
  simp only
  omega

theorem atAbs_Hour (loc : Location) (A : Int) : (atAbs loc A).Hour = A % 86400 / 3600 := by
  unfold Time.Hour; rw [atAbs_abs]

theorem atAbs_Minute (loc : Location) (A : Int) : (atAbs loc A).Minute = A % 3600 / 60 := by
  unfold Time.Minute; rw [atAbs_abs]

theorem atAbs_Second (loc : Location) (A : Int) : (atAbs loc A).Second = A % 60 := by
  unfold Time.Second; rw [atAbs_abs]

theorem atAbs_Year (loc : Location) (A : Int) :
    (atAbs loc A).Year = yearOfDays (A / 86400) := by
  unfold Time.Year; rw [atAbs_days]

theorem atAbs_Month (loc : Location) (A : Int) :
    (atAbs loc A).Month = monthOfDays (A / 86400) := by
  unfold Time.Month; rw [atAbs_days]

theorem atAbs_Day (loc : Location) (A : Int) :
    (atAbs loc A).Day = dayOfDays (A / 86400) := by
  unfold Time.Day; rw [atAbs_days]

theorem atAbs_Weekday (loc : Location) (A : Int) :
    (atAbs loc A).Weekday = (A / 86400 + 1) % 7 := by
  unfold Time.Weekday; rw [atAbs_days]

theorem eq_atAbs_of_Nanosecond (t : Time) (h : t.Nanosecond = 0) : t = atAbs t.loc t.abs := by
  unfold Time.Nanosecond at h
  unfold atAbs Time.abs
  cases t with
  | mk ns loc =>
    simp only [Time.mk.injEq, and_true] at h ⊢
    omega

theorem atAbs_inj {loc : Location} {A B : Int} (h : atAbs loc A = atAbs loc B) : A = B := by
  unfold atAbs at h
  simp only [Time.mk.injEq, and_true] at h
  omega

theorem atAbs_Add (loc : Location) (A k : Int) :
    (atAbs loc A).Add (k * 1000000000) = atAbs loc (A + k) := by
  unfold atAbs Time.Add
  simp only [Time.mk.injEq, and_true]
  omega

theorem atAbs_In (loc loc' : Location) (A : Int) :
    (atAbs loc A).In loc' = atAbs loc' (A - loc.offset + loc'.offset) := by
  unfold atAbs Time.In
  simp only [Time.mk.injEq, and_true]
  omega

theorem atAbs_Truncate_Second (loc : Location) (A : Int) :
    (atAbs loc A).Truncate Second = atAbs loc A := by
  unfold atAbs Time.Truncate Second
  simp only [show ¬ ((1000000000 : Int) ≤ 0) by decide, if_false, Time.mk.injEq, and_true]
  omega

theorem atAbs_Truncate_Minute (loc : Location) (A : Int) :
    (atAbs loc A).Truncate Minute = atAbs loc (A - (A - loc.offset) % 60) := by
  unfold atAbs Time.Truncate Minute Second
  simp only [show ¬ ((60 * 1000000000 : Int) ≤ 0) by decide, if_false, Time.mk.injEq, and_true]
  omega

theorem Date_eq_atAbs (y m d h mi s : Int) (loc : Location) (m1 : 1 ≤ m) (m2 : m ≤ 12) :
    Date y m d h mi s 0 loc
      = atAbs loc ((daysSinceEpoch y + daysBeforeMonth y m + (d - 1)) * 86400
          + h * 3600 + mi * 60 + s) := by
  have e1 : (m - 1) / 12 = 0 := by omega
  have e2 : (m - 1) % 12 + 1 = m := by omega
  unfold Date atAbs
  simp only [e1, e2, add_zero]

theorem Date_eq_atAbs_13 (y d h mi s : Int) (loc : Location) :
    Date y 13 d h mi s 0 loc
      = atAbs loc ((daysSinceEpoch y + daysBeforeMonth y 13 + (d - 1)) * 86400
          + h * 3600 + mi * 60 + s) := by
  have e1 : ((13 : Int) - 1) / 12 = 1 := by decide
  have e2 : ((13 : Int) - 1) % 12 + 1 = 1 := by decide
  unfold Date atAbs
  simp only [e1, e2, add_zero, daysBeforeMonth_1, daysBeforeMonth_13,
    daysSinceEpoch_succ_leapDay]
  simp only [Time.mk.injEq, and_true]
  omega

theorem Date_eq_atAbs' (y m d h mi s : Int) (loc : Location) (m1 : 1 ≤ m) (m2 : m ≤ 13) :
    Date y m d h mi s 0 loc
      = atAbs loc ((daysSinceEpoch y + daysBeforeMonth y m + (d - 1)) * 86400
          + h * 3600 + mi * 60 + s) := by
  by_cases h13 : m = 13
  · subst h13; exact Date_eq_atAbs_13 y d h mi s loc
  · exact Date_eq_atAbs y m d h mi s loc m1 (by omega)

theorem Date_trunc_month (loc : Location) (A : Int) :
    Date (atAbs loc A).Year (atAbs loc A).Month 1 0 0 0 0 loc
      = atAbs loc ((A / 86400 - (dayOfDays (A / 86400) - 1)) * 86400) := by
  obtain ⟨m1, m2, -, -, hD⟩ := civil_of_days (A / 86400)
  rw [atAbs_Year, atAbs_Month, Date_eq_atAbs _ _ _ _ _ _ _ m1 m2]
  congr 1
  omega

theorem Date_trunc_day (loc : Location) (A : Int) :
    Date (atAbs loc A).Year (atAbs loc A).Month (atAbs loc A).Day 0 0 0 0 loc
      = atAbs loc (A / 86400 * 86400) := by
  obtain ⟨m1, m2, -, -, hD⟩ := civil_of_days (A / 86400)
  rw [atAbs_Year, atAbs_Month, atAbs_Day, Date_eq_atAbs _ _ _ _ _ _ _ m1 m2]
  congr 1
  omega

theorem Date_trunc_hour (loc : Location) (A : Int) :
    Date (atAbs loc A).Year (atAbs loc A).Month (atAbs loc A).Day (atAbs loc A).Hour 0 0 0 loc
      = atAbs loc (A / 3600 * 3600) := by
  obtain ⟨m1, m2, -, -, hD⟩ := civil_of_days (A / 86400)
  rw [atAbs_Year, atAbs_Month, atAbs_Day, atAbs_Hour, Date_eq_atAbs _ _ _ _ _ _ _ m1 m2]
  congr 1
  omega

theorem AddDate_day (loc : Location) (A : Int) :
    (atAbs loc A).AddDate 0 0 1 = atAbs loc (A + 86400) := by
  obtain ⟨m1, m2, -, -, hD⟩ := civil_of_days (A / 86400)
  unfold Time.AddDate Time.Location
  rw [atAbs_Year, atAbs_Month, atAbs_Day, atAbs_Hour, atAbs_Minute, atAbs_Second,
    atAbs_Nanosecond, atAbs_loc, add_zero, add_zero, Date_eq_atAbs _ _ _ _ _ _ _ m1 m2]
  congr 1
  omega

theorem AddDate_month (loc : Location) (A : Int) :
    (atAbs loc A).AddDate 0 1 0
      = atAbs loc (A + (daysBeforeMonth (yearOfDays (A / 86400)) (monthOfDays (A / 86400) + 1)
          - daysBeforeMonth (yearOfDays (A / 86400)) (monthOfDays (A / 86400))) * 86400) := by
  obtain ⟨m1, m2, -, -, hD⟩ := civil_of_days (A / 86400)
  unfold Time.AddDate Time.Location
  rw [atAbs_Year, atAbs_Month, atAbs_Day, atAbs_Hour, atAbs_Minute, atAbs_Second,
    atAbs_Nanosecond, atAbs_loc, add_zero, add_zero,
    Date_eq_atAbs' _ _ _ _ _ _ _ (by omega) (by omega)]
  congr 1
  omega

theorem wrapInt64_Hour : wrapInt64 (1 * Hour) = 3600 * 1000000000 := by decide

theorem wrapInt64_Minute : wrapInt64 (1 * Minute) = 60 * 1000000000 := by decide

theorem wrapInt64_Second : wrapInt64 (1 * Second) = 1 * 1000000000 := by decide

theorem wrapInt64_hours (k : Int) (h1 : -24 ≤ k) (h2 : k ≤ 24) :
    wrapInt64 (wrapInt64 k * Hour) = k * 1000000000 * 3600 := by
  unfold wrapInt64 Hour Minute Second
  omega

theorem nextStep_WRAP (s : SpecSchedule) (loc orig : Location) (yl A : Int) (added : Bool) :
    nextStep s loc orig yl ⟨.WRAP, atAbs loc A, added⟩ =
      if yearOfDays (A / 86400) > yl then .inr Time.zero
      else .inl ⟨.MONTH, atAbs loc A, added⟩ := by
  simp only [nextStep, atAbs_Year]

theorem nextStep_MONTH (s : SpecSchedule) (loc orig : Location) (yl A : Int) (added : Bool) :
    nextStep s loc orig yl ⟨.MONTH, atAbs loc A, added⟩ =
      if bitAnd (monthOfDays (A / 86400)) s.Month = 0 then
        if monthOfDays (monthAdvance added A / 86400) = 1 then
          .inl ⟨.WRAP, atAbs loc (monthAdvance added A), true⟩
        else .inl ⟨.MONTH, atAbs loc (monthAdvance added A), true⟩
      else .inl ⟨.DAY, atAbs loc A, added⟩ := by
  cases added <;>
    simp only [nextStep, monthAdvance, January, Date_trunc_month, AddDate_month,
      Bool.not_false, Bool.not_true, if_true, if_false, Bool.false_eq_true] <;>
    simp only [atAbs_Month]

theorem nextStep_DAY (s : SpecSchedule) (loc orig : Location) (yl A : Int) (added : Bool) :
    nextStep s loc orig yl ⟨.DAY, atAbs loc A, added⟩ =
      if dayMatches s (atAbs loc A) = false then
        if dayOfDays (dayAdvance added A / 86400) = 1 then
          .inl ⟨.WRAP, atAbs loc (dayAdvance added A), true⟩
        else .inl ⟨.DAY, atAbs loc (dayAdvance added A), true⟩
      else .inl ⟨.HOUR, atAbs loc A, added⟩ := by
  have key : ∀ B : Int,
      (if (atAbs loc B).Hour ≠ 0 then
          if (atAbs loc B).Hour > 12 then
            (atAbs loc B).Add (wrapInt64 (wrapInt64 (24 - (atAbs loc B).Hour) * Hour))
          else (atAbs loc B).Add (wrapInt64 (wrapInt64 (-(atAbs loc B).Hour) * Hour))
        else atAbs loc B) =
      atAbs loc (if B % 86400 / 3600 ≠ 0 then
          if B % 86400 / 3600 > 12 then B + (24 - B % 86400 / 3600) * 3600
          else B + (-(B % 86400 / 3600)) * 3600
        else B) := by
    intro B
    rw [atAbs_Hour]
    have hr : 0 ≤ B % 86400 / 3600 ∧ B % 86400 / 3600 ≤ 23 := by omega
    rw [wrapInt64_hours _ (by omega) (by omega), wrapInt64_hours _ (by omega) (by omega)]
    split_ifs
    · rw [← atAbs_Add]; congr 1; ring
    · rw [← atAbs_Add]; congr 1; ring
    · rfl
  cases added <;>
    simp only [nextStep, dayAdvance, Date_trunc_day, AddDate_day, key,
      Bool.not_false, Bool.not_true, if_true, if_false, Bool.false_eq_true, Bool.not_eq_true'] <;>
    simp only [atAbs_Day]

theorem nextStep_HOUR (s : SpecSchedule) (loc orig : Location) (yl A : Int) (added : Bool) :
    nextStep s loc orig yl ⟨.HOUR, atAbs loc A, added⟩ =
      if bitAnd (A % 86400 / 3600) s.Hour = 0 then
        if hourAdvance added A % 86400 / 3600 = 0 then
          .inl ⟨.WRAP, atAbs loc (hourAdvance added A), true⟩
        else .inl ⟨.HOUR, atAbs loc (hourAdvance added A), true⟩
      else .inl ⟨.MINUTE, atAbs loc A, added⟩ := by
  cases added <;>
    simp only [nextStep, hourAdvance, Date_trunc_hour, wrapInt64_Hour, atAbs_Add,
      Bool.not_false, Bool.not_true, if_true, if_false, Bool.false_eq_true] <;>
    simp only [atAbs_Hour]

theorem nextStep_MINUTE (s : SpecSchedule) (loc orig : Location) (yl A : Int) (added : Bool) :
    nextStep s loc orig yl ⟨.MINUTE, atAbs loc A, added⟩ =
      if bitAnd (A % 3600 / 60) s.Minute = 0 then
        if minuteAdvance loc.offset added A % 3600 / 60 = 0 then
          .inl ⟨.WRAP, atAbs loc (minuteAdvance loc.offset added A), true⟩
        else .inl ⟨.MINUTE, atAbs loc (minuteAdvance loc.offset added A), true⟩
      else .inl ⟨.SECOND, atAbs loc A, added⟩ := by
  cases added <;>
    simp only [nextStep, minuteAdvance, atAbs_Truncate_Minute, wrapInt64_Minute, atAbs_Add,
      atAbs_Minute, Bool.not_false, Bool.not_true, if_true, if_false, Bool.false_eq_true]

theorem nextStep_SECOND (s : SpecSchedule) (loc orig : Location) (yl A : Int) (added : Bool) :
    nextStep s loc orig yl ⟨.SECOND, atAbs loc A, added⟩ =
      if bitAnd (A % 60) s.Second = 0 then
        if secondAdvance A % 60 = 0 then
          .inl ⟨.WRAP, atAbs loc (secondAdvance A), true⟩
        else .inl ⟨.SECOND, atAbs loc (secondAdvance A), true⟩
      else .inr ((atAbs loc A).In orig) := by
  cases added <;>
    simp only [nextStep, secondAdvance, atAbs_Truncate_Second, wrapInt64_Second, atAbs_Add,
      atAbs_Second, Bool.not_false, Bool.not_true, if_true, if_false, Bool.false_eq_true]

/-! ## Calendar arithmetic of the loop bodies -/

theorem yearOfDays_bounds (D : Int) :
    daysSinceEpoch (yearOfDays D) ≤ D ∧ D < daysSinceEpoch (yearOfDays D + 1) :=
  ⟨(absDate_spec D).1, (absDate_spec D).2.1⟩

theorem yearOfDays_le_of_lt {D y : Int} (h : D < daysSinceEpoch (y + 1)) : yearOfDays D ≤ y := by
  have h1 := (yearOfDays_bounds D).1
  by_contra hc
  have := daysSinceEpoch_mono (show y + 1 ≤ yearOfDays D by omega)
  omega

theorem yearOfDays_ge_of_le {D y : Int} (h : daysSinceEpoch y ≤ D) : y ≤ yearOfDays D := by
  have h1 := (yearOfDays_bounds D).2
  by_contra hc
  have := daysSinceEpoch_mono (show yearOfDays D + 1 ≤ y by omega)
  omega

theorem yearOfDays_mono {D D' : Int} (h : D ≤ D') : yearOfDays D ≤ yearOfDays D' := by
  have h1 := (yearOfDays_bounds D).1
  exact yearOfDays_ge_of_le (by omega)

theorem yearOfDays_le_succ {D D' : Int} (h : D' ≤ D + 365) :
    yearOfDays D' ≤ yearOfDays D + 1 := by
  have h1 := (yearOfDays_bounds D).2
  have h2 := daysSinceEpoch_lt (yearOfDays D + 1)
  exact yearOfDays_le_of_lt (by rw [show yearOfDays D + 1 + 1 = yearOfDays D + 1 + 1 from rfl]; omega)

/-- The day after: the same month and year unless it is the first of a month. -/
theorem next_day_same_month (D : Int) (h : dayOfDays (D + 1) ≠ 1) :
    yearOfDays (D + 1) = yearOfDays D ∧ monthOfDays (D + 1) = monthOfDays D := by
  obtain ⟨m1, m2, d1, d2, hD⟩ := civil_of_days D
  generalize yearOfDays D = y at *
  generalize monthOfDays D = m at *
  generalize dayOfDays D = d at *
  by_cases hd : d + 1 ≤ daysBeforeMonth y (m + 1) - daysBeforeMonth y m
  · have hc : IsCivil (D + 1) y m (d + 1) := ⟨m1, m2, by omega, hd, by omega⟩
    obtain ⟨e1, e2, -⟩ := civil_unique hc
    exact ⟨e1, e2⟩
  · exfalso
    apply h
    by_cases hm : m = 12
    · subst hm
      have hs := daysSinceEpoch_succ_leapDay y
      have h13 := daysBeforeMonth_13 y
      have h1 := daysBeforeMonth_1 (y + 1)
      have hstep := daysBeforeMonth_step (y + 1) 1 (by decide) (by decide)
      have hc : IsCivil (D + 1) (y + 1) 1 1 := by
        refine ⟨by decide, by decide, by decide, by omega, ?_⟩
        simp only [Int.reduceAdd] at d2 hd
        omega
      exact (civil_unique hc).2.2
    · have hstep := daysBeforeMonth_step y (m + 1) (by omega) (by omega)
      have hc : IsCivil (D + 1) y (m + 1) 1 :=
        ⟨by omega, by omega, by decide, by omega, by omega⟩
      exact (civil_unique hc).2.2

theorem monthAdvance_false (A : Int) :
    monthAdvance false A = (daysSinceEpoch (yearOfDays (A / 86400))
      + daysBeforeMonth (yearOfDays (A / 86400)) (monthOfDays (A / 86400) + 1)) * 86400 := by
  obtain ⟨m1, m2, d1, d2, hD⟩ := civil_of_days (A / 86400)
  have hs := daysBeforeMonth_step (yearOfDays (A / 86400)) (monthOfDays (A / 86400)) m1 m2
  have hc : IsCivil (A / 86400 - (dayOfDays (A / 86400) - 1)) (yearOfDays (A / 86400))
      (monthOfDays (A / 86400)) 1 := ⟨m1, m2, by decide, by omega, by omega⟩
  obtain ⟨e1, e2, -⟩ := civil_unique hc
  have e3 : (A / 86400 - (dayOfDays (A / 86400) - 1)) * 86400 / 86400
      = A / 86400 - (dayOfDays (A / 86400) - 1) := by omega
  simp only [monthAdvance, Bool.false_eq_true, if_false, e3, e1, e2]
  omega

theorem monthAdvance_true (A : Int) :
    monthAdvance true A = A + (daysBeforeMonth (yearOfDays (A / 86400))
        (monthOfDays (A / 86400) + 1)
      - daysBeforeMonth (yearOfDays (A / 86400)) (monthOfDays (A / 86400))) * 86400 := by
  simp only [monthAdvance, if_true]

theorem monthAdvance_gt (added : Bool) (A : Int) : A < monthAdvance added A := by
  obtain ⟨m1, m2, d1, d2, hD⟩ := civil_of_days (A / 86400)
  have hs := daysBeforeMonth_step (yearOfDays (A / 86400)) (monthOfDays (A / 86400)) m1 m2
  cases added
  · rw [monthAdvance_false]; omega
  · rw [monthAdvance_true]; omega

theorem monthAdvance_le (added : Bool) (A : Int) : monthAdvance added A ≤ A + 31 * 86400 := by
  obtain ⟨m1, m2, d1, d2, hD⟩ := civil_of_days (A / 86400)
  have hs := daysBeforeMonth_step (yearOfDays (A / 86400)) (monthOfDays (A / 86400)) m1 m2
  cases added
  · rw [monthAdvance_false]; omega
  · rw [monthAdvance_true]; omega

theorem monthAdvance_tod (added : Bool) (A : Int) :
    monthAdvance added A % 86400 = if added then A % 86400 else 0 := by
  cases added
  · rw [monthAdvance_false]; simp only [Bool.false_eq_true, if_false]; omega
  · rw [monthAdvance_true]; simp only [if_true]; omega

theorem monthAdvance_year (added : Bool) (A : Int)
    (h : monthOfDays (monthAdvance added A / 86400) ≠ 1) :
    yearOfDays (monthAdvance added A / 86400) = yearOfDays (A / 86400) := by
  obtain ⟨m1, m2, d1, d2, hD⟩ := civil_of_days (A / 86400)
  have hs := daysBeforeMonth_step (yearOfDays (A / 86400)) (monthOfDays (A / 86400)) m1 m2
  have hsucc := daysSinceEpoch_succ_leapDay (yearOfDays (A / 86400))
  have hD' : monthAdvance added A / 86400 = daysSinceEpoch (yearOfDays (A / 86400))
      + daysBeforeMonth (yearOfDays (A / 86400)) (monthOfDays (A / 86400) + 1)
      + ((if added then dayOfDays (A / 86400) else 1) - 1) := by
    cases added
    · rw [monthAdvance_false]; simp only [Bool.false_eq_true, if_false]; omega
    · rw [monthAdvance_true]; simp only [if_true]; omega
  have hdd : 1 ≤ (if added then dayOfDays (A / 86400) else 1) ∧
      (if added then dayOfDays (A / 86400) else 1) ≤ 31 := by
    cases added
    · simp
    · simp only [if_true]; omega
  rw [hD'] at h ⊢
  generalize (if added then dayOfDays (A / 86400) else 1) = d' at *
  generalize yearOfDays (A / 86400) = y at *
  generalize monthOfDays (A / 86400) = m at *
  clear hD' hD
  by_cases hm : m = 12
  · exfalso
    apply h
    subst hm
    have h13 := daysBeforeMonth_13 y
    have h1 := daysBeforeMonth_1 (y + 1)
    have h2 := daysBeforeMonth_2 (y + 1)
    have hc : IsCivil (daysSinceEpoch y + daysBeforeMonth y (12 + 1) + (d' - 1)) (y + 1) 1 d' := by
      refine ⟨by decide, by decide, by omega, ?_, ?_⟩
      · simp only [Int.reduceAdd]; omega
      · simp only [Int.reduceAdd]; omega
    exact (civil_unique hc).2.1
  · have hs' := daysBeforeMonth_step y (m + 1) (by omega) (by omega)
    have hl := leapDay_range y
    have hb : daysBeforeMonth y (m + 1) + 30 ≤ 364 + leapDay y := by
      have hm' : m = 1 ∨ m = 2 ∨ m = 3 ∨ m = 4 ∨ m = 5 ∨ m = 6 ∨ m = 7 ∨ m = 8 ∨ m = 9 ∨
        m = 10 ∨ m = 11 := by omega
      clear hs hs' d2 h
      rcases hm' with rfl | rfl | rfl | rfl | rfl | rfl | rfl | rfl | rfl | rfl | rfl <;>
        simp only [Int.reduceAdd] <;>
        simp only [daysBeforeMonth_2, daysBeforeMonth_3, daysBeforeMonth_4,
          daysBeforeMonth_5, daysBeforeMonth_6, daysBeforeMonth_7, daysBeforeMonth_8,
          daysBeforeMonth_9, daysBeforeMonth_10, daysBeforeMonth_11, daysBeforeMonth_12] <;>
        omega
    exact yearOfDays_unique _ y (by omega) (by omega)

theorem dayAdvance_of_midnight (added : Bool) (A : Int)
    (h : added = false ∨ A % 86400 / 3600 = 0) :
    dayAdvance added A = (A / 86400 + 1) * 86400 + (if added then A % 86400 else 0) := by
  unfold dayAdvance
  cases added
  · simp only [Bool.false_eq_true, if_false]
    have e : (A / 86400 * 86400 + 86400) % 86400 / 3600 = 0 := by omega
    simp only [e, ne_eq, not_true_eq_false, if_false]
    omega
  · simp only [if_true]
    have h' : A % 86400 / 3600 = 0 := by simpa using h
    have e : (A + 86400) % 86400 / 3600 = 0 := by omega
    simp only [e, ne_eq, not_true_eq_false, if_false]
    omega

theorem dayAdvance_gt (added : Bool) (A : Int) : A < dayAdvance added A := by
  unfold dayAdvance
  cases added
  · simp only [Bool.false_eq_true, if_false]
    have e : (A / 86400 * 86400 + 86400) % 86400 / 3600 = 0 := by omega
    simp only [e, ne_eq, not_true_eq_false, if_false]
    omega
  · simp only [if_true]
    split_ifs <;> omega

theorem dayAdvance_le (added : Bool) (A : Int) : dayAdvance added A ≤ A + 36 * 3600 := by
  unfold dayAdvance
  cases added
  · simp only [Bool.false_eq_true, if_false]
    have e : (A / 86400 * 86400 + 86400) % 86400 / 3600 = 0 := by omega
    simp only [e, ne_eq, not_true_eq_false, if_false]
    omega
  · simp only [if_true]
    split_ifs <;> omega

theorem hourAdvance_gt (added : Bool) (A : Int) : A < hourAdvance added A := by
  unfold hourAdvance; cases added <;> simp only [Bool.false_eq_true, if_false, if_true] <;> omega

theorem hourAdvance_le (added : Bool) (A : Int) : hourAdvance added A ≤ A + 3600 := by
  unfold hourAdvance; cases added <;> simp only [Bool.false_eq_true, if_false, if_true] <;> omega

theorem minuteAdvance_gt (off : Int) (added : Bool) (A : Int) :
    A < minuteAdvance off added A := by
  unfold minuteAdvance; cases added <;> simp only [Bool.false_eq_true, if_false, if_true] <;> omega

theorem minuteAdvance_le (off : Int) (added : Bool) (A : Int) :
    minuteAdvance off added A ≤ A + 60 := by
  unfold minuteAdvance; cases added <;> simp only [Bool.false_eq_true, if_false, if_true] <;> omega

/-- Moving ahead by at most an hour without reaching hour 0 stays in the day. -/
theorem same_day_of_hour_ne {A A' : Int} (h1 : A < A') (h2 : A' ≤ A + 3600)
    (h3 : A' % 86400 / 3600 ≠ 0) : A' / 86400 = A / 86400 := by
  omega

/-- Moving ahead by at most a minute without reaching minute 0 stays in the hour. -/
theorem same_hour_of_minute_ne {A A' : Int} (h1 : A < A') (h2 : A' ≤ A + 60)
    (h3 : A' % 3600 / 60 ≠ 0) : A' / 3600 = A / 3600 := by
  omega

/-- Moving ahead by a second without reaching second 0 stays in the minute. -/
theorem same_minute_of_second_ne {A : Int} (h3 : (A + 1) % 60 ≠ 0) :
    (A + 1) / 60 = A / 60 := by
  omega

/-- Moving ahead by at most an hour: midnight, or the same day. -/
theorem midnight_or_same_day {A A' : Int} (h1 : A < A') (h2 : A' ≤ A + 3600) :
    A' % 86400 / 3600 = 0 ∨ A' / 86400 = A / 86400 := by
  omega

theorem dayMatches_congr (s : SpecSchedule) (loc : Location) {A A' : Int}
    (h : A' / 86400 = A / 86400) : dayMatches s (atAbs loc A') = dayMatches s (atAbs loc A) := by
  unfold dayMatches
  rw [atAbs_Day, atAbs_Day, atAbs_Weekday, atAbs_Weekday, h]

theorem lt_limit_of_year {yl A : Int} (h : yearOfDays (A / 86400) ≤ yl + 1) :
    A < daysSinceEpoch (yl + 2) * 86400 := by
  have h1 := (yearOfDays_bounds (A / 86400)).2
  have h2 := daysSinceEpoch_mono (show yearOfDays (A / 86400) + 1 ≤ yl + 2 by omega)
  omega

theorem NextInv.lt_limit {s : SpecSchedule} {loc : Location} {A0 yl : Int} {pc : Label}
    {A : Int} {added : Bool} (h : NextInv s loc A0 yl pc A added) :
    A < daysSinceEpoch (yl + 2) * 86400 := by
  apply lt_limit_of_year
  have := h.year
  split at this <;> omega

theorem year_le_succ_of_le {A A' : Int} (h1 : A' ≤ A + 31 * 86400) :
    yearOfDays (A' / 86400) ≤ yearOfDays (A / 86400) + 1 :=
  yearOfDays_le_succ (by omega)

section StepInvariant

variable {s : SpecSchedule} {loc : Location} {A0 yl A : Int} {added : Bool}

theorem stepOK_WRAP (orig : Location) (h : NextInv s loc A0 yl .WRAP A added) :
    StepOK s loc orig A0 yl .WRAP A added := by
  unfold StepOK
  rw [nextStep_WRAP]
  by_cases hy : yearOfDays (A / 86400) > yl
  · right; left
    rw [if_pos hy]
    exact ⟨rfl, rfl, hy⟩
  · left
    rw [if_neg hy]
    refine ⟨.MONTH, A, added, rfl, ?_, ?_⟩
    · refine ⟨h.ge, h.fresh, ?_, ?_, ?_, ?_, ?_, ?_⟩
      · simp only [reduceCtorEq, if_false]; omega
      · intro hc; simp [Label.idx] at hc
      · intro hc; simp [Label.idx] at hc
      · intro hc; simp [Label.idx] at hc
      · intro hc; simp [Label.idx] at hc
      · intro ha _; exact h.aligned ha (by simp [Label.idx])
    · simp only [nextMeasure, Label.idx]; omega

theorem stepOK_MONTH (orig : Location) (h : NextInv s loc A0 yl .MONTH A added) :
    StepOK s loc orig A0 yl .MONTH A added := by
  unfold StepOK
  left
  rw [nextStep_MONTH]
  have hyr := h.year
  simp only [reduceCtorEq, if_false, add_zero] at hyr
  by_cases hb : bitAnd (monthOfDays (A / 86400)) s.Month = 0
  · rw [if_pos hb]
    have hgt := monthAdvance_gt added A
    have hle := monthAdvance_le added A
    have hge := h.ge
    have hlim := @lt_limit_of_year yl (monthAdvance added A)
      (by have := year_le_succ_of_le hle; omega)
    have hal : monthAdvance added A % 86400 / 3600 = 0 := by
      rw [monthAdvance_tod]
      cases added
      · simp
      · simp only [if_true]
        rcases h.aligned rfl (by simp [Label.idx]) with h0 | ⟨h1, -⟩
        · exact h0
        · exact absurd hb h1
    by_cases hj : monthOfDays (monthAdvance added A / 86400) = 1
    · rw [if_pos hj]
      refine ⟨.WRAP, monthAdvance added A, true, rfl, ?_, ?_⟩
      · refine ⟨by omega, by simp, ?_, ?_, ?_, ?_, ?_, ?_⟩
        · simp only [if_true]
          have := year_le_succ_of_le hle; omega
        · intro hc; simp [Label.idx] at hc
        · intro hc; simp [Label.idx] at hc
        · intro hc; simp [Label.idx] at hc
        · intro hc; simp [Label.idx] at hc
        · intro _ _; exact Or.inl hal
      · simp only [nextMeasure, Label.idx]; omega
    · rw [if_neg hj]
      refine ⟨.MONTH, monthAdvance added A, true, rfl, ?_, ?_⟩
      · refine ⟨by omega, by simp, ?_, ?_, ?_, ?_, ?_, ?_⟩
        · simp only [reduceCtorEq, if_false, add_zero]
          rw [monthAdvance_year added A hj]; exact hyr
        · intro hc; simp [Label.idx] at hc
        · intro hc; simp [Label.idx] at hc
        · intro hc; simp [Label.idx] at hc
        · intro hc; simp [Label.idx] at hc
        · intro _ _; exact Or.inl hal
      · simp only [nextMeasure, Label.idx]; omega
  · rw [if_neg hb]
    refine ⟨.DAY, A, added, rfl, ?_, ?_⟩
    · refine ⟨h.ge, h.fresh, ?_, ?_, ?_, ?_, ?_, ?_⟩
      · simp only [reduceCtorEq, if_false, add_zero]; exact hyr
      · intro _; exact hb
      · intro hc; simp [Label.idx] at hc
      · intro hc; simp [Label.idx] at hc
      · intro hc; simp [Label.idx] at hc
      · intro ha _; exact h.aligned ha (by simp [Label.idx])
    · simp only [nextMeasure, Label.idx]; omega

theorem stepOK_DAY (orig : Location) (h : NextInv s loc A0 yl .DAY A added) :
    StepOK s loc orig A0 yl .DAY A added := by
  unfold StepOK
  left
  rw [nextStep_DAY]
  have hyr := h.year
  simp only [reduceCtorEq, if_false, add_zero] at hyr
  have hmo := h.month (by simp [Label.idx])
  by_cases hb : dayMatches s (atAbs loc A) = false
  · rw [if_pos hb]
    have hmid : added = false ∨ A % 86400 / 3600 = 0 := by
      cases added
      · exact Or.inl rfl
      · right
        rcases h.aligned rfl (by simp [Label.idx]) with h0 | ⟨-, h1⟩
        · exact h0
        · rw [hb] at h1; exact absurd h1 (by decide)
    have heq := dayAdvance_of_midnight added A hmid
    have hgt := dayAdvance_gt added A
    have hle := dayAdvance_le added A
    have hge := h.ge
    have htod : 0 ≤ (if added then A % 86400 else 0) ∧ (if added then A % 86400 else 0) < 3600 := by
      cases added
      · simp
      · simp only [if_true]
        have : A % 86400 / 3600 = 0 := by simpa using hmid
        omega
    have hD : dayAdvance added A / 86400 = A / 86400 + 1 := by omega
    have hal : dayAdvance added A % 86400 / 3600 = 0 := by omega
    have hlim := @lt_limit_of_year yl (dayAdvance added A)
      (by have := @year_le_succ_of_le A (dayAdvance added A) (by omega); omega)
    by_cases hj : dayOfDays (dayAdvance added A / 86400) = 1
    · rw [if_pos hj]
      refine ⟨.WRAP, dayAdvance added A, true, rfl, ?_, ?_⟩
      · refine ⟨by omega, by simp, ?_, ?_, ?_, ?_, ?_, ?_⟩
        · simp only [if_true]
          have := @year_le_succ_of_le A (dayAdvance added A) (by omega); omega
        · intro hc; simp [Label.idx] at hc
        · intro hc; simp [Label.idx] at hc
        · intro hc; simp [Label.idx] at hc
        · intro hc; simp [Label.idx] at hc
        · intro _ _; exact Or.inl hal
      · simp only [nextMeasure, Label.idx]; omega
    · rw [if_neg hj]
      rw [hD] at hj
      obtain ⟨e1, e2⟩ := next_day_same_month (A / 86400) hj
      refine ⟨.DAY, dayAdvance added A, true, rfl, ?_, ?_⟩
      · refine ⟨by omega, by simp, ?_, ?_, ?_, ?_, ?_, ?_⟩
        · simp only [reduceCtorEq, if_false, add_zero]
          rw [hD, e1]; exact hyr
        · intro _; rw [hD, e2]; exact hmo
        · intro hc; simp [Label.idx] at hc
        · intro hc; simp [Label.idx] at hc
        · intro hc; simp [Label.idx] at hc
        · intro _ _; exact Or.inl hal
      · simp only [nextMeasure, Label.idx]; omega
  · rw [if_neg hb]
    have hb' : dayMatches s (atAbs loc A) = true := by simpa using hb
    refine ⟨.HOUR, A, added, rfl, ?_, ?_⟩
    · refine ⟨h.ge, h.fresh, ?_, ?_, ?_, ?_, ?_, ?_⟩
      · simp only [reduceCtorEq, if_false, add_zero]; exact hyr
      · intro _; exact hmo
      · intro _; exact hb'
      · intro hc; simp [Label.idx] at hc
      · intro hc; simp [Label.idx] at hc
      · intro _ hc; simp [Label.idx] at hc
    · simp only [nextMeasure, Label.idx]; omega

theorem stepOK_HOUR (orig : Location) (h : NextInv s loc A0 yl .HOUR A added) :
    StepOK s loc orig A0 yl .HOUR A added := by
  unfold StepOK
  left
  rw [nextStep_HOUR]
  have hyr := h.year
  simp only [reduceCtorEq, if_false, add_zero] at hyr
  have hmo := h.month (by simp [Label.idx])
  have hda := h.day (by simp [Label.idx])
  by_cases hb : bitAnd (A % 86400 / 3600) s.Hour = 0
  · rw [if_pos hb]
    have hgt := hourAdvance_gt added A
    have hle := hourAdvance_le added A
    have hge := h.ge
    have hlim := @lt_limit_of_year yl (hourAdvance added A)
      (by have := @year_le_succ_of_le A (hourAdvance added A) (by omega); omega)
    by_cases hj : hourAdvance added A % 86400 / 3600 = 0
    · rw [if_pos hj]
      refine ⟨.WRAP, hourAdvance added A, true, rfl, ?_, ?_⟩
      · refine ⟨by omega, by simp, ?_, ?_, ?_, ?_, ?_, ?_⟩
        · simp only [if_true]
          have := @year_le_succ_of_le A (hourAdvance added A) (by omega); omega
        · intro hc; simp [Label.idx] at hc
        · intro hc; simp [Label.idx] at hc
        · intro hc; simp [Label.idx] at hc
        · intro hc; simp [Label.idx] at hc
        · intro _ _; exact Or.inl hj
      · simp only [nextMeasure, Label.idx]; omega
    · rw [if_neg hj]
      have hD := same_day_of_hour_ne hgt hle hj
      refine ⟨.HOUR, hourAdvance added A, true, rfl, ?_, ?_⟩
      · refine ⟨by omega, by simp, ?_, ?_, ?_, ?_, ?_, ?_⟩
        · simp only [reduceCtorEq, if_false, add_zero]
          rw [hD]; exact hyr
        · intro _; rw [hD]; exact hmo
        · intro _; rw [dayMatches_congr s loc hD]; exact hda
        · intro hc; simp [Label.idx] at hc
        · intro hc; simp [Label.idx] at hc
        · intro _ hc; simp [Label.idx] at hc
      · simp only [nextMeasure, Label.idx]; omega
  · rw [if_neg hb]
    refine ⟨.MINUTE, A, added, rfl, ?_, ?_⟩
    · refine ⟨h.ge, h.fresh, ?_, ?_, ?_, ?_, ?_, ?_⟩
      · simp only [reduceCtorEq, if_false, add_zero]; exact hyr
      · intro _; exact hmo
      · intro _; exact hda
      · intro _; exact hb
      · intro hc; simp [Label.idx] at hc
      · intro _ hc; simp [Label.idx] at hc
    · simp only [nextMeasure, Label.idx]; omega

theorem stepOK_MINUTE (orig : Location) (h : NextInv s loc A0 yl .MINUTE A added) :
    StepOK s loc orig A0 yl .MINUTE A added := by
  unfold StepOK
  left
  rw [nextStep_MINUTE]
  have hyr := h.year
  simp only [reduceCtorEq, if_false, add_zero] at hyr
  have hmo := h.month (by simp [Label.idx])
  have hda := h.day (by simp [Label.idx])
  have hho := h.hour (by simp [Label.idx])
  by_cases hb : bitAnd (A % 3600 / 60) s.Minute = 0
  · rw [if_pos hb]
    have hgt := minuteAdvance_gt loc.offset added A
    have hle := minuteAdvance_le loc.offset added A
    have hge := h.ge
    have hlim := @lt_limit_of_year yl (minuteAdvance loc.offset added A)
      (by have := @year_le_succ_of_le A (minuteAdvance loc.offset added A)
            (by omega); omega)
    by_cases hj : minuteAdvance loc.offset added A % 3600 / 60 = 0
    · rw [if_pos hj]
      refine ⟨.WRAP, minuteAdvance loc.offset added A, true, rfl, ?_, ?_⟩
      · refine ⟨by omega, by simp, ?_, ?_, ?_, ?_, ?_, ?_⟩
        · simp only [if_true]
          have := @year_le_succ_of_le A (minuteAdvance loc.offset added A)
            (by omega)
          omega
        · intro hc; simp [Label.idx] at hc
        · intro hc; simp [Label.idx] at hc
        · intro hc; simp [Label.idx] at hc
        · intro hc; simp [Label.idx] at hc
        · intro _ _
          rcases midnight_or_same_day hgt (by omega) with h0 | hD
          · exact Or.inl h0
          · right
            rw [hD, dayMatches_congr s loc hD]
            exact ⟨hmo, hda⟩
      · simp only [nextMeasure, Label.idx]; omega
    · rw [if_neg hj]
      have hH := same_hour_of_minute_ne hgt hle hj
      have hD : minuteAdvance loc.offset added A / 86400 = A / 86400 := by omega
      have hHr : minuteAdvance loc.offset added A % 86400 / 3600 = A % 86400 / 3600 := by omega
      refine ⟨.MINUTE, minuteAdvance loc.offset added A, true, rfl, ?_, ?_⟩
      · refine ⟨by omega, by simp, ?_, ?_, ?_, ?_, ?_, ?_⟩
        · simp only [reduceCtorEq, if_false, add_zero]
          rw [hD]; exact hyr
        · intro _; rw [hD]; exact hmo
        · intro _; rw [dayMatches_congr s loc hD]; exact hda
        · intro _; rw [hHr]; exact hho
        · intro hc; simp [Label.idx] at hc
        · intro _ hc; simp [Label.idx] at hc
      · simp only [nextMeasure, Label.idx]; omega
  · rw [if_neg hb]
    refine ⟨.SECOND, A, added, rfl, ?_, ?_⟩
    · refine ⟨h.ge, h.fresh, ?_, ?_, ?_, ?_, ?_, ?_⟩
      · simp only [reduceCtorEq, if_false, add_zero]; exact hyr
      · intro _; exact hmo
      · intro _; exact hda
      · intro _; exact hho
      · intro _; exact hb
      · intro _ hc; simp [Label.idx] at hc
    · simp only [nextMeasure, Label.idx]; omega

theorem stepOK_SECOND (orig : Location) (h : NextInv s loc A0 yl .SECOND A added) :
    StepOK s loc orig A0 yl .SECOND A added := by
  unfold StepOK
  rw [nextStep_SECOND]
  have hyr := h.year
  simp only [reduceCtorEq, if_false, add_zero] at hyr
  have hmo := h.month (by simp [Label.idx])
  have hda := h.day (by simp [Label.idx])
  have hho := h.hour (by simp [Label.idx])
  have hmi := h.minute (by simp [Label.idx])
  by_cases hb : bitAnd (A % 60) s.Second = 0
  · left
    rw [if_pos hb]
    have hge := h.ge
    have hlim := @lt_limit_of_year yl (secondAdvance A)
      (by have := @year_le_succ_of_le A (secondAdvance A)
            (by unfold secondAdvance; omega); omega)
    unfold secondAdvance at hlim ⊢
    by_cases hj : (A + 1) % 60 = 0
    · rw [if_pos hj]
      refine ⟨.WRAP, A + 1, true, rfl, ?_, ?_⟩
      · refine ⟨by omega, by simp, ?_, ?_, ?_, ?_, ?_, ?_⟩
        · simp only [if_true]
          have := @year_le_succ_of_le A (A + 1) (by omega)
          omega
        · intro hc; simp [Label.idx] at hc
        · intro hc; simp [Label.idx] at hc
        · intro hc; simp [Label.idx] at hc
        · intro hc; simp [Label.idx] at hc
        · intro _ _
          rcases @midnight_or_same_day A (A + 1) (by omega) (by omega) with h0 | hD
          · exact Or.inl h0
          · right
            rw [hD, dayMatches_congr s loc hD]
            exact ⟨hmo, hda⟩
      · simp only [nextMeasure, Label.idx]; omega
    · rw [if_neg hj]
      have hM := same_minute_of_second_ne hj
      have hD : (A + 1) / 86400 = A / 86400 := by omega
      have hHr : (A + 1) % 86400 / 3600 = A % 86400 / 3600 := by omega
      have hMi : (A + 1) % 3600 / 60 = A % 3600 / 60 := by omega
      refine ⟨.SECOND, A + 1, true, rfl, ?_, ?_⟩
      · refine ⟨by omega, by simp, ?_, ?_, ?_, ?_, ?_, ?_⟩
        · simp only [reduceCtorEq, if_false, add_zero]
          rw [hD]; exact hyr
        · intro _; rw [hD]; exact hmo
        · intro _; rw [dayMatches_congr s loc hD]; exact hda
        · intro _; rw [hHr]; exact hho
        · intro _; rw [hMi]; exact hmi
        · intro _ hc; simp [Label.idx] at hc
      · simp only [nextMeasure, Label.idx]; omega
  · right; right
    rw [if_neg hb]
    exact ⟨rfl, rfl, hb⟩

end StepInvariant

theorem stepOK {s : SpecSchedule} {loc : Location} {A0 yl A : Int} {added : Bool}
    (orig : Location) (pc : Label) (h : NextInv s loc A0 yl pc A added) :
    StepOK s loc orig A0 yl pc A added := by
  cases pc
  · exact stepOK_WRAP orig h
  · exact stepOK_MONTH orig h
  · exact stepOK_DAY orig h
  · exact stepOK_HOUR orig h
  · exact stepOK_MINUTE orig h
  · exact stepOK_SECOND orig h

/-- The search returns within `n` steps when `n` exceeds the measure, and
what it returns comes from a state satisfying the invariant (and any property
`E` of the states that the steps preserve). -/
theorem nextRun_spec (s : SpecSchedule) (loc orig : Location) (A0 yl : Int)
    (E : Label → Int → Bool → Prop)
    (hE : ∀ pc A added pc' A' added', NextInv s loc A0 yl pc A added → E pc A added →
      nextStep s loc orig yl ⟨pc, atAbs loc A, added⟩ = .inl ⟨pc', atAbs loc A', added'⟩ →
      E pc' A' added') :
    ∀ (n : Nat) (pc : Label) (A : Int) (added : Bool),
      NextInv s loc A0 yl pc A added → E pc A added → nextMeasure yl pc A < n →
      ∃ r, nextRun s loc orig yl n ⟨pc, atAbs loc A, added⟩ = some r ∧
        ((r = Time.zero ∧ ∃ A' added', NextInv s loc A0 yl .WRAP A' added' ∧
            E .WRAP A' added' ∧ yl < yearOfDays (A' / 86400)) ∨
         (∃ A' added', r = (atAbs loc A').In orig ∧ NextInv s loc A0 yl .SECOND A' added' ∧
            E .SECOND A' added' ∧ bitAnd (A' % 60) s.Second ≠ 0)) := by
  intro n
  induction n with
  | zero =>
    intro pc A added h _ hm
    exfalso
    have hl := h.lt_limit
    have : 0 ≤ pc.idx ∧ pc.idx ≤ 5 := by cases pc <;> simp [Label.idx]
    unfold nextMeasure at hm
    simp only [Nat.cast_zero] at hm
    omega
  | succ n ih =>
    intro pc A added h he hm
    rcases stepOK orig pc h with ⟨pc', A', added', hs, hinv, hlt⟩ | ⟨hs, hpc, hy⟩ | ⟨hs, hpc, hb⟩
    · have he' := hE pc A added pc' A' added' h he hs
      obtain ⟨r, hr, hpost⟩ := ih pc' A' added' hinv he' (by push_cast at hm; omega)
      refine ⟨r, ?_, hpost⟩
      simp only [nextRun, hs]
      exact hr
    · refine ⟨Time.zero, ?_, Or.inl ⟨rfl, A, added, ?_, ?_, hy⟩⟩
      · simp only [nextRun, hs]
      · rw [← hpc]; exact h
      · rw [← hpc]; exact he
    · refine ⟨(atAbs loc A).In orig, ?_, Or.inr ⟨A, added, rfl, ?_, ?_, hb⟩⟩
      · simp only [nextRun, hs]
      · rw [← hpc]; exact h
      · rw [← hpc]; exact he

theorem bitAnd_ne_zero_iff (v : Int) (mask : Nat) (h0 : 0 ≤ v) (h1 : v < 64) :
    bitAnd v mask ≠ 0 ↔ permits mask v = true := by
  unfold bitAnd permits
  have hk : v.toNat < 64 := by omega
  rw [if_neg (by omega), Nat.one_shiftLeft,
    Nat.mod_eq_of_lt (show 2 ^ v.toNat < 18446744073709551616 from
      Nat.pow_lt_pow_right (by decide) hk),
    Nat.two_pow_and]
  cases mask.testBit v.toNat <;> simp

theorem bitAnd_pos_iff (v : Int) (mask : Nat) (h0 : 0 ≤ v) (h1 : v < 64) :
    bitAnd v mask > 0 ↔ permits mask v = true := by
  rw [← bitAnd_ne_zero_iff v mask h0 h1]
  omega

theorem dayOfDays_range (D : Int) : 1 ≤ dayOfDays D ∧ dayOfDays D ≤ 31 := by
  obtain ⟨m1, m2, d1, d2, -⟩ := civil_of_days D
  have hs := daysBeforeMonth_step (yearOfDays D) (monthOfDays D) m1 m2
  omega

theorem monthOfDays_range (D : Int) : 1 ≤ monthOfDays D ∧ monthOfDays D ≤ 12 := by
  obtain ⟨m1, m2, -, -, -⟩ := civil_of_days D
  exact ⟨m1, m2⟩

theorem nextStart_eq (s : SpecSchedule) (t : Time) :
    nextStart s t = atAbs (nextLoc s t) (t.ns / 1000000000 + 1 + (nextLoc s t).offset) := by
  unfold nextStart nextLoc atAbs Time.Add Time.In Time.Nanosecond Time.Location wrapInt64
    Second Nanosecond
  cases s.Location.isLocal <;> simp only [Bool.false_eq_true, if_false, if_true, Time.mk.injEq,
    and_true] <;> omega

theorem Next_eq_run (s : SpecSchedule) (t : Time) :
    s.Next t = nextRun s (nextLoc s t) t.loc ((nextStart s t).Year + 5)
      (nextFuel (nextStart s t) ((nextStart s t).Year + 5))
      ⟨.WRAP, nextStart s t, false⟩ := rfl

theorem NextInv_init (s : SpecSchedule) (loc : Location) (A0 : Int) :
    NextInv s loc A0 (yearOfDays (A0 / 86400) + 5) .WRAP A0 false := by
  refine ⟨le_refl _, fun _ => rfl, ?_, ?_, ?_, ?_, ?_, ?_⟩
  · simp only [if_true]; omega
  · intro hc; simp [Label.idx] at hc
  · intro hc; simp [Label.idx] at hc
  · intro hc; simp [Label.idx] at hc
  · intro hc; simp [Label.idx] at hc
  · intro hc; simp at hc

/-- The search of `SpecSchedule.Next` seen from outside: it returns, and it
returns the zero time from `WRAP` past the year limit or an instant reached at
the end of the second loop; in both cases from a state that satisfies the
invariant and any property `E` that holds at the start and that the steps
preserve. -/
theorem Next_spec (s : SpecSchedule) (t : Time) (E : Label → Int → Bool → Prop)
    (hE : ∀ pc A added pc' A' added',
      NextInv s (nextLoc s t) (nextStart s t).abs ((nextStart s t).Year + 5) pc A added →
      E pc A added →
      nextStep s (nextLoc s t) t.loc ((nextStart s t).Year + 5)
        ⟨pc, atAbs (nextLoc s t) A, added⟩ = .inl ⟨pc', atAbs (nextLoc s t) A', added'⟩ →
      E pc' A' added')
    (h0 : E .WRAP (nextStart s t).abs false) :
    ∃ r, s.Next t = some r ∧
      ((r = Time.zero ∧ ∃ A' added',
          NextInv s (nextLoc s t) (nextStart s t).abs ((nextStart s t).Year + 5) .WRAP A' added' ∧
          E .WRAP A' added' ∧ (nextStart s t).Year + 5 < yearOfDays (A' / 86400)) ∨
       (∃ A' added', r = (atAbs (nextLoc s t) A').In t.loc ∧
          NextInv s (nextLoc s t) (nextStart s t).abs ((nextStart s t).Year + 5)
            .SECOND A' added' ∧
          E .SECOND A' added' ∧ bitAnd (A' % 60) s.Second ≠ 0)) := by
  rw [Next_eq_run]
  have hst := nextStart_eq s t
  have habs : (nextStart s t).abs = t.ns / 1000000000 + 1 + (nextLoc s t).offset := by
    rw [hst, atAbs_abs]
  have hyear : (nextStart s t).Year = yearOfDays ((nextStart s t).abs / 86400) := rfl
  have hinit := NextInv_init s (nextLoc s t) (nextStart s t).abs
  rw [← hyear] at hinit
  have hstart : nextStart s t = atAbs (nextLoc s t) (nextStart s t).abs := by
    rw [habs]; exact hst
  have hrun := nextRun_spec s (nextLoc s t) t.loc (nextStart s t).abs
    ((nextStart s t).Year + 5) E hE
    (nextFuel (nextStart s t) ((nextStart s t).Year + 5)) .WRAP (nextStart s t).abs false
    hinit h0 (by
      have hl := hinit.lt_limit
      unfold nextMeasure nextFuel
      simp only [Label.idx]
      rw [Int.toNat_of_nonneg (by omega)]
      omega)
  rw [← hstart] at hrun
  exact hrun

theorem atAbs_In_In (loc loc' : Location) (A : Int) :
    ((atAbs loc A).In loc').In loc = atAbs loc A := rfl

theorem atAbs_In_ns (loc loc' : Location) (A : Int) :
    ((atAbs loc A).In loc').ns = (A - loc.offset) * 1000000000 := rfl

theorem nextStart_loc (s : SpecSchedule) (t : Time) : (nextStart s t).loc = nextLoc s t := by
  rw [nextStart_eq]; rfl

theorem nextStart_abs (s : SpecSchedule) (t : Time) :
    (nextStart s t).abs = t.ns / 1000000000 + 1 + (nextLoc s t).offset := by
  rw [nextStart_eq, atAbs_abs]

theorem nextStart_ns (s : SpecSchedule) (t : Time) :
    (nextStart s t).ns = (t.ns / 1000000000 + 1) * 1000000000 := by
  rw [nextStart_eq]; unfold atAbs; simp only; congr 1; omega

/-- A state at the end of the second loop whose second is permitted holds
an instant that satisfies the rule. -/
theorem Satisfies_of_NextInv {s : SpecSchedule} {loc : Location} {A0 yl A : Int}
    {added : Bool} (h : NextInv s loc A0 yl .SECOND A added)
    (hb : bitAnd (A % 60) s.Second ≠ 0) : Satisfies s (atAbs loc A) := by
  have hmo := h.month (by simp [Label.idx])
  have hda := h.day (by simp [Label.idx])
  have hho := h.hour (by simp [Label.idx])
  have hmi := h.minute (by simp [Label.idx])
  have hmr := monthOfDays_range (A / 86400)
  refine ⟨atAbs_Nanosecond loc A, ?_, ?_, ?_, ?_, hda⟩
  · rw [atAbs_Second]
    exact (bitAnd_ne_zero_iff _ _ (by omega) (by omega)).1 hb
  · rw [atAbs_Minute]
    exact (bitAnd_ne_zero_iff _ _ (by omega) (by omega)).1 hmi
  · rw [atAbs_Hour]
    exact (bitAnd_ne_zero_iff _ _ (by omega) (by omega)).1 hho
  · rw [atAbs_Month]
    exact (bitAnd_ne_zero_iff _ _ (by omega) (by omega)).1 hmo

/-- What `SpecSchedule.Next` returns: the zero time, or an instant at or after
the search start, in the location of the given time, that satisfies the rule
on the clock of the search location and lies in a year within the limit. -/
theorem Next_result (s : SpecSchedule) (t : Time) :
    ∃ r, s.Next t = some r ∧
      (r = Time.zero ∨
        (r.loc = t.loc ∧ (nextStart s t).ns ≤ r.ns ∧ Satisfies s (r.In (nextLoc s t)) ∧
          (r.In (nextLoc s t)).Year ≤ (nextStart s t).Year + 5)) := by
  obtain ⟨r, hr, hpost⟩ := Next_spec s t (fun _ _ _ => True) (fun _ _ _ _ _ _ _ _ _ => trivial)
    trivial
  refine ⟨r, hr, ?_⟩
  rcases hpost with ⟨hz, -⟩ | ⟨A, added, hrA, hinv, -, hb⟩
  · exact Or.inl hz
  · right
    subst hrA
    refine ⟨rfl, ?_, ?_, ?_⟩
    · have hge := hinv.ge
      rw [nextStart_abs] at hge
      rw [nextStart_ns, atAbs_In_ns]
      omega
    · rw [atAbs_In_In]
      exact Satisfies_of_NextInv hinv hb
    · rw [atAbs_In_In, atAbs_Year]
      have := hinv.year
      simpa using this

/-! ## Calendar-field rules -/

theorem zero_IsZero : Time.zero.IsZero = true := rfl

/-- On the unbounded time line of the embedding: `SpecSchedule.Next`
returns for every rule `s` and instant `t`, and whenever what it returns is
not the zero time it is strictly after `t`.  (At the end of the range of
`time.Time` the library's `Add` saturates and the code behaves otherwise, see
the last section.) -/
theorem Next_strictly_after (s : SpecSchedule) (t : Time) :
    ∃ r, s.Next t = some r ∧
      (r.IsZero = false → t.Before r = true ∧ r.Before t = false ∧ r.ns ≠ t.ns) := by
  obtain ⟨r, hr, hpost⟩ := Next_result s t
  refine ⟨r, hr, fun hz => ?_⟩
  rcases hpost with rfl | ⟨-, hge, -, -⟩
  · rw [zero_IsZero] at hz; exact absurd hz (by decide)
  · rw [nextStart_ns] at hge
    unfold Time.Before
    simp only [decide_eq_true_eq, decide_eq_false_iff_not]
    omega

/-- C4: whenever what `SpecSchedule.Next` returns is not the zero time, it
satisfies the rule when read on the clock of the location searched (a zone
with a constant offset from UTC, such as UTC): it falls on a whole second,
its second, minute, hour and month have their bit set in `s.Second`,
`s.Minute`, `s.Hour` and `s.Month`, and `dayMatches` holds for it. -/
theorem C4_Next_satisfies (s : SpecSchedule) (t : Time) :
    ∃ r, s.Next t = some r ∧
      (r.IsZero = false →
        (r.In (nextLoc s t)).Nanosecond = 0 ∧
        s.Second.testBit (r.In (nextLoc s t)).Second.toNat = true ∧
        s.Minute.testBit (r.In (nextLoc s t)).Minute.toNat = true ∧
        s.Hour.testBit (r.In (nextLoc s t)).Hour.toNat = true ∧
        s.Month.testBit (r.In (nextLoc s t)).Month.toNat = true ∧
        dayMatches s (r.In (nextLoc s t)) = true) := by
  obtain ⟨r, hr, hpost⟩ := Next_result s t
  refine ⟨r, hr, fun hz => ?_⟩
  rcases hpost with rfl | ⟨-, -, hsat, -⟩
  · rw [zero_IsZero] at hz; exact absurd hz (by decide)
  · exact hsat

/-- No instant satisfies the rule "February 30". -/
theorem ruleFeb30_unsatisfiable (u : Time) : ¬ Satisfies ruleFeb30 u := by
  rintro ⟨-, -, -, -, hmo, hda⟩
  obtain ⟨m1, m2, d1, d2, -⟩ := civil_of_days u.days
  have hm : u.Month = 2 := by
    have hmr : u.Month = 1 ∨ u.Month = 2 ∨ u.Month = 3 ∨ u.Month = 4 ∨ u.Month = 5 ∨
        u.Month = 6 ∨ u.Month = 7 ∨ u.Month = 8 ∨ u.Month = 9 ∨ u.Month = 10 ∨
        u.Month = 11 ∨ u.Month = 12 := by
      unfold Time.Month; omega
    rcases hmr with h | h | h | h | h | h | h | h | h | h | h | h <;>
      first
      | exact h
      | (rw [h] at hmo; exact absurd hmo (by decide))
  have hd : u.Day = 30 := by
    have hstar : (ruleFeb30.Dom &&& starBit > 0 || ruleFeb30.Dow &&& starBit > 0) = true := by
      decide
    unfold dayMatches at hda
    simp only [hstar, if_true, Bool.and_eq_true, decide_eq_true_eq] at hda
    have hdr : 1 ≤ u.Day ∧ u.Day ≤ 31 := dayOfDays_range u.days
    have hp := (bitAnd_pos_iff u.Day ruleFeb30.Dom (by omega) (by omega)).1 hda.1
    have hcases : u.Day = 30 ∨ (1 ≤ u.Day ∧ u.Day ≤ 29) ∨ u.Day = 31 := by omega
    rcases hcases with h | h | h
    · exact h
    · exfalso
      have hn : u.Day.toNat < 30 := by omega
      have : ruleFeb30.Dom.testBit u.Day.toNat = false := by
        show (1 <<< 30).testBit u.Day.toNat = false
        rw [Nat.one_shiftLeft, Nat.testBit_two_pow]
        simp only [decide_eq_false_iff_not]
        omega
      unfold permits at hp
      rw [this] at hp
      exact absurd hp (by decide)
    · rw [h] at hp; exact absurd hp (by decide)
  have h2 := daysBeforeMonth_2 (yearOfDays u.days)
  have h3 := daysBeforeMonth_3 (yearOfDays u.days)
  have hl := leapDay_range (yearOfDays u.days)
  unfold Time.Month at hm
  unfold Time.Day at hd
  rw [hm] at d2
  simp only [Int.reduceAdd] at d2
  omega

/-- On the unbounded time line of the embedding: for every rule that no
instant satisfies, `SpecSchedule.Next` returns for every `t`, and returns the
zero time. -/
theorem Next_unsatisfiable (s : SpecSchedule) (t : Time)
    (h : ∀ u : Time, ¬ Satisfies s u) : s.Next t = some Time.zero := by
  obtain ⟨r, hr, hpost⟩ := Next_result s t
  rcases hpost with rfl | ⟨-, -, hsat, -⟩
  · exact hr
  · exact absurd hsat (h _)

theorem Next_unsatisfiable_Feb30 :
    ruleFeb30.Next (Date 2024 3 10 2 10 0 0 UTC) = some Time.zero :=
  Next_unsatisfiable ruleFeb30 (Date 2024 3 10 2 10 0 0 UTC) ruleFeb30_unsatisfiable

/-- On the unbounded time line of the embedding: every result of
`SpecSchedule.Next` that is not the zero time is not before the search start
and lies, on the clock of the location searched, in a calendar year at most
five after the year of the search start; and if no instant at or after the
search start satisfies the rule in those calendar years, the result is the
zero time. -/
theorem Next_year_limit (s : SpecSchedule) (t : Time) :
    ∃ r, s.Next t = some r ∧
      (r.IsZero = false →
        (nextStart s t).Before r = true ∨ (nextStart s t).ns = r.ns) ∧
      (r.IsZero = false → (r.In (nextLoc s t)).Year ≤ (nextStart s t).Year + 5) ∧
      ((∀ u : Time, u.loc = nextLoc s t → (nextStart s t).ns ≤ u.ns →
          u.Year ≤ (nextStart s t).Year + 5 → ¬ Satisfies s u) → r = Time.zero) := by
  obtain ⟨r, hr, hpost⟩ := Next_result s t
  refine ⟨r, hr, ?_, ?_, ?_⟩
  · intro hz
    rcases hpost with rfl | ⟨-, hge, -, -⟩
    · rw [zero_IsZero] at hz; exact absurd hz (by decide)
    · unfold Time.Before
      simp only [decide_eq_true_eq]
      omega
  · intro hz
    rcases hpost with rfl | ⟨-, -, -, hy⟩
    · rw [zero_IsZero] at hz; exact absurd hz (by decide)
    · exact hy
  · intro hno
    rcases hpost with rfl | ⟨-, hge, hsat, hy⟩
    · rfl
    · exact absurd hsat (hno _ rfl hge hy)

/-- The days from a day to the end of its month are in its month and year. -/
theorem same_month_of_between {D X : Int} (h1 : D ≤ X)
    (h2 : X < daysSinceEpoch (yearOfDays D) + daysBeforeMonth (yearOfDays D) (monthOfDays D + 1)) :
    yearOfDays X = yearOfDays D ∧ monthOfDays X = monthOfDays D := by
  obtain ⟨m1, m2, d1, d2, hD⟩ := civil_of_days D
  have hc : IsCivil X (yearOfDays D) (monthOfDays D) (dayOfDays D + (X - D)) :=
    ⟨m1, m2, by omega, by omega, by omega⟩
  obtain ⟨e1, e2, -⟩ := civil_unique hc
  exact ⟨e1, e2⟩

/-- The first day of the month after: its day of the month is 1. -/
theorem dayOfDays_next_month (D : Int) :
    dayOfDays (daysSinceEpoch (yearOfDays D) + daysBeforeMonth (yearOfDays D) (monthOfDays D + 1))
      = 1 := by
  obtain ⟨m1, m2, d1, d2, hD⟩ := civil_of_days D
  generalize yearOfDays D = y at *
  generalize monthOfDays D = m at *
  by_cases hm : m = 12
  · subst hm
    have hs := daysSinceEpoch_succ_leapDay y
    have h13 := daysBeforeMonth_13 y
    have h1 := daysBeforeMonth_1 (y + 1)
    have hstep := daysBeforeMonth_step (y + 1) 1 (by decide) (by decide)
    have hc : IsCivil (daysSinceEpoch y + daysBeforeMonth y (12 + 1)) (y + 1) 1 1 := by
      refine ⟨by decide, by decide, by decide, by omega, ?_⟩
      simp only [Int.reduceAdd]
      omega
    exact (civil_unique hc).2.2
  · have hstep := daysBeforeMonth_step y (m + 1) (by omega) (by omega)
    have hc : IsCivil (daysSinceEpoch y + daysBeforeMonth y (m + 1)) y (m + 1) 1 :=
      ⟨by omega, by omega, by decide, by omega, by omega⟩
    exact (civil_unique hc).2.2

/-- The month loop moves to the start of the next month when the time is
fresh or already at the start of a month. -/
theorem monthAdvance_aligned (added : Bool) (A : Int)
    (h : added = true → dayOfDays (A / 86400) = 1 ∧ A % 86400 = 0) :
    monthAdvance added A = (daysSinceEpoch (yearOfDays (A / 86400))
      + daysBeforeMonth (yearOfDays (A / 86400)) (monthOfDays (A / 86400) + 1)) * 86400 := by
  cases added
  · exact monthAdvance_false A
  · obtain ⟨hd, ha⟩ := h rfl
    obtain ⟨m1, m2, d1, d2, hD⟩ := civil_of_days (A / 86400)
    rw [monthAdvance_true]
    omega

theorem nextState_inl_inj {loc : Location} {pc pc' : Label} {A A' : Int} {added added' : Bool}
    (h : (Sum.inl ⟨pc, atAbs loc A, added⟩ : NextState ⊕ Time)
      = Sum.inl ⟨pc', atAbs loc A', added'⟩) :
    pc = pc' ∧ A = A' ∧ added = added' := by
  simp only [Sum.inl.injEq, NextState.mk.injEq] at h
  exact ⟨h.1, atAbs_inj h.2.1, h.2.2⟩

theorem NextSkip.forward {s : SpecSchedule} {loc : Location} {A0 A : Int} {pc pc' : Label}
    {added : Bool} (e : NextSkip s loc A0 pc A added) (h : pc.idx ≤ pc'.idx) :
    NextSkip s loc A0 pc' A added :=
  ⟨e.skip, fun ha hc => e.alMonth ha (by omega), fun ha hc => e.alDay ha (by omega),
    fun ha hc => e.alHour ha (by omega), fun ha hc => e.alMinute ha (by omega)⟩

/-- A state reached at the start of a unit of time (a multiple of `u` seconds,
`u` dividing 60) after skipping only seconds that do not satisfy the rule. -/
theorem NextSkip.of_skip {s : SpecSchedule} {loc : Location} {A0 A A' : Int} {pc pc' : Label}
    {added : Bool} (e : NextSkip s loc A0 pc A added)
    (hskip : ∀ x, A ≤ x → x < A' → ¬ MatchAt s loc x)
    (hM : pc'.idx ≤ 1 → (dayOfDays (A' / 86400) = 1 ∧ A' % 86400 = 0) ∨
      bitAnd (monthOfDays (A' / 86400)) s.Month ≠ 0)
    (hD : pc'.idx ≤ 2 → A' % 86400 = 0 ∨
      (bitAnd (monthOfDays (A' / 86400)) s.Month ≠ 0 ∧ dayMatches s (atAbs loc A') = true))
    (hH : pc'.idx ≤ 3 → A' % 3600 = 0 ∨
      (bitAnd (monthOfDays (A' / 86400)) s.Month ≠ 0 ∧ dayMatches s (atAbs loc A') = true ∧
        bitAnd (A' % 86400 / 3600) s.Hour ≠ 0))
    (hMi : pc'.idx ≤ 4 → A' % 60 = 0 ∨
      (bitAnd (monthOfDays (A' / 86400)) s.Month ≠ 0 ∧ dayMatches s (atAbs loc A') = true ∧
        bitAnd (A' % 86400 / 3600) s.Hour ≠ 0 ∧ bitAnd (A' % 3600 / 60) s.Minute ≠ 0)) :
    NextSkip s loc A0 pc' A' true := by
  refine ⟨fun x h1 h2 => ?_, fun _ => hM, fun _ => hD, fun _ => hH, fun _ => hMi⟩
  by_cases hx : x < A
  · exact e.skip x h1 hx
  · exact hskip x (by omega) h2

section SkipInvariant

variable {s : SpecSchedule} {loc : Location} {A0 yl A A' : Int} {added added' : Bool}
  {pc' : Label}

theorem skip_WRAP (orig : Location) (e : NextSkip s loc A0 .WRAP A added)
    (hs : nextStep s loc orig yl ⟨.WRAP, atAbs loc A, added⟩
      = .inl ⟨pc', atAbs loc A', added'⟩) : NextSkip s loc A0 pc' A' added' := by
  rw [nextStep_WRAP] at hs
  split at hs
  · exact absurd hs (by simp)
  · obtain ⟨rfl, rfl, rfl⟩ := nextState_inl_inj hs
    exact e.forward (by simp [Label.idx])

theorem skip_MONTH (orig : Location) (e : NextSkip s loc A0 .MONTH A added)
    (hs : nextStep s loc orig yl ⟨.MONTH, atAbs loc A, added⟩
      = .inl ⟨pc', atAbs loc A', added'⟩) : NextSkip s loc A0 pc' A' added' := by
  rw [nextStep_MONTH] at hs
  by_cases hb : bitAnd (monthOfDays (A / 86400)) s.Month = 0
  · rw [if_pos hb] at hs
    have hal : added = true → dayOfDays (A / 86400) = 1 ∧ A % 86400 = 0 := by
      intro ha
      rcases e.alMonth ha (by simp [Label.idx]) with h1 | h1
      · exact h1
      · exact absurd hb h1
    have heq := monthAdvance_aligned added A hal
    have hday := dayOfDays_next_month (A / 86400)
    have hD' : monthAdvance added A / 86400 = daysSinceEpoch (yearOfDays (A / 86400))
        + daysBeforeMonth (yearOfDays (A / 86400)) (monthOfDays (A / 86400) + 1) := by
      rw [heq]; omega
    have hmod : monthAdvance added A % 86400 = 0 := by rw [heq]; omega
    have key : NextSkip s loc A0 pc' (monthAdvance added A) true := by
      refine e.of_skip (fun x h1 h2 hm => ?_) (fun _ => Or.inl ⟨by rw [hD']; exact hday, hmod⟩)
        (fun _ => Or.inl hmod) (fun _ => Or.inl (by omega)) (fun _ => Or.inl (by omega))
      have hx : x / 86400 < daysSinceEpoch (yearOfDays (A / 86400))
          + daysBeforeMonth (yearOfDays (A / 86400)) (monthOfDays (A / 86400) + 1) := by
        rw [heq] at h2; omega
      have hsame := @same_month_of_between (A / 86400) (x / 86400) (by omega) hx
      have := hm.2.2.2.1
      rw [hsame.2] at this
      exact this hb
    split at hs
    · obtain ⟨-, rfl, rfl⟩ := nextState_inl_inj hs
      exact key
    · obtain ⟨-, rfl, rfl⟩ := nextState_inl_inj hs
      exact key
  · rw [if_neg hb] at hs
    obtain ⟨rfl, rfl, rfl⟩ := nextState_inl_inj hs
    exact e.forward (by simp [Label.idx])

theorem skip_DAY (orig : Location) (h : NextInv s loc A0 yl .DAY A added)
    (e : NextSkip s loc A0 .DAY A added)
    (hs : nextStep s loc orig yl ⟨.DAY, atAbs loc A, added⟩
      = .inl ⟨pc', atAbs loc A', added'⟩) : NextSkip s loc A0 pc' A' added' := by
  rw [nextStep_DAY] at hs
  have hmo := h.month (by simp [Label.idx])
  by_cases hb : dayMatches s (atAbs loc A) = false
  · rw [if_pos hb] at hs
    have hal : added = true → A % 86400 = 0 := by
      intro ha
      rcases e.alDay ha (by simp [Label.idx]) with h1 | ⟨-, h1⟩
      · exact h1
      · rw [hb] at h1; exact absurd h1 (by decide)
    have hmid : added = false ∨ A % 86400 / 3600 = 0 := by
      cases added
      · exact Or.inl rfl
      · right; have := hal rfl; omega
    have heq : dayAdvance added A = (A / 86400 + 1) * 86400 := by
      rw [dayAdvance_of_midnight added A hmid]
      cases added
      · simp
      · simp only [if_true]; have := hal rfl; omega
    have hD' : dayAdvance added A / 86400 = A / 86400 + 1 := by rw [heq]; omega
    have hmod : dayAdvance added A % 86400 = 0 := by rw [heq]; omega
    have key : (pc'.idx ≤ 1 → dayOfDays (dayAdvance added A / 86400) = 1) →
        NextSkip s loc A0 pc' (dayAdvance added A) true := by
      intro hpc
      refine e.of_skip (fun x h1 h2 hm => ?_) (fun hc => Or.inl ⟨hpc hc, hmod⟩)
        (fun _ => Or.inl hmod) (fun _ => Or.inl (by omega)) (fun _ => Or.inl (by omega))
      have hx : x / 86400 = A / 86400 := by rw [heq] at h2; omega
      have := hm.2.2.2.2
      rw [dayMatches_congr s loc hx, hb] at this
      exact absurd this (by decide)
    split at hs
    · rename_i hj
      obtain ⟨-, rfl, rfl⟩ := nextState_inl_inj hs
      exact key (fun _ => hj)
    · obtain ⟨rfl, rfl, rfl⟩ := nextState_inl_inj hs
      exact key (fun hc => by simp [Label.idx] at hc)
  · rw [if_neg hb] at hs
    obtain ⟨rfl, rfl, rfl⟩ := nextState_inl_inj hs
    exact e.forward (by simp [Label.idx])

/-- After moving ahead by at most an hour to the start of an hour, or within
the hour: the start of a month, or the permitted month; the start of a day, or
the permitted month and day. -/
theorem al_after (s : SpecSchedule) (loc : Location) {A A' : Int} (h1 : A < A')
    (h2 : A' ≤ A + 3600) (u : A' % 3600 = 0 ∨ A' / 3600 = A / 3600)
    (hmo : bitAnd (monthOfDays (A / 86400)) s.Month ≠ 0)
    (hda : dayMatches s (atAbs loc A) = true) :
    ((dayOfDays (A' / 86400) = 1 ∧ A' % 86400 = 0) ∨
        bitAnd (monthOfDays (A' / 86400)) s.Month ≠ 0) ∧
    (A' % 86400 = 0 ∨
      (bitAnd (monthOfDays (A' / 86400)) s.Month ≠ 0 ∧ dayMatches s (atAbs loc A') = true)) := by
  by_cases hD : A' / 86400 = A / 86400
  · rw [hD, dayMatches_congr s loc hD]
    exact ⟨Or.inr hmo, Or.inr ⟨hmo, hda⟩⟩
  · have hD' : A' / 86400 = A / 86400 + 1 := by omega
    have hmod : A' % 86400 = 0 := by omega
    refine ⟨?_, Or.inl hmod⟩
    by_cases hj : dayOfDays (A' / 86400) = 1
    · exact Or.inl ⟨hj, hmod⟩
    · right
      rw [hD'] at hj ⊢
      rw [(next_day_same_month _ hj).2]
      exact hmo

theorem skip_HOUR (orig : Location) (h : NextInv s loc A0 yl .HOUR A added)
    (e : NextSkip s loc A0 .HOUR A added)
    (hs : nextStep s loc orig yl ⟨.HOUR, atAbs loc A, added⟩
      = .inl ⟨pc', atAbs loc A', added'⟩) : NextSkip s loc A0 pc' A' added' := by
  rw [nextStep_HOUR] at hs
  have hmo := h.month (by simp [Label.idx])
  have hda := h.day (by simp [Label.idx])
  by_cases hb : bitAnd (A % 86400 / 3600) s.Hour = 0
  · rw [if_pos hb] at hs
    have hal : added = true → A % 3600 = 0 := by
      intro ha
      rcases e.alHour ha (by simp [Label.idx]) with h1 | ⟨-, -, h1⟩
      · exact h1
      · exact absurd hb h1
    have heq : hourAdvance added A = (A / 3600 + 1) * 3600 := by
      unfold hourAdvance
      cases added
      · simp only [Bool.false_eq_true, if_false]; omega
      · simp only [if_true]; have := hal rfl; omega
    have hmod : hourAdvance added A % 3600 = 0 := by rw [heq]; omega
    have hgt := hourAdvance_gt added A
    have hle := hourAdvance_le added A
    obtain ⟨a1, a2⟩ := al_after s loc hgt hle (Or.inl hmod) hmo hda
    have key : NextSkip s loc A0 pc' (hourAdvance added A) true := by
      refine e.of_skip (fun x h1 h2 hm => ?_) (fun _ => a1) (fun _ => a2)
        (fun _ => Or.inl hmod) (fun _ => Or.inl (by omega))
      have hx : x % 86400 / 3600 = A % 86400 / 3600 := by rw [heq] at h2; omega
      have := hm.2.2.1
      rw [hx] at this
      exact this hb
    split at hs
    · obtain ⟨-, rfl, rfl⟩ := nextState_inl_inj hs
      exact key
    · obtain ⟨-, rfl, rfl⟩ := nextState_inl_inj hs
      exact key
  · rw [if_neg hb] at hs
    obtain ⟨rfl, rfl, rfl⟩ := nextState_inl_inj hs
    exact e.forward (by simp [Label.idx])

theorem skip_MINUTE (orig : Location) (hoff : loc.offset % 60 = 0)
    (h : NextInv s loc A0 yl .MINUTE A added)
    (e : NextSkip s loc A0 .MINUTE A added)
    (hs : nextStep s loc orig yl ⟨.MINUTE, atAbs loc A, added⟩
      = .inl ⟨pc', atAbs loc A', added'⟩) : NextSkip s loc A0 pc' A' added' := by
  rw [nextStep_MINUTE] at hs
  have hmo := h.month (by simp [Label.idx])
  have hda := h.day (by simp [Label.idx])
  have hho := h.hour (by simp [Label.idx])
  by_cases hb : bitAnd (A % 3600 / 60) s.Minute = 0
  · rw [if_pos hb] at hs
    have hal : added = true → A % 60 = 0 := by
      intro ha
      rcases e.alMinute ha (by simp [Label.idx]) with h1 | ⟨-, -, -, h1⟩
      · exact h1
      · exact absurd hb h1
    have heq : minuteAdvance loc.offset added A = (A / 60 + 1) * 60 := by
      unfold minuteAdvance
      cases added
      · simp only [Bool.false_eq_true, if_false]; omega
      · simp only [if_true]; have := hal rfl; omega
    have hmod : minuteAdvance loc.offset added A % 60 = 0 := by rw [heq]; omega
    have hgt := minuteAdvance_gt loc.offset added A
    have hle := minuteAdvance_le loc.offset added A
    have hskip : ∀ x, A ≤ x → x < minuteAdvance loc.offset added A → ¬ MatchAt s loc x := by
      intro x h1 h2 hm
      have hx : x % 3600 / 60 = A % 3600 / 60 := by rw [heq] at h2; omega
      have := hm.2.1
      rw [hx] at this
      exact this hb
    split at hs
    · rename_i hj
      obtain ⟨-, rfl, rfl⟩ := nextState_inl_inj hs
      have hmod' : minuteAdvance loc.offset added A % 3600 = 0 := by omega
      obtain ⟨a1, a2⟩ := al_after s loc hgt (by omega) (Or.inl hmod') hmo hda
      exact e.of_skip hskip (fun _ => a1) (fun _ => a2) (fun _ => Or.inl hmod')
        (fun _ => Or.inl hmod)
    · obtain ⟨rfl, rfl, rfl⟩ := nextState_inl_inj hs
      exact e.of_skip hskip (fun hc => by simp [Label.idx] at hc)
        (fun hc => by simp [Label.idx] at hc) (fun hc => by simp [Label.idx] at hc)
        (fun _ => Or.inl hmod)
  · rw [if_neg hb] at hs
    obtain ⟨rfl, rfl, rfl⟩ := nextState_inl_inj hs
    exact e.forward (by simp [Label.idx])

theorem skip_SECOND (orig : Location) (h : NextInv s loc A0 yl .SECOND A added)
    (e : NextSkip s loc A0 .SECOND A added)
    (hs : nextStep s loc orig yl ⟨.SECOND, atAbs loc A, added⟩
      = .inl ⟨pc', atAbs loc A', added'⟩) : NextSkip s loc A0 pc' A' added' := by
  rw [nextStep_SECOND] at hs
  have hmo := h.month (by simp [Label.idx])
  have hda := h.day (by simp [Label.idx])
  have hho := h.hour (by simp [Label.idx])
  have hmi := h.minute (by simp [Label.idx])
  by_cases hb : bitAnd (A % 60) s.Second = 0
  · rw [if_pos hb] at hs
    unfold secondAdvance at hs
    have hskip : ∀ x, A ≤ x → x < A + 1 → ¬ MatchAt s loc x := by
      intro x h1 h2 hm
      have hx : x = A := by omega
      have := hm.1
      rw [hx] at this
      exact this hb
    split at hs
    · rename_i hj
      obtain ⟨-, rfl, rfl⟩ := nextState_inl_inj hs
      have u : (A + 1) % 3600 = 0 ∨ (A + 1) / 3600 = A / 3600 := by omega
      obtain ⟨a1, a2⟩ := @al_after s loc A (A + 1) (by omega) (by omega) u hmo hda
      refine e.of_skip hskip (fun _ => a1) (fun _ => a2) (fun _ => ?_) (fun _ => Or.inl hj)
      rcases u with u | u
      · exact Or.inl u
      · right
        have hD : (A + 1) / 86400 = A / 86400 := by omega
        have hH : (A + 1) % 86400 / 3600 = A % 86400 / 3600 := by omega
        rw [hD, dayMatches_congr s loc hD, hH]
        exact ⟨hmo, hda, hho⟩
    · obtain ⟨rfl, rfl, rfl⟩ := nextState_inl_inj hs
      exact e.of_skip hskip (fun hc => by simp [Label.idx] at hc)
        (fun hc => by simp [Label.idx] at hc) (fun hc => by simp [Label.idx] at hc)
        (fun hc => by simp [Label.idx] at hc)
  · rw [if_neg hb] at hs
    exact absurd hs (by simp)

end SkipInvariant

theorem skip_step {s : SpecSchedule} {loc : Location} {A0 yl : Int} (orig : Location)
    (hoff : loc.offset % 60 = 0) (pc : Label) (A : Int) (added : Bool) (pc' : Label) (A' : Int)
    (added' : Bool) (h : NextInv s loc A0 yl pc A added) (e : NextSkip s loc A0 pc A added)
    (hs : nextStep s loc orig yl ⟨pc, atAbs loc A, added⟩
      = .inl ⟨pc', atAbs loc A', added'⟩) : NextSkip s loc A0 pc' A' added' := by
  cases pc
  · exact skip_WRAP orig e hs
  · exact skip_MONTH orig e hs
  · exact skip_DAY orig h e hs
  · exact skip_HOUR orig h e hs
  · exact skip_MINUTE orig hoff h e hs
  · exact skip_SECOND orig h e hs

theorem NextSkip_init (s : SpecSchedule) (loc : Location) (A0 : Int) :
    NextSkip s loc A0 .WRAP A0 false :=
  ⟨fun x h1 h2 => by omega, fun h => by simp at h, fun h => by simp at h,
    fun h => by simp at h, fun h => by simp at h⟩

theorem MatchAt_of_NextInv {s : SpecSchedule} {loc : Location} {A0 yl A : Int}
    {added : Bool} (h : NextInv s loc A0 yl .SECOND A added)
    (hb : bitAnd (A % 60) s.Second ≠ 0) : MatchAt s loc A :=
  ⟨hb, h.minute (by simp [Label.idx]), h.hour (by simp [Label.idx]),
    h.month (by simp [Label.idx]), h.day (by simp [Label.idx])⟩

/-- In a zone whose offset is a whole number of minutes, `SpecSchedule.Next`
returns the zero time only if no second from the search start to the end of
the year limit satisfies the rule, and otherwise the first second from the
search start that satisfies it. -/
theorem Next_earliest (s : SpecSchedule) (t : Time) (hoff : (nextLoc s t).offset % 60 = 0) :
    ∃ r, s.Next t = some r ∧
      ((r = Time.zero ∧ ∀ x, (nextStart s t).abs ≤ x →
          yearOfDays (x / 86400) ≤ (nextStart s t).Year + 5 → ¬ MatchAt s (nextLoc s t) x) ∨
       (∃ A, r = (atAbs (nextLoc s t) A).In t.loc ∧ (nextStart s t).abs ≤ A ∧
          MatchAt s (nextLoc s t) A ∧ yearOfDays (A / 86400) ≤ (nextStart s t).Year + 5 ∧
          ∀ x, (nextStart s t).abs ≤ x → x < A → ¬ MatchAt s (nextLoc s t) x)) := by
  obtain ⟨r, hr, hpost⟩ := Next_spec s t (NextSkip s (nextLoc s t) (nextStart s t).abs)
    (fun pc A added pc' A' added' h e hs => skip_step t.loc hoff pc A added pc' A' added' h e hs)
    (NextSkip_init _ _ _)
  refine ⟨r, hr, ?_⟩
  rcases hpost with ⟨hz, A, added, hinv, hskip, hy⟩ | ⟨A, added, hrA, hinv, hskip, hb⟩
  · left
    refine ⟨hz, fun x h1 h2 => hskip.skip x h1 ?_⟩
    by_contra hc
    have := yearOfDays_mono (show A / 86400 ≤ x / 86400 by omega)
    omega
  · right
    refine ⟨A, hrA, hinv.ge, MatchAt_of_NextInv hinv hb, ?_, hskip.skip⟩
    have := hinv.year
    simpa using this

theorem permits_of_forall {mask : Nat} {n : Nat} (hn : n ≤ 64)
    (h : ∀ k < n, mask.testBit k = true) (v : Int) (h0 : 0 ≤ v) (h1 : v < n) :
    bitAnd v mask ≠ 0 := by
  rw [bitAnd_ne_zero_iff v mask h0 (by omega)]
  exact h v.toNat (by omega)

theorem ruleHourly30_hour : ∀ k < 24, ruleHourly30.Hour.testBit k = true := by decide

theorem ruleHourly30_month : ∀ k < 13, 1 ≤ k → ruleHourly30.Month.testBit k = true := by decide

theorem ruleHourly30_dom : ∀ k < 32, 1 ≤ k → ruleHourly30.Dom.testBit k = true := by decide

theorem ruleHourly30_dow : ∀ k < 7, ruleHourly30.Dow.testBit k = true := by decide

theorem testBit_one_shiftLeft (n k : Nat) : (1 <<< n).testBit k = decide (n = k) := by
  rw [Nat.one_shiftLeft, Nat.testBit_two_pow]

/-- The seconds that satisfy "every hour at minute 30" in UTC: those 1800
seconds into an hour. -/
theorem ruleHourly30_match (x : Int) : MatchAt ruleHourly30 UTC x ↔ x % 3600 = 1800 := by
  constructor
  · rintro ⟨hs, hm, -, -, -⟩
    rw [bitAnd_ne_zero_iff _ _ (by omega) (by omega)] at hs hm
    have hs' : (x % 60).toNat = 0 := by
      have : (1 <<< 0).testBit (x % 60).toNat = true := hs
      rw [testBit_one_shiftLeft, decide_eq_true_eq] at this
      exact this.symm
    have hm' : (x % 3600 / 60).toNat = 30 := by
      have : (1 <<< 30).testBit (x % 3600 / 60).toNat = true := hm
      rw [testBit_one_shiftLeft, decide_eq_true_eq] at this
      exact this.symm
    omega
  · intro hx
    have e1 : x % 60 = 0 := by omega
    have e2 : x % 3600 / 60 = 30 := by omega
    have hmr := monthOfDays_range (x / 86400)
    have hdr := dayOfDays_range (x / 86400)
    refine ⟨by rw [e1]; decide, by rw [e2]; decide, ?_, ?_, ?_⟩
    · rw [bitAnd_ne_zero_iff _ _ (by omega) (by omega)]
      exact ruleHourly30_hour _ (by omega)
    · rw [bitAnd_ne_zero_iff _ _ (by omega) (by omega)]
      exact ruleHourly30_month _ (by omega) (by omega)
    · have hstar : (ruleHourly30.Dom &&& starBit > 0 || ruleHourly30.Dow &&& starBit > 0)
          = true := by decide
      unfold dayMatches
      simp only [hstar, if_true, Bool.and_eq_true, decide_eq_true_eq]
      rw [atAbs_Day, atAbs_Weekday]
      rw [bitAnd_pos_iff _ _ (by omega) (by omega), bitAnd_pos_iff _ _ (by omega) (by omega)]
      exact ⟨ruleHourly30_dom _ (by omega) (by omega), ruleHourly30_dow _ (by omega)⟩

/-- On the unbounded time line of the embedding: for the rule "every hour
at minute 30" evaluated in UTC and every instant `t`, `Next(t)` is the :30:00
of the hour of `t` when `t` is before it and the :30:00 of the next hour
otherwise; it is strictly after `t`, on a whole second with minute 30 and
second 0, and no whole second with minute 30 and second 0 lies strictly
between `t` and it; 02:10 of any day yields 02:30:00 of that day and 02:45
yields 03:30:00. -/
theorem Next_hourly30 (t : Time) :
    ∃ r, ruleHourly30.Next t = some r ∧ r.loc = t.loc ∧
      r.ns = (if t.ns < (t.ns / 3600000000000 * 3600 + 1800) * 1000000000
        then (t.ns / 3600000000000 * 3600 + 1800) * 1000000000
        else ((t.ns / 3600000000000 + 1) * 3600 + 1800) * 1000000000) ∧
      t.Before r = true ∧
      (r.In UTC).Nanosecond = 0 ∧ (r.In UTC).Second = 0 ∧ (r.In UTC).Minute = 30 ∧
      (∀ u : Time, u.Nanosecond = 0 → (u.In UTC).Second = 0 → (u.In UTC).Minute = 30 →
        t.Before u = true → u.Before r = false) ∧
      (∀ D : Int, t = atAbs UTC (D * 86400 + 2 * 3600 + 10 * 60) →
        r = atAbs UTC (D * 86400 + 2 * 3600 + 30 * 60)) ∧
      (∀ D : Int, t = atAbs UTC (D * 86400 + 2 * 3600 + 45 * 60) →
        r = atAbs UTC (D * 86400 + 3 * 3600 + 30 * 60)) := by
  have hloc : nextLoc ruleHourly30 t = UTC := rfl
  obtain ⟨r, hr, hpost⟩ := Next_earliest ruleHourly30 t (by rw [hloc]; rfl)
  have habs := nextStart_abs ruleHourly30 t
  have hyear : (nextStart ruleHourly30 t).Year
      = yearOfDays ((nextStart ruleHourly30 t).abs / 86400) := rfl
  rw [hloc] at hpost habs
  simp only [show UTC.offset = 0 from rfl, add_zero] at habs
  rw [hyear, habs] at hpost
  generalize hX : (if t.ns < (t.ns / 3600000000000 * 3600 + 1800) * 1000000000
        then (t.ns / 3600000000000 * 3600 + 1800)
        else ((t.ns / 3600000000000 + 1) * 3600 + 1800)) = X
  have hX1 : t.ns / 1000000000 + 1 ≤ X := by rw [← hX]; split <;> omega
  have hX2 : X % 3600 = 1800 := by rw [← hX]; split <;> omega
  have hX3 : X ≤ t.ns / 1000000000 + 1 + 3600 := by rw [← hX]; split <;> omega
  have hX4 : ∀ y, t.ns / 1000000000 + 1 ≤ y → y % 3600 = 1800 → X ≤ y := by
    intro y h1 h2; rw [← hX]; split <;> omega
  have hX5 : t.ns < X * 1000000000 := by omega
  have hXy : yearOfDays (X / 86400) ≤ yearOfDays ((t.ns / 1000000000 + 1) / 86400) + 5 := by
    have := @yearOfDays_le_succ ((t.ns / 1000000000 + 1) / 86400) (X / 86400)
      (by omega)
    omega
  have hres : r = (atAbs UTC X).In t.loc := by
    rcases hpost with ⟨-, hno⟩ | ⟨A, hrA, hge, hm, -, hskip⟩
    · exact absurd ((ruleHourly30_match X).2 hX2) (hno X hX1 hXy)
    · have hA := (ruleHourly30_match A).1 hm
      have h1 := hX4 A hge hA
      have h2 : ¬ X < A := fun hlt => hskip X hX1 hlt ((ruleHourly30_match X).2 hX2)
      have : A = X := by omega
      rw [hrA, this]
  have hns : r.ns = X * 1000000000 := by
    rw [hres, atAbs_In_ns]; simp only [show UTC.offset = 0 from rfl, sub_zero]
  have hIn : r.In UTC = atAbs UTC X := by rw [hres]; rfl
  refine ⟨r, hr, by rw [hres]; rfl, ?_, ?_, ?_, ?_, ?_, ?_, ?_, ?_⟩
  · rw [hns, ← hX]; split <;> rfl
  · unfold Time.Before; rw [hns]; simpa using hX5
  · rw [hIn, atAbs_Nanosecond]
  · rw [hIn, atAbs_Second]; omega
  · rw [hIn, atAbs_Minute]; omega
  · intro u hu0 hus hum hbu
    unfold Time.Before at hbu ⊢
    rw [hns]
    simp only [decide_eq_true_eq, decide_eq_false_iff_not, not_lt] at hbu ⊢
    unfold Time.Nanosecond at hu0
    unfold Time.Second Time.abs Time.In at hus
    unfold Time.Minute Time.abs Time.In at hum
    simp only [show UTC.offset = 0 from rfl, add_zero] at hus hum
    have := hX4 (u.ns / 1000000000) (by omega) (by omega)
    omega
  · intro D ht
    rw [hres, ht]
    have : X = D * 86400 + 2 * 3600 + 30 * 60 := by
      have e : t.ns = (D * 86400 + 2 * 3600 + 10 * 60) * 1000000000 := by
        rw [ht]; unfold atAbs; simp only [show UTC.offset = 0 from rfl, sub_zero]
      rw [← hX, e]; split <;> omega
    rw [this]; rfl
  · intro D ht
    rw [hres, ht]
    have : X = D * 86400 + 3 * 3600 + 30 * 60 := by
      have e : t.ns = (D * 86400 + 2 * 3600 + 45 * 60) * 1000000000 := by
        rw [ht]; unfold atAbs; simp only [show UTC.offset = 0 from rfl, sub_zero]
      rw [← hX, e]; split <;> omega
    rw [this]; rfl

theorem MatchAt_of_Satisfies {s : SpecSchedule} {u : Time} (h : Satisfies s u) :
    MatchAt s u.loc u.abs := by
  obtain ⟨h0, hs, hmi, hho, hmo, hda⟩ := h
  have hu := eq_atAbs_of_Nanosecond u h0
  have hmr := monthOfDays_range (u.abs / 86400)
  refine ⟨?_, ?_, ?_, ?_, ?_⟩
  · rw [bitAnd_ne_zero_iff _ _ (by omega) (by omega)]; exact hs
  · rw [bitAnd_ne_zero_iff _ _ (by omega) (by omega)]; exact hmi
  · rw [bitAnd_ne_zero_iff _ _ (by omega) (by omega)]; exact hho
  · rw [bitAnd_ne_zero_iff _ _ (by omega) (by omega)]; exact hmo
  · rw [← hu]; exact hda

/-- C8 (the code at the failing input): the rule "February 29 at midnight"
evaluated in UTC one second before 2099 begins.  The search starts on
2099-01-01 00:00:00, the year limit is 2104, and `Next` returns 2104-02-29
00:00:00, which is not the zero time and lies more than five years after the
search start (five years after it is 2104-01-01 00:00:00), although no instant
within the five years following the search start satisfies the rule. -/
theorem C8_Next_after_five_years :
    nextStart ruleFeb29 (Date 2098 12 31 23 59 59 0 UTC) = Date 2099 1 1 0 0 0 0 UTC ∧
    ruleFeb29.Next (Date 2098 12 31 23 59 59 0 UTC) = some (Date 2104 2 29 0 0 0 0 UTC) ∧
    (Date 2104 2 29 0 0 0 0 UTC).IsZero = false ∧
    (nextStart ruleFeb29 (Date 2098 12 31 23 59 59 0 UTC)).AddDate 5 0 0
      = Date 2104 1 1 0 0 0 0 UTC ∧
    ((nextStart ruleFeb29 (Date 2098 12 31 23 59 59 0 UTC)).AddDate 5 0 0).Before
      (Date 2104 2 29 0 0 0 0 UTC) = true ∧
    (∀ u : Time, u.loc = UTC → Satisfies ruleFeb29 u →
      (nextStart ruleFeb29 (Date 2098 12 31 23 59 59 0 UTC)).ns ≤ u.ns →
      u.ns ≤ ((nextStart ruleFeb29 (Date 2098 12 31 23 59 59 0 UTC)).AddDate 5 0 0).ns →
      False) := by
  have hN : ruleFeb29.Next (Date 2098 12 31 23 59 59 0 UTC)
      = some (Date 2104 2 29 0 0 0 0 UTC) := by
    set_option maxRecDepth 1000000 in decide
  have hS : nextStart ruleFeb29 (Date 2098 12 31 23 59 59 0 UTC) = Date 2099 1 1 0 0 0 0 UTC := by
    decide
  have hA : (Date 2099 1 1 0 0 0 0 UTC).AddDate 5 0 0 = Date 2104 1 1 0 0 0 0 UTC := by
    decide
  refine ⟨hS, hN, by decide, by rw [hS, hA], by rw [hS, hA]; decide, ?_⟩
  intro u hloc hsat h1 h2
  obtain ⟨r, hr, hpost⟩ := Next_earliest ruleFeb29 (Date 2098 12 31 23 59 59 0 UTC) (by decide)
  rw [hN] at hr
  have hr' : r = Date 2104 2 29 0 0 0 0 UTC := (Option.some.inj hr).symm
  have hloc' : nextLoc ruleFeb29 (Date 2098 12 31 23 59 59 0 UTC) = UTC := rfl
  rw [hS, hloc'] at hpost
  rw [hS, hA] at h2
  rw [hS] at h1
  have hm := MatchAt_of_Satisfies hsat
  rw [hloc] at hm
  have hu0 := hsat.1
  unfold Time.Nanosecond at hu0
  have e1 : (Date 2099 1 1 0 0 0 0 UTC).ns = 66206505600 * 1000000000 := by decide
  have e2 : (Date 2104 1 1 0 0 0 0 UTC).ns = 66364185600 * 1000000000 := by decide
  have e3 : (Date 2099 1 1 0 0 0 0 UTC).abs = 66206505600 := by decide
  rw [e1] at h1
  rw [e2] at h2
  have habs : u.abs = u.ns / 1000000000 := by
    unfold Time.abs; rw [hloc]; simp [UTC]
  rcases hpost with ⟨hz, -⟩ | ⟨A, hrA, -, -, -, hskip⟩
  · rw [hr'] at hz; exact absurd hz (by decide)
  · have hAv : A = 66369283200 := by
      rw [hr'] at hrA
      have : (Date 2104 2 29 0 0 0 0 UTC).ns = ((atAbs UTC A).In UTC).ns := by rw [hrA]; rfl
      rw [atAbs_In_ns] at this
      have e4 : (Date 2104 2 29 0 0 0 0 UTC).ns = 66369283200 * 1000000000 := by decide
      rw [e4] at this
      simp only [show UTC.offset = 0 from rfl, sub_zero] at this
      omega
    exact hskip u.abs (by rw [e3, habs]; omega) (by rw [hAv, habs]; omega) hm

/-! ## Day matching, entry order and decorator chains -/

theorem and_starBit_pos_iff (mask : Nat) : mask &&& starBit > 0 ↔ mask.testBit 63 = true := by
  unfold starBit
  rw [Nat.one_shiftLeft, Nat.and_two_pow]
  cases mask.testBit 63 <;> simp

theorem Weekday_range (t : Time) : 0 ≤ t.Weekday ∧ t.Weekday ≤ 6 := by
  unfold Time.Weekday; omega

/-- C6: the truth table of `dayMatches`.  If the star bit (bit 63) is set in
`s.Dom` or in `s.Dow`, it is true exactly when both the day-of-month bit of
`t` is set in `s.Dom` and the weekday bit of `t` is set in `s.Dow`; if neither
mask has the star bit, it is true exactly when at least one of the two bits is
set. -/
theorem C6_dayMatches_truth_table (s : SpecSchedule) (t : Time) :
    ((s.Dom.testBit 63 = true ∨ s.Dow.testBit 63 = true) →
      (dayMatches s t = true ↔
        (s.Dom.testBit t.Day.toNat = true ∧ s.Dow.testBit t.Weekday.toNat = true))) ∧
    ((s.Dom.testBit 63 = false ∧ s.Dow.testBit 63 = false) →
      (dayMatches s t = true ↔
        (s.Dom.testBit t.Day.toNat = true ∨ s.Dow.testBit t.Weekday.toNat = true))) := by
  have hd : 1 ≤ t.Day ∧ t.Day ≤ 31 := dayOfDays_range t.days
  have hw := Weekday_range t
  have e1 : bitAnd t.Day s.Dom > 0 ↔ s.Dom.testBit t.Day.toNat = true :=
    bitAnd_pos_iff _ _ (by omega) (by omega)
  have e2 : bitAnd t.Weekday s.Dow > 0 ↔ s.Dow.testBit t.Weekday.toNat = true :=
    bitAnd_pos_iff _ _ (by omega) (by omega)
  have e3 := and_starBit_pos_iff s.Dom
  have e4 := and_starBit_pos_iff s.Dow
  constructor
  · intro h
    have hc : (decide (s.Dom &&& starBit > 0) || decide (s.Dow &&& starBit > 0)) = true := by
      rcases h with h | h
      · simp [e3.2 h]
      · simp [e4.2 h]
    unfold dayMatches
    simp only [hc, if_true, Bool.and_eq_true, decide_eq_true_eq, e1, e2]
  · rintro ⟨h1, h2⟩
    have hc : (decide (s.Dom &&& starBit > 0) || decide (s.Dow &&& starBit > 0)) = false := by
      have n1 : ¬ (s.Dom &&& starBit > 0) := fun h => by rw [e3, h1] at h; exact absurd h (by decide)
      have n2 : ¬ (s.Dow &&& starBit > 0) := fun h => by rw [e4, h2] at h; exact absurd h (by decide)
      simp [n1, n2]
    unfold dayMatches
    simp only [hc, Bool.false_eq_true, if_false, Bool.or_eq_true, decide_eq_true_eq, e1, e2]

/-- C9: `byTime.Less` on two entries `a = s[i]` and `b = s[j]`: false whenever
`a.Next` is the zero time (so two entries with zero `Next` are each not less
than the other), true whenever `a.Next` is not zero and `b.Next` is zero, and
otherwise true exactly when `a.Next` is before `b.Next`. -/
theorem C9_byTime_Less {J : Type} (s : byTime J) (i j : Fin s.length) :
    ((s.get i).Next.IsZero = true → byTime.Less s i j = false) ∧
    ((s.get i).Next.IsZero = true → (s.get j).Next.IsZero = true →
      byTime.Less s i j = false ∧ byTime.Less s j i = false) ∧
    ((s.get i).Next.IsZero = false → (s.get j).Next.IsZero = true →
      byTime.Less s i j = true) ∧
    ((s.get i).Next.IsZero = false → (s.get j).Next.IsZero = false →
      byTime.Less s i j = (s.get i).Next.Before (s.get j).Next) := by
  refine ⟨?_, ?_, ?_, ?_⟩
  · intro h; simp only [byTime.Less, h, if_true]
  · intro h1 h2; simp only [byTime.Less, h1, h2, if_true, and_self]
  · intro h1 h2; simp only [byTime.Less, h1, h2, if_true, Bool.false_eq_true, if_false]
  · intro h1 h2
    simp only [byTime.Less, h1, h2, Bool.false_eq_true, if_false]

theorem Then_foldl_range {J : Type} (ws : List (J → J)) (j : J) :
    ∀ k, k ≤ ws.length →
      (List.range k).foldl
        (fun j i =>
          match ws[ws.length - i - 1]? with
          | some w => w j
          | none => j) j
      = (ws.drop (ws.length - k)).foldr (fun w acc => w acc) j := by
  intro k
  induction k with
  | zero => intro _; simp
  | succ k ih =>
    intro hk
    rw [List.range_succ, List.foldl_append, ih (by omega)]
    have hlt : ws.length - (k + 1) < ws.length := by omega
    have hd : ws.drop (ws.length - (k + 1))
        = ws[ws.length - (k + 1)] :: ws.drop (ws.length - k) := by
      rw [List.drop_eq_getElem_cons hlt]
      congr 2
      omega
    rw [hd, List.foldr_cons]
    simp only [List.foldl_cons, List.foldl_nil]
    have hi : ws.length - k - 1 = ws.length - (k + 1) := by omega
    rw [hi, List.getElem?_eq_getElem hlt]

/-- C10: `NewChain(w1, ..., wn).Then(j)` is `w1(w2(...wn(j)...))`, the
first wrapper outermost, and the empty chain returns `j` unchanged; with two
wrappers `A` and `B` that log before and after running their inner job,
running `NewChain(A, B).Then(J)` logs before-A, before-B, what `J` logs, then
after-B, after-A. -/
theorem C10_Chain_Then {J : Type} (ws : List (J → J)) (j : J) :
    (NewChain ws).Then j = ws.foldr (fun w acc => w acc) j ∧
    (NewChain ([] : List (J → J))).Then j = j ∧
    (∀ w1 w2 w3 : J → J, (NewChain [w1, w2, w3]).Then j = w1 (w2 (w3 j))) ∧
    (∀ (job : List String → List String) (log : List String),
      (NewChain [logWrapper "A", logWrapper "B"]).Then job log
        = job (log ++ ["before-A", "before-B"]) ++ ["after-B", "after-A"]) ∧
    (NewChain [logWrapper "A", logWrapper "B"]).Then (namedJob "J") []
      = ["before-A", "before-B", "J", "after-B", "after-A"] := by
  have key : ∀ {K : Type} (vs : List (K → K)) (x : K),
      (NewChain vs).Then x = vs.foldr (fun w acc => w acc) x := by
    intro K vs x
    have := Then_foldl_range vs x vs.length (le_refl _)
    simpa [Chain.Then, NewChain] using this
  refine ⟨key ws j, by rw [key]; rfl, fun w1 w2 w3 => by rw [key]; rfl, ?_, ?_⟩
  · intro job log
    rw [key]
    simp [logWrapper]
  · rw [key]
    simp [logWrapper, namedJob]

/-! ## The registry -/

theorem removeEntry_loop {J : Type} (id : Int) (es acc : List (Entry J)) :
    es.foldl (fun entries e => if e.ID ≠ id then entries ++ [e] else entries) acc
      = acc ++ es.filter (fun e => decide (e.ID ≠ id)) := by
  induction es generalizing acc with
  | nil => simp
  | cons e es ih =>
    rw [List.foldl_cons, ih]
    by_cases h : e.ID ≠ id
    · simp [h, List.filter_cons]
    · simp [h, List.filter_cons]

theorem removeEntry_entries {J : Type} (c : Cron J) (id : Int) :
    (c.removeEntry id).entries = c.entries.filter (fun e => decide (e.ID ≠ id)) := by
  unfold Cron.removeEntry
  simp only [removeEntry_loop, List.nil_append]

/-- C11: `removeEntry(id)`, which is `Remove(id)` on a `Cron` that is not
running, leaves exactly the entries whose `ID` differs from `id`, unchanged and
in their original relative order, and leaves the other fields alone; when no
entry has that `id`, the registry is the same list as before. -/
theorem C11_removeEntry {J : Type} (c : Cron J) (id : Int) :
    (c.running = false → c.Remove id = c.removeEntry id) ∧
    (c.removeEntry id).entries = c.entries.filter (fun e => decide (e.ID ≠ id)) ∧
    (∀ e, e ∈ (c.removeEntry id).entries ↔ e ∈ c.entries ∧ e.ID ≠ id) ∧
    List.Sublist (c.removeEntry id).entries c.entries ∧
    ((∀ e ∈ c.entries, e.ID ≠ id) → (c.removeEntry id).entries = c.entries) ∧
    (c.removeEntry id).chain = c.chain ∧ (c.removeEntry id).running = c.running ∧
    (c.removeEntry id).location = c.location ∧ (c.removeEntry id).nextID = c.nextID := by
  refine ⟨fun h => by simp [Cron.Remove, h], removeEntry_entries c id, ?_, ?_, ?_,
    rfl, rfl, rfl, rfl⟩
  · intro e
    rw [removeEntry_entries]
    simp [List.mem_filter]
  · rw [removeEntry_entries]
    exact List.filter_sublist _
  · intro h
    rw [removeEntry_entries, List.filter_eq_self]
    intro e he
    simpa using h e he

theorem options_fields {J : Type} (opts : List (CronOption J)) (c : Cron J) :
    (opts.foldl (fun c opt => opt.apply c) c).entries = c.entries ∧
    (opts.foldl (fun c opt => opt.apply c) c).running = c.running ∧
    (opts.foldl (fun c opt => opt.apply c) c).nextID = c.nextID := by
  induction opts generalizing c with
  | nil => exact ⟨rfl, rfl, rfl⟩
  | cons opt opts ih =>
    rw [List.foldl_cons]
    obtain ⟨h1, h2, h3⟩ := ih (opt.apply c)
    rw [h1, h2, h3]
    cases opt <;> exact ⟨rfl, rfl, rfl⟩

theorem New_fields {J : Type} (timeLocal : Location) (opts : List (CronOption J)) :
    (New timeLocal opts).entries = [] ∧ (New timeLocal opts).running = false ∧
    (New timeLocal opts).nextID = 0 :=
  options_fields opts _

theorem RegistryInv_New {J : Type} (timeLocal : Location) (opts : List (CronOption J)) :
    RegistryInv (New timeLocal opts) 0 := by
  obtain ⟨h1, h2, h3⟩ := New_fields timeLocal opts
  refine ⟨h2, by rw [h3]; rfl, ?_, ?_⟩
  · rw [h1]; intro e he; cases he
  · rw [h1]; exact List.nodup_nil

theorem Schedule_eq {J : Type} {c : Cron J} {m : Nat} (h : RegistryInv c m)
    (hm : (m : Int) + 1 < 9223372036854775808) (schedule : Time → Time) (cmd : J) :
    c.Schedule schedule cmd =
      ({ entries := c.entries ++
          [{ ID := (m : Int) + 1, Schedule := schedule, Next := Time.zero, Prev := Time.zero,
             WrappedJob := c.chain.Then cmd, Job := cmd }],
         chain := c.chain, running := false, location := c.location,
         nextID := (m : Int) + 1 }, (m : Int) + 1) := by
  have hw : wrapInt64 (c.nextID + 1) = (m : Int) + 1 := by
    rw [h.counter]
    exact wrapInt64_of_isInt64 ⟨by omega, by omega⟩
  have hr := h.notRunning
  unfold Cron.Schedule
  simp only [hr, hw, Bool.not_false, if_true]

theorem RegistryInv_Schedule {J : Type} {c : Cron J} {m : Nat} (h : RegistryInv c m)
    (hm : (m : Int) + 1 < 9223372036854775808) (schedule : Time → Time) (cmd : J) :
    (c.Schedule schedule cmd).2 = (m : Int) + 1 ∧
    RegistryInv (c.Schedule schedule cmd).1 (m + 1) := by
  rw [Schedule_eq h hm]
  refine ⟨rfl, ⟨rfl, by simp, ?_, ?_⟩⟩
  · intro e he
    simp only [List.mem_append, List.mem_singleton] at he
    rcases he with he | rfl
    · have := h.range e he
      push_cast
      omega
    · push_cast
      omega
  · simp only [List.map_append, List.map_cons, List.map_nil]
    rw [List.nodup_append]
    refine ⟨h.nodup, List.nodup_singleton _, ?_⟩
    intro a ha hb
    simp only [List.mem_singleton] at hb
    simp only [List.mem_map] at ha
    obtain ⟨e, he, rfl⟩ := ha
    have := h.range e he
    omega

theorem RegistryInv_Remove {J : Type} {c : Cron J} {m : Nat} (h : RegistryInv c m) (id : Int) :
    RegistryInv (c.Remove id) m := by
  have hr := h.notRunning
  have he : c.Remove id = c.removeEntry id := by simp [Cron.Remove, hr]
  rw [he]
  refine ⟨hr, h.counter, ?_, ?_⟩
  · intro e hmem
    rw [removeEntry_entries] at hmem
    exact h.range e (List.mem_filter.1 hmem).1
  · rw [removeEntry_entries]
    exact (h.nodup).sublist ((List.filter_sublist _).map _)

/-- The identifiers returned by a sequence of calls on a registry that has
seen `m` calls of `Schedule`: `m + 1`, `m + 2`, ... in order. -/
theorem RegistryInv_calls {J : Type} (calls : List (CronCall J)) :
    ∀ (c : Cron J) (m : Nat), RegistryInv c m →
      (m : Int) + countSchedule calls < 9223372036854775808 →
      (c.calls calls).2
        = (List.range (countSchedule calls)).map (fun k : Nat => (m : Int) + (k : Int) + 1) ∧
      RegistryInv (c.calls calls).1 (m + countSchedule calls) := by
  induction calls with
  | nil =>
    intro c m h _
    exact ⟨rfl, h⟩
  | cons call rest ih =>
    intro c m h hm
    cases call with
    | Schedule schedule cmd =>
      simp only [countSchedule] at hm ⊢
      obtain ⟨h1, h2⟩ := RegistryInv_Schedule h (by push_cast at hm; omega) schedule cmd
      obtain ⟨i1, i2⟩ := ih (c.Schedule schedule cmd).1 (m + 1) h2 (by push_cast at hm ⊢; omega)
      simp only [Cron.calls, Cron.call]
      refine ⟨?_, ?_⟩
      · rw [i1, h1, List.range_succ_eq_map, List.map_cons, List.map_map]
        congr 1
        apply List.map_congr_left
        intro k _
        simp only [Function.comp, Nat.succ_eq_add_one]
        push_cast
        omega
      · rw [show m + (countSchedule rest + 1) = m + 1 + countSchedule rest by omega]
        exact i2
    | Remove id =>
      simp only [countSchedule] at hm ⊢
      have h2 := RegistryInv_Remove h id
      simp only [Cron.calls, Cron.call]
      exact ih (c.Remove id) m h2 hm

theorem find_of_nodup {J : Type} (id : Int) :
    ∀ (l : List (Entry J)), (l.map fun e => e.ID).Nodup → ∀ e ∈ l, e.ID = id →
      l.find? (fun entry => id == entry.ID) = some e := by
  intro l
  induction l with
  | nil => intro _ e he; cases he
  | cons a l ih =>
    intro hnd e he hid
    simp only [List.map_cons, List.nodup_cons] at hnd
    rcases List.mem_cons.1 he with rfl | hmem
    · simp [List.find?_cons, hid]
    · have hne : a.ID ≠ id := by
        intro ha
        apply hnd.1
        rw [ha, ← hid]
        exact List.mem_map.2 ⟨e, hmem, rfl⟩
      have : (id == a.ID) = false := by
        simp only [beq_eq_false_iff_ne, ne_eq]
        exact fun h => hne h.symm
      rw [List.find?_cons, this]
      exact ih hnd.2 e hmem hid

theorem find_none_of_absent {J : Type} (id : Int) (l : List (Entry J))
    (h : ∀ e ∈ l, e.ID ≠ id) : l.find? (fun entry => id == entry.ID) = none := by
  rw [List.find?_eq_none]
  intro e he
  simp only [beq_iff_eq]
  exact fun hc => h e he hc.symm

theorem Entries_eq {J : Type} (c : Cron J) : c.Entries = c.entries := by
  unfold Cron.Entries Cron.entrySnapshot
  simp

theorem RegistryInv_reached {J : Type} (timeLocal : Location) (opts : List (CronOption J))
    (calls : List (CronCall J)) (h : (countSchedule calls : Int) < 9223372036854775808) :
    ((New timeLocal opts).calls calls).2
        = (List.range (countSchedule calls)).map (fun k : Nat => (k : Int) + 1) ∧
    RegistryInv ((New timeLocal opts).calls calls).1 (countSchedule calls) := by
  obtain ⟨h1, h2⟩ := RegistryInv_calls calls (New timeLocal opts) 0
    (RegistryInv_New timeLocal opts) (by push_cast; omega)
  refine ⟨?_, by simpa using h2⟩
  rw [h1]
  apply List.map_congr_left
  intro k _
  push_cast
  omega

/-- C12: starting from `New`, over every sequence of `Schedule` and `Remove`
calls on the `Cron`, which is not running, with fewer than 2^63 calls of
`Schedule` (the range of the `int` counter): the `k`-th `Schedule` call
returns the identifier `k`; so the identifiers returned are strictly
increasing, never 0 and never repeated, also when the entry was removed in
between; and the entries of the registry have pairwise distinct identifiers,
each of them one that was returned. -/
theorem C12_Schedule_identifiers {J : Type} (timeLocal : Location)
    (opts : List (CronOption J)) (calls : List (CronCall J))
    (h : (countSchedule calls : Int) < 9223372036854775808) :
    ((New timeLocal opts).calls calls).2
        = (List.range (countSchedule calls)).map (fun k : Nat => (k : Int) + 1) ∧
    ((New timeLocal opts).calls calls).2.Pairwise (fun a b => a < b) ∧
    (0 : Int) ∉ ((New timeLocal opts).calls calls).2 ∧
    ((New timeLocal opts).calls calls).2.Nodup ∧
    (((New timeLocal opts).calls calls).1.entries.map fun e => e.ID).Nodup ∧
    (∀ e ∈ ((New timeLocal opts).calls calls).1.entries,
      e.ID ∈ ((New timeLocal opts).calls calls).2) ∧
    ((New timeLocal opts).calls calls).1.running = false := by
  obtain ⟨h1, h2⟩ := RegistryInv_reached timeLocal opts calls h
  have hp : ((New timeLocal opts).calls calls).2.Pairwise (fun a b => a < b) := by
    rw [h1, List.pairwise_map]
    apply List.Pairwise.imp _ (List.pairwise_lt_range _)
    intro a b hab
    omega
  refine ⟨h1, hp, ?_, ?_, h2.nodup, ?_, h2.notRunning⟩
  · rw [h1]
    simp only [List.mem_map, List.mem_range, not_exists, not_and]
    intro k _
    omega
  · exact hp.imp (fun hab => ne_of_lt hab)
  · intro e he
    have := h2.range e he
    rw [h1, List.mem_map]
    refine ⟨(e.ID - 1).toNat, ?_, ?_⟩
    · rw [List.mem_range]; omega
    · omega

theorem C12_Schedule_identifiers_witness :
    ((New UTC []).calls exampleCalls).2
        = (List.range 2).map (fun k : Nat => (k : Int) + 1) ∧
    ((New UTC []).calls exampleCalls).2.Pairwise
      (fun a b => a < b) ∧
    (0 : Int) ∉ ((New UTC []).calls exampleCalls).2 ∧
    ((New UTC []).calls exampleCalls).2.Nodup ∧
    (((New UTC []).calls exampleCalls).1.entries.map
      fun e => e.ID).Nodup ∧
    (∀ e ∈ ((New UTC []).calls exampleCalls).1.entries,
      e.ID ∈ ((New UTC []).calls exampleCalls).2) ∧
    ((New UTC []).calls exampleCalls).1.running = false :=
  C12_Schedule_identifiers UTC [] exampleCalls (by decide)

/-- C13: on a `Cron` reached from `New` by `Schedule` and `Remove` calls (not
running, with fewer than 2^63 calls of `Schedule`), for every identifier `id`:
`Entry(id)` is the registered entry whose `ID` is `id` when there is one, and
the zero `Entry` otherwise; so `Entry(id).Valid()` is true exactly when an
entry with that `id` is registered, and `Entry(0)` is never valid. -/
theorem C13_Entry_lookup {J : Type} [Inhabited J] (timeLocal : Location)
    (opts : List (CronOption J)) (calls : List (CronCall J))
    (h : (countSchedule calls : Int) < 9223372036854775808) (id : Int) :
    (∀ e ∈ ((New timeLocal opts).calls calls).1.entries, e.ID = id →
      ((New timeLocal opts).calls calls).1.Entry id = e) ∧
    ((∀ e ∈ ((New timeLocal opts).calls calls).1.entries, e.ID ≠ id) →
      ((New timeLocal opts).calls calls).1.Entry id = Entry.zero) ∧
    ((((New timeLocal opts).calls calls).1.Entry id).Valid = true ↔
      ∃ e ∈ ((New timeLocal opts).calls calls).1.entries, e.ID = id) ∧
    (((New timeLocal opts).calls calls).1.Entry 0).Valid = false := by
  obtain ⟨-, hinv⟩ := RegistryInv_reached timeLocal opts calls h
  generalize ((New timeLocal opts).calls calls).1 = c at hinv ⊢
  have hfound : ∀ (i : Int), ∀ e ∈ c.entries, e.ID = i → c.Entry i = e := by
    intro i e he hid
    unfold Cron.Entry
    rw [Entries_eq, find_of_nodup i c.entries hinv.nodup e he hid]
  have habsent : ∀ (i : Int), (∀ e ∈ c.entries, e.ID ≠ i) → c.Entry i = Entry.zero := by
    intro i hno
    unfold Cron.Entry
    rw [Entries_eq, find_none_of_absent i c.entries hno]
  refine ⟨hfound id, habsent id, ?_, ?_⟩
  · constructor
    · intro hv
      by_contra hno
      have hno' : ∀ e ∈ c.entries, e.ID ≠ id := fun e he hid => hno ⟨e, he, hid⟩
      rw [habsent id hno'] at hv
      simp [Entry.Valid, Entry.zero] at hv
    · rintro ⟨e, he, hid⟩
      rw [hfound id e he hid]
      have := hinv.range e he
      simp only [Entry.Valid, ne_eq, decide_not, Bool.not_eq_true', decide_eq_false_iff_not]
      omega
  · have hno : ∀ e ∈ c.entries, e.ID ≠ 0 := by
      intro e he
      have := hinv.range e he
      omega
    rw [habsent 0 hno]
    simp [Entry.Valid, Entry.zero]

theorem C13_Entry_lookup_witness :
    (∀ e ∈ ((New UTC []).calls exampleCalls).1.entries, e.ID = 2 →
      ((New UTC []).calls exampleCalls).1.Entry 2 = e) ∧
    ((∀ e ∈ ((New UTC []).calls exampleCalls).1.entries, e.ID ≠ 2) →
      ((New UTC []).calls exampleCalls).1.Entry 2
        = Entry.zero) ∧
    ((((New UTC []).calls exampleCalls).1.Entry 2).Valid = true ↔
      ∃ e ∈ ((New UTC []).calls exampleCalls).1.entries, e.ID = 2) ∧
    (((New UTC []).calls exampleCalls).1.Entry 0).Valid
      = false :=
  C13_Entry_lookup UTC [] exampleCalls (by decide) 2

/-! ## The run loop -/

theorem byTime_Less_eq {J : Type} (s : byTime J) (i j : Fin s.length) :
    byTime.Less s i j = entryLess (s.get i) (s.get j) := rfl

theorem Sorted_iff_pairwise {J : Type} (s : byTime J) :
    byTime.Sorted s ↔ s.Pairwise (fun a b => entryLess b a = false) := by
  rw [List.pairwise_iff_get]
  unfold byTime.Sorted
  simp only [byTime_Less_eq]

/-- In a sorted list, an entry that is not due is followed by entries that
are not due. -/
theorem not_due_of_entryLess {J : Type} (now : Time) {a b : Entry J}
    (ha : a.due now = false) (hab : entryLess b a = false) : b.due now = false := by
  unfold Entry.due at ha ⊢
  unfold entryLess at hab
  unfold Time.After Time.Before Time.IsZero at *
  by_cases hb : b.Next.ns = 0
  · simp [hb]
  · by_cases ha0 : a.Next.ns = 0
    · simp [hb, ha0] at hab
    · simp only [hb, ha0, decide_False, Bool.false_eq_true, if_false, decide_eq_false_iff_not,
        not_lt, Bool.not_false, Bool.true_and, Bool.not_eq_false', decide_eq_true_eq] at hab ha ⊢
      omega

theorem wakeLoop_of_none_due {J : Type} (now : Time) (es : List (Entry J))
    (h : ∀ e ∈ es, e.due now = false) :
    wakeLoop now es = (es, []) := by
  cases es with
  | nil => rfl
  | cons e rest =>
    have he := h e (List.mem_cons_self _ _)
    unfold Entry.due at he
    have : (e.Next.After now || e.Next.IsZero) = true := by
      cases h1 : e.Next.After now <;> cases h2 : e.Next.IsZero <;> simp [h1, h2] at he ⊢
    simp only [wakeLoop, this, if_true]

theorem wakeLoop_sorted {J : Type} (now : Time) (es : List (Entry J))
    (hs : es.Pairwise (fun a b => entryLess b a = false)) :
    wakeLoop now es
      = (es.map (fun e => if e.due now then e.fired now else e),
         (es.filter (fun e => e.due now)).map (fun e => e.WrappedJob)) := by
  induction es with
  | nil => rfl
  | cons e rest ih =>
    rw [List.pairwise_cons] at hs
    by_cases hd : e.due now = true
    · have hc : (e.Next.After now || e.Next.IsZero) = false := by
        unfold Entry.due at hd
        cases h1 : e.Next.After now <;> cases h2 : e.Next.IsZero <;> simp [h1, h2] at hd ⊢
      simp only [wakeLoop, hc, Bool.false_eq_true, if_false, ih hs.2, List.map_cons, hd, if_true,
        List.filter_cons, Entry.fired]
    · have hd' : e.due now = false := by simpa using hd
      have hrest : ∀ b ∈ rest, b.due now = false :=
        fun b hb => not_due_of_entryLess now hd' (hs.1 b hb)
      have hall : ∀ b ∈ e :: rest, b.due now = false := by
        intro b hb
        rcases List.mem_cons.1 hb with rfl | hb
        · exact hd'
        · exact hrest b hb
      rw [wakeLoop_of_none_due now (e :: rest) hall]
      have hmap : (e :: rest).map (fun e => if e.due now then e.fired now else e)
          = e :: rest := by
        have : ∀ b ∈ e :: rest, (fun e => if e.due now then e.fired now else e) b = id b := by
          intro b hb
          simp [hall b hb]
        rw [List.map_congr_left this, List.map_id]
      have hfil : (e :: rest).filter (fun e => e.due now) = [] := by
        rw [List.filter_eq_nil_iff]
        intro b hb
        simp [hall b hb]
      rw [hmap, hfil]
      rfl

/-- C14: for every entry list sorted by the `byTime` order and every wake
time `now`, the loop of the wake case hands to `startJob` exactly the jobs of
the entries whose `Next` is not the zero time and not after `now`, in list
order (the early exit skips no due entry); each of those entries gets `Prev`
set to its old `Next` and `Next` set to `Schedule.Next(now)`, and every other
entry is left as it is; in `Cron.run`, `now` is first put in the location of
the `Cron`. -/
theorem C14_wake {J : Type} (es : List (Entry J)) (now : Time) (hs : byTime.Sorted es) :
    (wakeLoop now es).2 = (es.filter (fun e => e.due now)).map (fun e => e.WrappedJob) ∧
    (wakeLoop now es).1 = es.map (fun e => if e.due now then e.fired now else e) ∧
    (∀ e : Entry J, e.due now = (!e.Next.IsZero && !e.Next.After now)) ∧
    (∀ e : Entry J, (e.fired now).Prev = e.Next ∧ (e.fired now).Next = e.Schedule now ∧
      (e.fired now).ID = e.ID ∧ (e.fired now).Schedule = e.Schedule ∧
      (e.fired now).WrappedJob = e.WrappedJob ∧ (e.fired now).Job = e.Job) ∧
    (∀ c : Cron J, c.entries = es →
      c.wake now = ({ c with entries := (wakeLoop (now.In c.location) es).1 },
        (wakeLoop (now.In c.location) es).2)) := by
  have h := wakeLoop_sorted now es ((Sorted_iff_pairwise es).1 hs)
  refine ⟨by rw [h], by rw [h], fun e => rfl, fun e => ⟨rfl, rfl, rfl, rfl, rfl, rfl⟩, ?_⟩
  intro c hc
  unfold Cron.wake
  rw [hc]

theorem exampleEntries_sorted : byTime.Sorted exampleEntries := by
  unfold byTime.Sorted
  decide

theorem C14_wake_witness :
    (wakeLoop ⟨15000000000, UTC⟩ exampleEntries).2 = [101] ∧
    (wakeLoop ⟨15000000000, UTC⟩ exampleEntries).1
      = exampleEntries.map
          (fun e => if e.due ⟨15000000000, UTC⟩ then e.fired ⟨15000000000, UTC⟩ else e) :=
  ⟨(C14_wake exampleEntries ⟨15000000000, UTC⟩ exampleEntries_sorted).1.trans (by decide),
    (C14_wake exampleEntries ⟨15000000000, UTC⟩ exampleEntries_sorted).2.1⟩

theorem all_zero_of_head_zero {J : Type} {e : Entry J} {rest : List (Entry J)}
    (hs : (e :: rest).Pairwise (fun a b => entryLess b a = false))
    (he : e.Next.IsZero = true) : ∀ b ∈ e :: rest, b.Next.IsZero = true := by
  rw [List.pairwise_cons] at hs
  intro b hb
  rcases List.mem_cons.1 hb with rfl | hb
  · exact he
  · have := hs.1 b hb
    unfold entryLess at this
    by_contra hz
    simp [hz, he] at this

theorem head_earliest {J : Type} {e : Entry J} {rest : List (Entry J)}
    (hs : (e :: rest).Pairwise (fun a b => entryLess b a = false))
    (he : e.Next.IsZero = false) :
    ∀ b ∈ e :: rest, b.Next.IsZero = false → b.Next.Before e.Next = false := by
  rw [List.pairwise_cons] at hs
  intro b hb hbz
  rcases List.mem_cons.1 hb with rfl | hb
  · simp [Time.Before]
  · have := hs.1 b hb
    unfold entryLess at this
    simpa [hbz, he] using this

theorem entryAt_sorted (next : Time) : byTime.Sorted (entryAt next) := by
  rw [Sorted_iff_pairwise]
  simp [entryAt]

/-- C20 (as stated, refuted): with `now` at 2024-01-01 00:00:00 UTC, a
registry of one entry whose `Next` is exactly 100000 hours later gets the long
idle duration of 100000 hours although it is not empty and its `Next` is not
the zero time; and a registry of one entry whose `Next` is 2400-01-01, more
than 292 years later, gets the greatest `Duration`, which is not `m - now`. -/
theorem C20_counterexample :
    byTime.Sorted (entryAt ((Date 2024 1 1 0 0 0 0 UTC).Add (100000 * Hour))) ∧
    byTime.Sorted (entryAt (Date 2400 1 1 0 0 0 0 UTC)) ∧
    (∀ e ∈ entryAt ((Date 2024 1 1 0 0 0 0 UTC).Add (100000 * Hour)),
      e.Next.IsZero = false) ∧
    timerDuration (entryAt ((Date 2024 1 1 0 0 0 0 UTC).Add (100000 * Hour)))
      (Date 2024 1 1 0 0 0 0 UTC) = 100000 * Hour ∧
    Time.AddExact (Date 2024 1 1 0 0 0 0 UTC) (100000 * Hour) ∧
    (∀ e ∈ entryAt (Date 2400 1 1 0 0 0 0 UTC), e.Next.IsZero = false) ∧
    timerDuration (entryAt (Date 2400 1 1 0 0 0 0 UTC)) (Date 2024 1 1 0 0 0 0 UTC)
      = 9223372036854775807 ∧
    (Date 2400 1 1 0 0 0 0 UTC).ns - (Date 2024 1 1 0 0 0 0 UTC).ns
      = 11865398400000000000 := by
  exact ⟨entryAt_sorted _, entryAt_sorted _, by decide⟩

/-- C20 (amended): once the run loop has sorted the entries with `byTime`
(`sorted` is any list the sort may leave: a permutation of the registry in the
`byTime` order), the branch that sleeps for the long idle duration is taken
exactly when the registry is empty or every `Next` is the zero time, and the
timer is then 100000 hours; when some `Next` is not the zero time, the timer
is `m.Sub(now)` for the earliest `Next` that is not zero, `m`, which is
`m - now` when that fits a `Duration`, the greatest `Duration` when `m - now`
is above the range and the least one when it is below; so in that case the
timer is 100000 hours exactly when `m` is 100000 hours after `now`. -/
theorem C20_timer {J : Type} (es sorted : List (Entry J)) (now : Time)
    (hperm : sorted.Perm es) (hsorted : byTime.Sorted sorted) :
    (timerIdle sorted = true ↔ (es = [] ∨ ∀ e ∈ es, e.Next.IsZero = true)) ∧
    ((es = [] ∨ ∀ e ∈ es, e.Next.IsZero = true) →
      timerDuration sorted now = 100000 * Hour) ∧
    ((∃ e ∈ es, e.Next.IsZero = false) →
      ∃ m ∈ es, m.Next.IsZero = false ∧
        (∀ e ∈ es, e.Next.IsZero = false → e.Next.Before m.Next = false) ∧
        timerDuration sorted now = m.Next.Sub now ∧
        (isInt64 (m.Next.ns - now.ns) → timerDuration sorted now = m.Next.ns - now.ns) ∧
        (9223372036854775807 < m.Next.ns - now.ns →
          timerDuration sorted now = 9223372036854775807) ∧
        (m.Next.ns - now.ns < -9223372036854775808 →
          timerDuration sorted now = -9223372036854775808) ∧
        (timerDuration sorted now = 100000 * Hour ↔
          m.Next.ns - now.ns = 100000 * Hour)) := by
  have hp := (Sorted_iff_pairwise sorted).1 hsorted
  have hidle : wrapInt64 (100000 * Hour) = 100000 * Hour := by decide
  have hH : 100000 * Hour = 360000000000000000 := by decide
  have hsub : ∀ t : Time,
      (isInt64 (t.ns - now.ns) → t.Sub now = t.ns - now.ns) ∧
      (9223372036854775807 < t.ns - now.ns → t.Sub now = 9223372036854775807) ∧
      (t.ns - now.ns < -9223372036854775808 → t.Sub now = -9223372036854775808) := by
    intro t
    refine ⟨fun h => ?_, fun h => ?_, fun h => ?_⟩
    · unfold Time.Sub; rw [if_pos h]
    · have hn : ¬ isInt64 (t.ns - now.ns) := by unfold isInt64; omega
      have hb : t.Before now = false := by
        unfold Time.Before; simp only [decide_eq_false_iff_not]; omega
      unfold Time.Sub
      rw [if_neg hn, hb]
      simp
    · have hn : ¬ isInt64 (t.ns - now.ns) := by unfold isInt64; omega
      have hb : t.Before now = true := by
        unfold Time.Before; simp only [decide_eq_true_eq]; omega
      unfold Time.Sub
      rw [if_neg hn, hb]
      simp
  have hsubH : ∀ t : Time, t.Sub now = 100000 * Hour ↔ t.ns - now.ns = 100000 * Hour := by
    intro t
    rw [hH]
    obtain ⟨s1, s2, s3⟩ := hsub t
    by_cases c1 : isInt64 (t.ns - now.ns)
    · rw [s1 c1]
    · unfold isInt64 at c1
      by_cases c2 : 9223372036854775807 < t.ns - now.ns
      · rw [s2 c2]; constructor <;> intro h <;> omega
      · rw [s3 (by omega)]; constructor <;> intro h <;> omega
  cases sorted with
  | nil =>
    have : es = [] := List.Perm.eq_nil (List.Perm.symm hperm)
    subst this
    refine ⟨by simp [timerIdle], fun _ => by simp [timerDuration, hidle], fun h => ?_⟩
    obtain ⟨e, he, -⟩ := h
    cases he
  | cons e rest =>
    have hmem : ∀ b, b ∈ es ↔ b ∈ e :: rest := fun b => (hperm.mem_iff).symm
    have hne : es ≠ [] := by
      intro h
      rw [h] at hperm
      exact absurd (List.Perm.eq_nil hperm) (by simp)
    have hidleiff : timerIdle (e :: rest) = true ↔ (es = [] ∨ ∀ e ∈ es, e.Next.IsZero = true) := by
      constructor
      · intro h
        right
        intro b hb
        exact all_zero_of_head_zero hp h b ((hmem b).1 hb)
      · rintro (h | h)
        · exact absurd h hne
        · exact h e ((hmem e).2 (List.mem_cons_self _ _))
    refine ⟨hidleiff, ?_, ?_⟩
    · intro h
      have h' : e.Next.IsZero = true := hidleiff.2 h
      simp [timerDuration, h', hidle]
    · rintro ⟨b, hb, hbz⟩
      have h' : e.Next.IsZero = false := by
        by_contra hc
        have hz : e.Next.IsZero = true := by simpa using hc
        have := all_zero_of_head_zero hp hz b ((hmem b).1 hb)
        rw [this] at hbz
        exact absurd hbz (by decide)
      have hd : timerDuration (e :: rest) now = e.Next.Sub now := by
        simp [timerDuration, h']
      obtain ⟨s1, s2, s3⟩ := hsub e.Next
      refine ⟨e, (hmem e).2 (List.mem_cons_self _ _), h', ?_, hd, ?_, ?_, ?_, ?_⟩
      · intro b hb hbz
        exact head_earliest hp h' b ((hmem b).1 hb) hbz
      · intro hfit; rw [hd]; exact s1 hfit
      · intro h; rw [hd]; exact s2 h
      · intro h; rw [hd]; exact s3 h
      · rw [hd]; exact hsubH e.Next

theorem C20_timer_witness :
    (∃ e ∈ exampleEntries, e.Next.IsZero = false) ∧
    ∃ m ∈ exampleEntries, m.Next.IsZero = false ∧
        (∀ e ∈ exampleEntries, e.Next.IsZero = false → e.Next.Before m.Next = false) ∧
        timerDuration exampleEntries ⟨4000000000, UTC⟩ = m.Next.Sub ⟨4000000000, UTC⟩ ∧
        (isInt64 (m.Next.ns - (4000000000 : Int)) →
          timerDuration exampleEntries ⟨4000000000, UTC⟩ = m.Next.ns - 4000000000) ∧
        ((9223372036854775807 : Int) < m.Next.ns - 4000000000 →
          timerDuration exampleEntries ⟨4000000000, UTC⟩ = 9223372036854775807) ∧
        (m.Next.ns - 4000000000 < (-9223372036854775808 : Int) →
          timerDuration exampleEntries ⟨4000000000, UTC⟩ = -9223372036854775808) ∧
        (timerDuration exampleEntries ⟨4000000000, UTC⟩ = 100000 * Hour ↔
          m.Next.ns - 4000000000 = 100000 * Hour) :=
  ⟨by decide,
    (C20_timer exampleEntries exampleEntries ⟨4000000000, UTC⟩ (List.Perm.refl _)
      exampleEntries_sorted).2.2 (by decide)⟩

/-! ## Fixed-interval rules: periodicity -/

theorem Every_Delay_bounds (d : Int) (hd : isInt64 d) :
    (Every d).Delay % 1000000000 = 0 ∧ 1000000000 ≤ (Every d).Delay ∧
    (Every d).Delay ≤ 9223372036854775807 ∧
    (d < 2000000000 → (Every d).Delay = 1000000000) ∧
    (2000000000 ≤ d → 2000000000 ≤ (Every d).Delay) := by
  unfold isInt64 at hd
  by_cases h : d < Second
  · have hE : (Every d).Delay = 1000000000 := by
      unfold Every
      simp only [h, if_true]
      decide
    rw [hE]
    unfold Second at h
    refine ⟨by decide, by decide, by decide, fun _ => rfl, fun h' => by omega⟩
  · have hE : (Every d).Delay = d - d % 1000000000 := by
      unfold Every
      simp only [h, if_false]
      unfold Second at h ⊢
      rw [Int.tmod_eq_emod (by omega) (by omega)]
      unfold wrapInt64
      omega
    rw [hE]
    unfold Second at h
    refine ⟨by omega, by omega, by omega, fun h' => by omega, fun h' => by omega⟩

theorem Next_of_bounds (s : ConstantDelaySchedule) (t : Time)
    (h1 : 1000000000 ≤ s.Delay) (h2 : s.Delay ≤ 9223372036854775807) :
    s.Next t = ⟨t.ns - t.ns % 1000000000 + s.Delay, t.loc⟩ := by
  unfold ConstantDelaySchedule.Next Time.Add Time.Nanosecond wrapInt64 Nanosecond
  simp only [Time.mk.injEq, and_true]
  omega

theorem Next_iterate (s : ConstantDelaySchedule) (t : Time)
    (h0 : s.Delay % 1000000000 = 0)
    (h1 : 1000000000 ≤ s.Delay) (h2 : s.Delay ≤ 9223372036854775807) (n : Nat) :
    s.Next^[n + 1] t = ⟨t.ns - t.ns % 1000000000 + ((n : Int) + 1) * s.Delay, t.loc⟩ := by
  induction n with
  | zero =>
    simp only [Function.iterate_succ, Function.iterate_zero, Function.comp_apply, id_eq]
    rw [Next_of_bounds s t h1 h2]
    simp
  | succ k ih =>
    rw [Function.iterate_succ_apply', ih, Next_of_bounds s _ h1 h2]
    simp only [Time.mk.injEq, and_true]
    have : (t.ns - t.ns % 1000000000 + ((k : Int) + 1) * s.Delay) % 1000000000 = 0 := by
      have h3 : (((k : Int) + 1) * s.Delay) % 1000000000 = 0 := by
        rw [Int.mul_emod, h0]; simp
      omega
    rw [this]
    push_cast
    ring

/-- C17 (counterexample): for the rule `Every(1s)`, the instant `t` with
nanosecond count 0 and `ε` of half a second, `Next(Next(t) - ε)` is equal to
`Next(t)`. -/
theorem C17_counterexample :
    isInt64 Second ∧ (0 : Int) < 500000000 ∧ (500000000 : Int) < Second ∧
    (Every Second).Next (((Every Second).Next ⟨0, UTC⟩).Add (-500000000))
      = (Every Second).Next ⟨0, UTC⟩ := by
  decide

/-- C17 (amended): for every rule `s = Every(d)`, every instant `t` from
which two intervals can be added without leaving the range of `time.Time`
(the seconds of `t` plus twice those of `s.Delay` are a value of an `int64`,
so that none of the three `Add` calls saturates) and every `ε` with
`0 < ε < 1s`, `s.Next(s.Next(t) - ε)` is `s.Next(t)` advanced by
`s.Delay - 1s`; so it differs from `s.Next(t)`, also as an instant, when `d`
is at least two seconds, and it is equal to `s.Next(t)` when `d` is below two
seconds (the interval is then one second). -/
theorem C17_Next_back (d : Int) (t : Time) (ε : Int) (hd : isInt64 d)
    (hpos : 0 < ε) (hlt : ε < Second) (hrep : isInt64 t.sec)
    (hroom : t.sec + 2 * ((Every d).Delay / 1000000000) ≤ 9223372036854775807) :
    (t.AddExact ((Every d).Delay - t.Nanosecond) ∧
      ((Every d).Next t).AddExact (-ε) ∧
      (((Every d).Next t).Add (-ε)).AddExact
        ((Every d).Delay - (((Every d).Next t).Add (-ε)).Nanosecond)) ∧
    (Every d).Next (((Every d).Next t).Add (-ε))
      = ((Every d).Next t).Add ((Every d).Delay - Second) ∧
    (2 * Second ≤ d →
      (Every d).Next (((Every d).Next t).Add (-ε)) ≠ (Every d).Next t ∧
      ((Every d).Next (((Every d).Next t).Add (-ε))).ns ≠ ((Every d).Next t).ns) ∧
    (d < 2 * Second →
      (Every d).Next (((Every d).Next t).Add (-ε)) = (Every d).Next t) := by
  obtain ⟨h0, h1, h2, h3, h4⟩ := Every_Delay_bounds d hd
  have hN := Next_of_bounds (Every d) t h1 h2
  have hB := Next_of_bounds (Every d) (((Every d).Next t).Add (-ε)) h1 h2
  rw [hN] at hB ⊢
  rw [hB]
  unfold Second at hlt ⊢
  unfold isInt64 at hrep
  unfold Time.sec at hrep hroom
  have hmod : (t.ns - t.ns % 1000000000 + (Every d).Delay + -ε) % 1000000000
      = 1000000000 - ε := by
    omega
  refine ⟨⟨?_, ?_, ?_⟩, ?_⟩
  · unfold Time.AddExact isInt64 Time.sec Time.Nanosecond
    omega
  · unfold Time.AddExact isInt64 Time.sec
    simp only
    omega
  · unfold Time.AddExact isInt64 Time.sec Time.Nanosecond
    simp only [Time.Add]
    rw [hmod]
    omega
  · simp only [Time.Add, Time.mk.injEq, and_true]
    rw [hmod]
    refine ⟨by omega, fun h => ?_, fun h => ?_⟩
    · have := h4 (by omega)
      simp only [ne_eq, Time.mk.injEq, and_true]
      constructor <;> omega
    · have := h3 (by omega)
      omega

theorem C17_Next_back_witness :
    isInt64 (Time.sec ⟨1234567890, UTC⟩) ∧
    (Every (3 * Second)).Next (((Every (3 * Second)).Next ⟨1234567890, UTC⟩).Add (-1))
      ≠ (Every (3 * Second)).Next ⟨1234567890, UTC⟩ :=
  ⟨by decide, ((C17_Next_back (3 * Second) ⟨1234567890, UTC⟩ 1 (by decide) (by decide)
    (by decide) (by decide) (by decide)).2.2.1 (by decide)).1⟩

/-- On the unbounded time line of the embedding: for every rule
`s = Every(d)`, every instant `t` and every `n ≥ 1`, applying `s.Next` `n`
times from `t` gives `t` truncated to the whole second plus `n` times
`s.Delay`; that instant falls on a whole second and the next one is exactly
`s.Delay` later; and `s.Next(t).Sub(t)` is `s.Delay` when the sub-second
component of `t` is zero. -/
theorem Next_periodic (d : Int) (t : Time) (n : Nat) (hd : isInt64 d) (hn : 1 ≤ n) :
    (Every d).Next^[n] t = t.zeroSubsecond.Add ((n : Int) * (Every d).Delay) ∧
    ((Every d).Next^[n] t).Nanosecond = 0 ∧
    ((Every d).Next^[n + 1] t).Sub ((Every d).Next^[n] t) = (Every d).Delay ∧
    ((Every d).Next^[n + 1] t).ns - ((Every d).Next^[n] t).ns = (Every d).Delay ∧
    (t.Nanosecond = 0 → ((Every d).Next t).Sub t = (Every d).Delay) := by
  obtain ⟨h0, h1, h2, -, -⟩ := Every_Delay_bounds d hd
  obtain ⟨k, rfl⟩ : ∃ k, n = k + 1 := ⟨n - 1, by omega⟩
  have hk := Next_iterate (Every d) t h0 h1 h2 k
  have hk1 := Next_iterate (Every d) t h0 h1 h2 (k + 1)
  have hN := Next_of_bounds (Every d) t h1 h2
  have hmul : (((k : Int) + 1) * (Every d).Delay) % 1000000000 = 0 := by
    rw [Int.mul_emod, h0]; simp
  have hdiff : (t.ns - t.ns % 1000000000 + (((k + 1 : Nat) : Int) + 1) * (Every d).Delay)
      - (t.ns - t.ns % 1000000000 + ((k : Int) + 1) * (Every d).Delay) = (Every d).Delay := by
    push_cast
    ring
  have hfit : isInt64 (Every d).Delay := by
    unfold isInt64
    omega
  rw [hk, hk1, hN]
  refine ⟨?_, ?_, ?_, hdiff, ?_⟩
  · unfold Time.zeroSubsecond Time.Add Time.Nanosecond
    push_cast
    rfl
  · unfold Time.Nanosecond
    simp only
    generalize ((k : Int) + 1) * (Every d).Delay = p at hmul
    omega
  · unfold Time.Sub
    simp only
    rw [hdiff, if_pos hfit]
  · intro hz
    unfold Time.Nanosecond at hz
    unfold Time.Sub
    simp only
    have : t.ns - t.ns % 1000000000 + (Every d).Delay - t.ns = (Every d).Delay := by omega
    rw [this, if_pos hfit]

theorem Next_periodic_example :
    (Every (90 * Second)).Next^[3] ⟨1234567890, UTC⟩
      = (Time.zeroSubsecond ⟨1234567890, UTC⟩).Add (((3 : Nat) : Int) * (Every (90 * Second)).Delay) ∧
    ((Every (90 * Second)).Next^[3] ⟨1234567890, UTC⟩).Nanosecond = 0 :=
  ⟨(Next_periodic (90 * Second) ⟨1234567890, UTC⟩ 3 (by decide) (by decide)).1,
    (Next_periodic (90 * Second) ⟨1234567890, UTC⟩ 3 (by decide) (by decide)).2.1⟩

/-! ## The earliest match -/

/-- In a zone whose offset is a whole number of minutes, no instant strictly
between `t` and a non-zero `s.Next(t)` satisfies the rule on the clock of the
zone the search runs in. -/
theorem Next_no_earlier_match (s : SpecSchedule) (t : Time)
    (hoff : (nextLoc s t).offset % 60 = 0) :
    ∃ r, s.Next t = some r ∧
      (r.IsZero = false → ∀ u : Time, u.loc = nextLoc s t →
        t.Before u = true → u.Before r = true → ¬ Satisfies s u) := by
  obtain ⟨r, hr, hpost⟩ := Next_earliest s t hoff
  refine ⟨r, hr, fun hz u hloc h1 h2 hsat => ?_⟩
  have hm := MatchAt_of_Satisfies hsat
  rw [hloc] at hm
  have hu0 := hsat.1
  unfold Time.Nanosecond at hu0
  unfold Time.Before at h1 h2
  simp only [decide_eq_true_eq] at h1 h2
  have habs : u.abs = u.ns / 1000000000 + (nextLoc s t).offset := by
    unfold Time.abs; rw [hloc]
  rcases hpost with ⟨hz', -⟩ | ⟨A, hrA, -, -, -, hskip⟩
  · rw [hz'] at hz; exact absurd hz (by decide)
  · have hrn : r.ns = (A - (nextLoc s t).offset) * 1000000000 := by
      rw [hrA, atAbs_In_ns]
    rw [hrn] at h2
    rw [nextStart_abs] at hskip
    exact hskip u.abs (by rw [habs]; omega) (by rw [habs]; omega) hm

theorem Next_no_earlier_match_witness :
    ∃ r, ruleHourly30.Next (Date 2024 1 1 10 0 10 0 UTC) = some r ∧
      (r.IsZero = false → ∀ u : Time, u.loc = nextLoc ruleHourly30 (Date 2024 1 1 10 0 10 0 UTC) →
        (Date 2024 1 1 10 0 10 0 UTC).Before u = true → u.Before r = true →
        ¬ Satisfies ruleHourly30 u) :=
  Next_no_earlier_match ruleHourly30 (Date 2024 1 1 10 0 10 0 UTC) (by decide)

/-- C19 (the code at the failing input): in the zone 30 seconds east of UTC,
which has no daylight-saving transitions, the rule "second 0 of minute 1 of
every hour" evaluated at 10:00:10 returns 11:01:00, which is not the zero
time, although 10:01:00 is a whole second strictly after 10:00:10 and strictly
before 11:01:00 whose second, minute, hour and month are permitted and which
satisfies `dayMatches`. -/
theorem C19_Next_skips_match :
    ruleMinute1.Next (Date 2024 1 1 10 0 10 0 zoneHalfMinute)
      = some (Date 2024 1 1 11 1 0 0 zoneHalfMinute) ∧
    (Date 2024 1 1 11 1 0 0 zoneHalfMinute).IsZero = false ∧
    Satisfies ruleMinute1 (Date 2024 1 1 10 1 0 0 zoneHalfMinute) ∧
    (Date 2024 1 1 10 0 10 0 zoneHalfMinute).Before (Date 2024 1 1 10 1 0 0 zoneHalfMinute)
      = true ∧
    (Date 2024 1 1 10 1 0 0 zoneHalfMinute).Before (Date 2024 1 1 11 1 0 0 zoneHalfMinute)
      = true := by
  refine ⟨by set_option maxRecDepth 1000000 in decide, by decide, ?_, by decide, by decide⟩
  unfold Satisfies
  decide

/-! ## Recovering panics -/

/-- C15: for every job `j` and logger, running `Recover(logger)(j)` runs `j`
and then: when `j` returned, nothing more happens (no logger call) and the
call returns; when `j` panicked with an error `e`, the call is exactly one
`logger.Error(e, "panic", "stack", ...)` and ends as that call ends; when `j`
panicked with another value `v`, the same with the error
`fmt.Errorf("%v", v)`.  So with a logger whose `Error` returns, the wrapped
job always returns, whatever `j` does; and on a logger that records its calls,
the calls after the run are those `j` left, followed by the single `Error`
call exactly when `j` panicked. -/
theorem C15_Recover {W Err Val : Type} (Errorf : Val → Err) (Stack : W → String)
    (logger : Logger W Err Val) (j : Run W Err Val) (w : W) :
    ((j w).2 = .returned → Recover Errorf Stack logger j w = ((j w).1, .returned)) ∧
    (∀ e, (j w).2 = .panicked (.error e) →
      Recover Errorf Stack logger j w
        = logger.Error e "panic" ["stack", "...\n" ++ Stack (j w).1] (j w).1) ∧
    (∀ v, (j w).2 = .panicked (.value v) →
      Recover Errorf Stack logger j w
        = logger.Error (Errorf v) "panic" ["stack", "...\n" ++ Stack (j w).1] (j w).1) ∧
    ((∀ e msg kv w1, (logger.Error e msg kv w1).2 = .returned) →
      (Recover Errorf Stack logger j w).2 = .returned) ∧
    (∀ (St : List (LogCall Err) → String) (job : Run (List (LogCall Err)) Err Val)
        (calls : List (LogCall Err)),
      (Recover Errorf St (recordingLogger Err Val) job calls).2 = .returned ∧
      ((job calls).2 = .returned →
        (Recover Errorf St (recordingLogger Err Val) job calls).1 = (job calls).1) ∧
      (∀ e, (job calls).2 = .panicked (.error e) →
        (Recover Errorf St (recordingLogger Err Val) job calls).1
          = (job calls).1 ++ [.Error e "panic" ["stack", "...\n" ++ St (job calls).1]]) ∧
      (∀ v, (job calls).2 = .panicked (.value v) →
        (Recover Errorf St (recordingLogger Err Val) job calls).1
          = (job calls).1 ++
            [.Error (Errorf v) "panic" ["stack", "...\n" ++ St (job calls).1]])) ∧
    Recover (fun n : Nat => "error: " ++ toString n) (fun _ => "goroutine 1")
        (recordingLogger String Nat) (panickingJob 42) []
      = ([.Error "error: 42" "panic" ["stack", "...\ngoroutine 1"]], .returned) := by
  have key : ∀ {V : Type} (F : Val → Err) (S : V → String) (l : Logger V Err Val)
      (k : Run V Err Val) (x : V),
      Recover F S l k x =
        match (k x).2 with
        | .returned => ((k x).1, .returned)
        | .panicked (.error e) => l.Error e "panic" ["stack", "...\n" ++ S (k x).1] (k x).1
        | .panicked (.value v) =>
          l.Error (F v) "panic" ["stack", "...\n" ++ S (k x).1] (k x).1 := by
    intro V F S l k x
    unfold Recover
    rcases hk : k x with ⟨x1, o⟩
    rcases o with _ | ⟨e | v⟩ <;> rfl
  refine ⟨fun h => ?_, fun e h => ?_, fun v h => ?_, fun hl => ?_, fun St job calls => ?_, ?_⟩
  · rw [key, h]
  · rw [key, h]
  · rw [key, h]
  · rw [key]
    rcases h : (j w).2 with _ | ⟨e | v⟩
    · rfl
    · exact hl _ _ _ _
    · exact hl _ _ _ _
  · rw [key]
    refine ⟨?_, fun h => ?_, fun e h => ?_, fun v h => ?_⟩
    · rcases h : (job calls).2 with _ | ⟨e | v⟩ <;> rfl
    · rw [h]
    · rw [h]; rfl
    · rw [h]; rfl
  · rfl

/-! ## Skipping overlapping invocations -/

theorem step_invoke (g : SkipGate) (i : Nat) :
    g.step (.invoke i) =
      if i ∈ g.started then none
      else if 0 < g.ch then
        some { g with ch := g.ch - 1, inner := i :: g.inner, started := i :: g.started,
                      runs := g.runs ++ [i] }
      else
        some { g with log := g.log ++ [("skip", [])], started := i :: g.started,
                      finished := (i, false) :: g.finished } := rfl

theorem step_innerEnds (g : SkipGate) (i : Nat) (p : Bool) :
    g.step (.innerEnds i p) =
      if i ∈ g.inner then
        some { g with inner := g.inner.erase i, deferred := (i, p) :: g.deferred }
      else none := rfl

theorem step_send (g : SkipGate) (i : Nat) :
    g.step (.send i) =
      match g.deferred.find? (fun x => x.1 == i) with
      | some x =>
        if g.ch < 1 then
          some { g with ch := g.ch + 1, deferred := g.deferred.erase x,
                        finished := x :: g.finished }
        else none
      | none => none := rfl

theorem SkipGate_step_Inv {g g1 : SkipGate} {e : GateEvent} (h : g.Inv)
    (hs : g.step e = some g1) : g1.Inv := by
  unfold SkipGate.Inv at h ⊢
  cases e with
  | invoke i =>
    rw [step_invoke] at hs
    split_ifs at hs with h1 h2
    · cases hs
      simp only [List.length_cons]
      omega
    · cases hs
      exact h
  | innerEnds i p =>
    rw [step_innerEnds] at hs
    split_ifs at hs with h1
    cases hs
    simp only [List.length_cons, List.length_erase_of_mem h1]
    have := List.length_pos_of_mem h1
    omega
  | send i =>
    rw [step_send] at hs
    split at hs
    · rename_i x hx
      split_ifs at hs with h1
      cases hs
      have hm := List.mem_of_find?_eq_some hx
      simp only [List.length_erase_of_mem hm]
      have := List.length_pos_of_mem hm
      omega
    · cases hs

theorem SkipGate_run_Inv (evs : List GateEvent) : ∀ {g g1 : SkipGate}, g.Inv →
    g.run evs = some g1 → g1.Inv := by
  induction evs with
  | nil =>
    intro g g1 h hr
    cases hr
    exact h
  | cons e evs ih =>
    intro g g1 h hr
    unfold SkipGate.run at hr
    split at hr
    · rename_i g2 h2
      exact ih (SkipGate_step_Inv h h2) hr
    · cases hr

/-- C16: in every state a job wrapped by `SkipIfStillRunning` can reach,
whatever the interleaving of its invocations: at most one execution of the
inner job is in progress, and the value of `ch` is in the channel or held by
exactly one invocation; an invocation that starts while another one holds the
value (inside `j.Run()` or before its deferred send) does not run the inner
job, logs exactly one `Info("skip")` and is over; an invocation that starts
when none holds it runs the inner job, logs nothing, and when the inner job
ends, by a panic or not, its deferred send puts the value back, which never
blocks.  Two overlapping invocations give one inner execution and one "skip",
whether the second starts during the inner job of the first or just after
it. -/
theorem C16_SkipIfStillRunning (evs : List GateEvent) (g : SkipGate)
    (hr : SkipGate.init.run evs = some g) :
    g.inner.length ≤ 1 ∧ g.ch + g.inner.length + g.deferred.length = 1 ∧
    (∀ i, i ∉ g.started → (g.inner ≠ [] ∨ g.deferred ≠ []) →
      g.step (.invoke i)
        = some { g with log := g.log ++ [("skip", [])], started := i :: g.started,
                        finished := (i, false) :: g.finished }) ∧
    (∀ i, i ∉ g.started → g.inner = [] → g.deferred = [] →
      g.step (.invoke i)
        = some { g with ch := 0, inner := [i], started := i :: g.started,
                        runs := g.runs ++ [i] } ∧
      ∀ p, g.run [.invoke i, .innerEnds i p, .send i]
        = some { g with ch := 1, inner := [], deferred := [], started := i :: g.started,
                        runs := g.runs ++ [i], finished := (i, p) :: g.finished }) ∧
    (∀ x ∈ g.deferred, (g.step (.send x.1)).isSome = true) ∧
    (∀ p, ∃ g2, SkipGate.init.run [.invoke 1, .invoke 2, .innerEnds 1 p, .send 1] = some g2 ∧
      g2.runs = [1] ∧ g2.log = [("skip", [])] ∧ g2.ch = 1) ∧
    (∀ p, ∃ g2, SkipGate.init.run [.invoke 1, .innerEnds 1 p, .invoke 2, .send 1] = some g2 ∧
      g2.runs = [1] ∧ g2.log = [("skip", [])] ∧ g2.ch = 1) := by
  have hinv : g.Inv := SkipGate_run_Inv evs (show SkipGate.init.Inv from rfl) hr
  unfold SkipGate.Inv at hinv
  refine ⟨by omega, hinv, ?_, ?_, ?_, ?_, ?_⟩
  · intro i hi hbusy
    have hch : ¬ 0 < g.ch := by
      rcases hbusy with h | h
      · have := List.length_pos.2 h
        omega
      · have := List.length_pos.2 h
        omega
    rw [step_invoke, if_neg hi, if_neg hch]
  · intro i hi h1 h2
    have hch : g.ch = 1 := by
      rw [h1, h2] at hinv
      simpa using hinv
    have hstep : g.step (.invoke i)
        = some { g with ch := 0, inner := [i], started := i :: g.started,
                        runs := g.runs ++ [i] } := by
      rw [step_invoke, if_neg hi, if_pos (by omega), hch, h1]
    refine ⟨hstep, fun p => ?_⟩
    simp only [SkipGate.run, hstep, step_innerEnds, step_send, h2]
    simp
  · intro x hx
    have hlen := List.length_pos_of_mem hx
    have hd : g.deferred = [x] := by
      rcases hg : g.deferred with _ | ⟨y, ys⟩
      · rw [hg] at hx; cases hx
      · rw [hg] at hx hinv
        simp only [List.length_cons] at hinv
        have : ys = [] := List.length_eq_zero.1 (by omega)
        subst this
        simp only [List.mem_singleton] at hx
        rw [hx]
    have hch : g.ch < 1 := by omega
    rw [step_send, hd]
    simp [hch]
  · intro p
    cases p <;> exact ⟨_, rfl, rfl, rfl, rfl⟩
  · intro p
    cases p <;> exact ⟨_, rfl, rfl, rfl, rfl⟩

theorem C16_SkipIfStillRunning_witness :
    (SkipGate.init.run [.invoke 1, .invoke 2]).isSome = true ∧
    ∀ i, i ∉ [2, 1] →
      SkipGate.step ⟨0, [1], [], [(2, false)], [2, 1], [1], [("skip", [])]⟩ (.invoke i)
        = some ⟨0, [1], [], [(i, false), (2, false)], [i, 2, 1], [1],
            [("skip", []), ("skip", [])]⟩ :=
  ⟨rfl, fun i hi =>
    (C16_SkipIfStillRunning [.invoke 1, .invoke 2]
      ⟨0, [1], [], [(2, false)], [2, 1], [1], [("skip", [])]⟩ rfl).2.2.1 i hi
      (Or.inl (by simp))⟩

/-! ## The order of the entries -/

theorem entryLess_iff {J : Type} (a b : Entry J) :
    entryLess a b = true ↔ a.Next.ns ≠ 0 ∧ (b.Next.ns = 0 ∨ a.Next.ns < b.Next.ns) := by
  unfold entryLess Time.IsZero Time.Before
  by_cases ha : a.Next.ns = 0
  · simp [ha]
  · by_cases hb : b.Next.ns = 0
    · simp [ha, hb]
    · simp [ha, hb]

theorem entryLess_false_iff {J : Type} (a b : Entry J) :
    entryLess a b = false ↔ a.Next.ns = 0 ∨ (b.Next.ns ≠ 0 ∧ b.Next.ns ≤ a.Next.ns) := by
  rw [← Bool.not_eq_true, entryLess_iff]
  constructor
  · intro h
    by_cases ha : a.Next.ns = 0
    · exact Or.inl ha
    · right
      constructor
      · intro hb; exact h ⟨ha, Or.inl hb⟩
      · by_contra hlt
        exact h ⟨ha, Or.inr (by omega)⟩
  · rintro (h | ⟨h1, h2⟩) ⟨h3, h4 | h4⟩
    · exact h3 h
    · exact h3 h
    · exact h1 h4
    · omega

theorem sorted_split {J : Type} (s : List (Entry J))
    (h : s.Pairwise (fun a b => entryLess b a = false)) :
    s = s.filter (fun e => !e.Next.IsZero) ++ s.filter (fun e => e.Next.IsZero) ∧
    (s.filter (fun e => !e.Next.IsZero)).Pairwise (fun a b => a.Next.ns ≤ b.Next.ns) := by
  induction s with
  | nil => simp
  | cons e rest ih =>
    rw [List.pairwise_cons] at h
    obtain ⟨ih1, ih2⟩ := ih h.2
    by_cases he : e.Next.ns = 0
    · have hall : ∀ b ∈ rest, b.Next.IsZero = true := by
        intro b hb
        have := (entryLess_false_iff b e).1 (h.1 b hb)
        rcases this with h0 | ⟨h1, -⟩
        · simp [Time.IsZero, h0]
        · exact absurd he h1
      have hz : e.Next.IsZero = true := by simp [Time.IsZero, he]
      have h1 : rest.filter (fun e => !e.Next.IsZero) = [] := by
        rw [List.filter_eq_nil_iff]
        intro b hb
        simp [hall b hb]
      have h2 : rest.filter (fun e => e.Next.IsZero) = rest := by
        rw [List.filter_eq_self]
        exact hall
      simp [List.filter_cons, hz, h1, h2]
    · have hz : e.Next.IsZero = false := by simp [Time.IsZero, he]
      simp only [List.filter_cons, hz, Bool.not_false, if_true, Bool.false_eq_true, if_false,
        List.cons_append, List.pairwise_cons]
      refine ⟨by rw [← ih1], ?_, ih2⟩
      intro b hb
      rw [List.mem_filter] at hb
      have := (entryLess_false_iff b e).1 (h.1 b hb.1)
      rcases this with h0 | ⟨-, h1⟩
      · have hb2 := hb.2
        simp [Time.IsZero, h0] at hb2
      · exact h1

/-- C21: `byTime.Less` is a strict weak ordering: it is irreflexive,
asymmetric and transitive, and "neither is less than the other" is
transitive; it is the comparison of the keys `Next`, the zero time counting
as greater than every other time.  So in every list sorted with it (no entry
is `Less` than one that stands before it) an entry with a zero `Next` is
followed only by entries with a zero `Next`, an entry with a non-zero `Next`
is preceded only by entries with a non-zero `Next` that is not after its own,
and the list is its entries with a non-zero `Next`, in ascending order of
`Next`, followed by its entries with a zero `Next`. -/
theorem C21_byTime_Less_strict_weak {J : Type} (s : byTime J) :
    (∀ i, byTime.Less s i i = false) ∧
    (∀ i j, byTime.Less s i j = true → byTime.Less s j i = false) ∧
    (∀ i j k, byTime.Less s i j = true → byTime.Less s j k = true →
      byTime.Less s i k = true) ∧
    (∀ i j k, byTime.Less s i j = false → byTime.Less s j i = false →
      byTime.Less s j k = false → byTime.Less s k j = false →
      byTime.Less s i k = false ∧ byTime.Less s k i = false) ∧
    (∀ i j, byTime.Less s i j = true ↔
      ((s.get i).Next.IsZero = false ∧
        ((s.get j).Next.IsZero = true ∨ (s.get i).Next.Before (s.get j).Next = true))) ∧
    (byTime.Sorted s → ∀ i j, i < j →
      ((s.get i).Next.IsZero = true → (s.get j).Next.IsZero = true) ∧
      ((s.get j).Next.IsZero = false →
        (s.get i).Next.IsZero = false ∧ (s.get j).Next.Before (s.get i).Next = false)) ∧
    (byTime.Sorted s →
      s = s.filter (fun e => !e.Next.IsZero) ++ s.filter (fun e => e.Next.IsZero) ∧
      (s.filter (fun e => !e.Next.IsZero)).Pairwise
        (fun a b => b.Next.Before a.Next = false)) ∧
    byTime.Sorted exampleEntries := by
  have hz : ∀ e : Entry J, e.Next.IsZero = true ↔ e.Next.ns = 0 := by
    intro e; simp [Time.IsZero]
  have hzf : ∀ e : Entry J, e.Next.IsZero = false ↔ e.Next.ns ≠ 0 := by
    intro e; simp [Time.IsZero]
  have hb : ∀ a b : Entry J, a.Next.Before b.Next = true ↔ a.Next.ns < b.Next.ns := by
    intro a b; simp [Time.Before]
  have hbf : ∀ a b : Entry J, a.Next.Before b.Next = false ↔ b.Next.ns ≤ a.Next.ns := by
    intro a b; simp [Time.Before]
  refine ⟨?_, ?_, ?_, ?_, ?_, ?_, ?_, ?_⟩
  · intro i
    rw [byTime_Less_eq, entryLess_false_iff]
    by_cases h : (s.get i).Next.ns = 0
    · exact Or.inl h
    · exact Or.inr ⟨h, le_refl _⟩
  · intro i j
    rw [byTime_Less_eq, byTime_Less_eq, entryLess_iff, entryLess_false_iff]
    rintro ⟨h1, h2 | h2⟩
    · exact Or.inl h2
    · by_cases h : (s.get j).Next.ns = 0
      · exact Or.inl h
      · exact Or.inr ⟨h1, by omega⟩
  · intro i j k
    rw [byTime_Less_eq, byTime_Less_eq, byTime_Less_eq, entryLess_iff, entryLess_iff,
      entryLess_iff]
    rintro ⟨h1, h2 | h2⟩ ⟨h3, h4 | h4⟩
    · exact absurd h2 h3
    · exact absurd h2 h3
    · exact ⟨h1, Or.inl h4⟩
    · exact ⟨h1, Or.inr (by omega)⟩
  · intro i j k
    simp only [byTime_Less_eq, entryLess_false_iff]
    intro h1 h2 h3 h4
    constructor
    · rcases h1 with h1 | ⟨h1, h1'⟩
      · exact Or.inl h1
      · right
        rcases h2 with h2 | ⟨h2, h2'⟩
        · exact absurd h2 h1
        · rcases h3 with h3 | ⟨h3, h3'⟩
          · exact absurd h3 h1
          · exact ⟨h3, by
              rcases h4 with h4 | ⟨h4, h4'⟩
              · exact absurd h4 h3
              · omega⟩
    · rcases h4 with h4 | ⟨h4, h4'⟩
      · exact Or.inl h4
      · right
        rcases h3 with h3 | ⟨h3, h3'⟩
        · exact absurd h3 h4
        · rcases h2 with h2 | ⟨h2, h2'⟩
          · exact absurd h2 h4
          · exact ⟨h2, by
              rcases h1 with h1 | ⟨h1, h1'⟩
              · exact absurd h1 h2
              · omega⟩
  · intro i j
    rw [byTime_Less_eq, entryLess_iff, hzf, hz, hb]
  · intro hs i j hij
    have h := hs i j hij
    rw [byTime_Less_eq, entryLess_false_iff] at h
    rw [hz, hz, hzf, hzf, hbf]
    constructor
    · intro hi
      rcases h with h | ⟨h, -⟩
      · exact h
      · exact absurd hi h
    · intro hj
      rcases h with h | ⟨h, h'⟩
      · exact absurd h hj
      · exact ⟨h, h'⟩
  · intro hs
    obtain ⟨h1, h2⟩ := sorted_split s ((Sorted_iff_pairwise s).1 hs)
    refine ⟨h1, h2.imp ?_⟩
    intro a b hab
    rw [hbf]
    exact hab
  · unfold byTime.Sorted
    decide

/-! ## Invariant of the run loop -/

theorem Punctual_ns {f : Time → Time} (h : Punctual f) (t : Time) :
    (f t).ns = 0 ∨ t.ns < (f t).ns := by
  rcases h t with h | h
  · left; simpa [Time.IsZero] using h
  · right; simpa [Time.After] using h

theorem wakeLoop_mem {J : Type} (now : Time) (es : List (Entry J)) :
    ∀ e1 ∈ (wakeLoop now es).1, e1 ∈ es ∨
      ∃ e ∈ es, e.Next.ns ≠ 0 ∧ e.Next.ns ≤ now.ns ∧ e1 = e.fired now := by
  induction es with
  | nil => intro e1 h; simp [wakeLoop] at h
  | cons e rest ih =>
    intro e1 h
    unfold wakeLoop at h
    split_ifs at h with hc
    · exact Or.inl h
    · simp only [List.mem_cons] at h
      simp only [Bool.or_eq_true, not_or, Bool.not_eq_true] at hc
      rcases h with h | h
      · right
        refine ⟨e, List.mem_cons_self _ _, ?_, ?_, h⟩
        · have := hc.2; simpa [Time.IsZero] using this
        · have := hc.1; simpa [Time.After] using this
      · rcases ih e1 h with h1 | ⟨e0, h0, h1, h2, h3⟩
        · exact Or.inl (List.mem_cons_of_mem _ h1)
        · exact Or.inr ⟨e0, List.mem_cons_of_mem _ h0, h1, h2, h3⟩

theorem RunInv_of_mem {J : Type} {w : Option Time} {now : Int} {es es1 : List (Entry J)}
    (h : RunInv w now es) (hm : ∀ e ∈ es1, e ∈ es) : RunInv w now es1 :=
  ⟨h.wake_le, fun e he => h.punctual e (hm e he), fun e he => h.prev e (hm e he),
    fun e he => h.order e (hm e he)⟩

theorem RunInv_init {J : Type} (w : Option Time) (now : Time) (es : List (Entry J))
    (hw : ∀ x, w = some x → x.ns ≤ now.ns)
    (hp : ∀ e ∈ es, Punctual e.Schedule)
    (hprev : ∀ e ∈ es, e.Prev.ns = 0 ∨ ∃ x, w = some x ∧ e.Prev.ns ≤ x.ns) :
    RunInv w now.ns (es.map (scheduleEntry now)) := by
  refine ⟨hw, ?_, ?_, ?_⟩
  · intro e1 h1
    obtain ⟨e, he, rfl⟩ := List.mem_map.1 h1
    exact hp e he
  · intro e1 h1
    obtain ⟨e, he, rfl⟩ := List.mem_map.1 h1
    exact hprev e he
  · intro e1 h1
    obtain ⟨e, he, rfl⟩ := List.mem_map.1 h1
    intro h2 h3
    simp only [scheduleEntry] at h2 h3 ⊢
    rcases hprev e he with h | ⟨x, hx, hle⟩
    · exact absurd h h2
    · have := hw x hx
      rcases Punctual_ns (hp e he) now with h | h
      · exact absurd h h3
      · omega

theorem RunInv_wake {J : Type} {w : Option Time} {now : Int} {es : List (Entry J)}
    (h : RunInv w now es) (clock : Time) (hc : now ≤ clock.ns) (loc : Location) :
    RunInv (some clock) clock.ns (wakeLoop (clock.In loc) es).1 := by
  have hns : (clock.In loc).ns = clock.ns := rfl
  have hold : ∀ e ∈ es, e.Prev.ns = 0 ∨ e.Prev.ns ≤ clock.ns := by
    intro e he
    rcases h.prev e he with h1 | ⟨x, hx, hle⟩
    · exact Or.inl h1
    · have := h.wake_le x hx
      right; omega
  refine ⟨?_, ?_, ?_, ?_⟩
  · intro x hx
    cases hx
    exact le_refl _
  · intro e1 h1
    rcases wakeLoop_mem _ es e1 h1 with h2 | ⟨e, he, -, -, rfl⟩
    · exact h.punctual e1 h2
    · exact h.punctual e he
  · intro e1 h1
    rcases wakeLoop_mem _ es e1 h1 with h2 | ⟨e, he, -, hle, rfl⟩
    · rcases hold e1 h2 with h3 | h3
      · exact Or.inl h3
      · exact Or.inr ⟨clock, rfl, h3⟩
    · right
      refine ⟨clock, rfl, ?_⟩
      simp only [Entry.fired]
      rw [hns] at hle
      exact hle
  · intro e1 h1
    rcases wakeLoop_mem _ es e1 h1 with h2 | ⟨e, he, -, hle, rfl⟩
    · exact h.order e1 h2
    · intro h2 h3
      simp only [Entry.fired] at h2 h3 ⊢
      rw [hns] at hle
      rcases Punctual_ns (h.punctual e he) (clock.In loc) with h4 | h4
      · exact absurd h4 h3
      · rw [hns] at h4
        omega

theorem RunInv_add {J : Type} {w : Option Time} {now : Int} {es : List (Entry J)}
    (h : RunInv w now es) (clock : Int) (hc : now ≤ clock) (e0 : Entry J)
    (hp : Punctual e0.Schedule) (hz : e0.Prev.ns = 0) :
    RunInv w clock (es ++ [e0]) := by
  refine ⟨?_, ?_, ?_, ?_⟩
  · intro x hx
    have := h.wake_le x hx
    omega
  · intro e he
    rcases List.mem_append.1 he with h1 | h1
    · exact h.punctual e h1
    · rw [List.mem_singleton.1 h1]; exact hp
  · intro e he
    rcases List.mem_append.1 he with h1 | h1
    · exact h.prev e h1
    · rw [List.mem_singleton.1 h1]; exact Or.inl hz
  · intro e he
    rcases List.mem_append.1 he with h1 | h1
    · exact h.order e h1
    · rw [List.mem_singleton.1 h1]
      intro h2
      exact absurd hz h2

theorem RunInv_clock {J : Type} {w : Option Time} {now : Int} {es : List (Entry J)}
    (h : RunInv w now es) (clock : Int) (hc : now ≤ clock) : RunInv w clock es :=
  ⟨fun x hx => le_trans (h.wake_le x hx) hc, h.punctual, h.prev, h.order⟩

theorem RunInv_step {J : Type} (sort : List (Entry J) → List (Entry J))
    (hsort : ∀ l, (sort l).Perm l) (w : Option Time) (s : RunState J) (ev : RunEvent J)
    (h : RunInv w s.now.ns s.c.entries) (hc : clockOK s.now.ns [ev] = true)
    (hp : ∀ clock schedule cmd, ev = .add clock schedule cmd → Punctual schedule) :
    RunInv (lastWake w [ev]) (s.step sort ev).now.ns (s.step sort ev).c.entries := by
  cases ev with
  | wake clock =>
    simp only [clockOK, Bool.and_true, decide_eq_true_eq] at hc
    exact RunInv_of_mem (RunInv_wake h clock hc s.c.location)
      (fun e he => (hsort _).mem_iff.1 he)
  | add clock schedule cmd =>
    simp only [clockOK, Bool.and_true, decide_eq_true_eq] at hc
    refine RunInv_of_mem (RunInv_add h clock.ns hc _ ?_ ?_) (fun e he => (hsort _).mem_iff.1 he)
    · exact hp clock schedule cmd rfl
    · rfl
  | snapshot => exact h
  | remove clock id =>
    simp only [clockOK, Bool.and_true, decide_eq_true_eq] at hc
    refine RunInv_of_mem (RunInv_clock h clock.ns hc) ?_
    intro e he
    have h1 : e ∈ (s.c.removeEntry id).entries := (hsort _).mem_iff.1 he
    rw [removeEntry_entries] at h1
    exact (List.mem_filter.1 h1).1

theorem RunInv_steps {J : Type} (sort : List (Entry J) → List (Entry J))
    (hsort : ∀ l, (sort l).Perm l) (events : List (RunEvent J)) :
    ∀ (w : Option Time) (s : RunState J), RunInv w s.now.ns s.c.entries →
      clockOK s.now.ns events = true →
      (∀ clock schedule cmd, RunEvent.add clock schedule cmd ∈ events → Punctual schedule) →
      RunInv (lastWake w events) (s.steps sort events).now.ns
        (s.steps sort events).c.entries := by
  induction events with
  | nil => intro w s h _ _; exact h
  | cons ev rest ih =>
    intro w s h hc hp
    have hc1 : clockOK s.now.ns [ev] = true ∧
        clockOK (s.step sort ev).now.ns rest = true := by
      cases ev <;> simp only [clockOK, Bool.and_eq_true, Bool.and_true] at hc ⊢
      · exact ⟨hc.1, hc.2⟩
      · exact ⟨hc.1, hc.2⟩
      · exact ⟨trivial, hc⟩
      · exact ⟨hc.1, hc.2⟩
    have h1 := RunInv_step sort hsort w s ev h hc1.1
      (fun clock schedule cmd he => hp clock schedule cmd (by rw [he]; exact List.mem_cons_self _ _))
    have h2 := ih (lastWake w [ev]) (s.step sort ev) h1 hc1.2
      (fun clock schedule cmd he => hp clock schedule cmd (List.mem_cons_of_mem _ he))
    have e1 : lastWake (lastWake w [ev]) rest = lastWake w (ev :: rest) := by
      cases ev <;> rfl
    rw [e1] at h2
    exact h2

theorem Every_Punctual (d : Int) (hd : isInt64 d) : Punctual (Every d).Next := by
  intro t
  obtain ⟨-, h1, h2, -, -⟩ := Every_Delay_bounds d hd
  right
  rw [Next_of_bounds (Every d) t h1 h2]
  simp only [Time.After, decide_eq_true_eq]
  omega

theorem exampleCron_prev : ∀ e ∈ exampleCron.entries,
    e.Prev.IsZero = true ∨ ∃ x, (none : Option Time) = some x ∧ e.Prev.After x = false := by
  intro e he
  left
  simp only [exampleCron, exampleEntries, List.mem_cons, List.mem_singleton, List.not_mem_nil,
    or_false] at he
  rcases he with rfl | rfl | rfl <;> rfl

theorem exampleCron_punctual : ∀ e ∈ exampleCron.entries, Punctual e.Schedule := by
  intro e he
  simp only [exampleCron, exampleEntries, List.mem_cons, List.mem_singleton, List.not_mem_nil,
    or_false] at he
  rcases he with rfl | rfl | rfl <;> exact Every_Punctual _ (by decide)

theorem exampleEvents_punctual : ∀ (clock : Time) (schedule : Time → Time) (cmd : Nat),
    RunEvent.add clock schedule cmd ∈ exampleEvents → Punctual schedule := by
  intro clock schedule cmd h
  simp only [exampleEvents, List.mem_cons, List.mem_singleton, List.not_mem_nil, or_false,
    RunEvent.add.injEq, false_or, reduceCtorEq] at h
  rw [h.2.1]
  exact Every_Punctual _ (by decide)

/-- C22: the run loop is started at `clock` on a registry whose entries have
a zero `Prev` or a `Prev` not after an earlier wake `w` (none before the first
start), with schedules whose `Next(t)` is the zero time or strictly after `t`,
also for the entries added later, and it then takes any sequence of wake, add,
remove and snapshot steps whose clock readings never go back (`sort.Sort` is
any function that permutes the entries).  In the state reached, every entry
has a `Prev` that is the zero time or not after the time of the last wake, and
a `Prev` strictly before its `Next` whenever both are not zero.  A snapshot
step leaves the state as it is and answers with the entries; an add step
leaves the entries there were, up to their order, and adds one entry with a
zero `Prev`; a remove step leaves the entries with another `ID`, up to their
order. -/
theorem C22_run_invariant {J : Type} (sort : List (Entry J) → List (Entry J))
    (hsort : ∀ l, (sort l).Perm l) (c : Cron J) (clock : Time) (w : Option Time)
    (events : List (RunEvent J))
    (hclock : clockOK clock.ns events = true)
    (hw : ∀ x, w = some x → x.After clock = false)
    (hprev : ∀ e ∈ c.entries,
      e.Prev.IsZero = true ∨ ∃ x, w = some x ∧ e.Prev.After x = false)
    (hsched : ∀ e ∈ c.entries, Punctual e.Schedule)
    (hadd : ∀ (t : Time) (schedule : Time → Time) (cmd : J),
      RunEvent.add t schedule cmd ∈ events → Punctual schedule) :
    (∀ e ∈ ((c.run sort clock).steps sort events).c.entries,
      (e.Prev.IsZero = true ∨
        ∃ x, lastWake w events = some x ∧ e.Prev.After x = false) ∧
      (e.Prev.IsZero = false → e.Next.IsZero = false → e.Prev.Before e.Next = true)) ∧
    (∀ s : RunState J,
      s.step sort .snapshot = s ∧ s.snapshot = s.c.entries ∧
      (∀ (t : Time) (schedule : Time → Time) (cmd : J), ∃ e0 : Entry J,
        e0.Schedule = schedule ∧ e0.Prev = Time.zero ∧
        e0.Next = schedule (t.In s.c.location) ∧
        (s.step sort (.add t schedule cmd)).c.entries.Perm (s.c.entries ++ [e0])) ∧
      (∀ (t : Time) (id : Int),
        (s.step sort (.remove t id)).c.entries.Perm
          (s.c.entries.filter (fun e => decide (e.ID ≠ id))))) := by
  constructor
  · have h0 : RunInv w (c.run sort clock).now.ns (c.run sort clock).c.entries := by
      refine RunInv_of_mem (RunInv_init w (c.now clock) c.entries ?_ hsched ?_)
        (fun e he => (hsort _).mem_iff.1 he)
      · intro x hx
        have := hw x hx
        simpa [Time.After, Cron.now, Time.In] using this
      · intro e he
        rcases hprev e he with h | ⟨x, hx, h⟩
        · left; simpa [Time.IsZero] using h
        · right
          exact ⟨x, hx, by simpa [Time.After] using h⟩
    have h1 := RunInv_steps sort hsort events w (c.run sort clock) h0 hclock hadd
    intro e he
    constructor
    · rcases h1.prev e he with h | ⟨x, hx, h⟩
      · left; simpa [Time.IsZero] using h
      · right
        exact ⟨x, hx, by simpa [Time.After] using h⟩
    · intro h2 h3
      have := h1.order e he (by simpa [Time.IsZero] using h2) (by simpa [Time.IsZero] using h3)
      simpa [Time.Before] using this
  · intro s
    refine ⟨rfl, by simp [RunState.snapshot, Cron.entrySnapshot], ?_, ?_⟩
    · intro t schedule cmd
      exact ⟨_, rfl, rfl, rfl, hsort _⟩
    · intro t id
      have h1 : (s.step sort (.remove t id)).c.entries.Perm (s.c.removeEntry id).entries :=
        hsort _
      rw [removeEntry_entries] at h1
      exact h1

theorem C22_run_invariant_witness :
    clockOK 5000000000 exampleEvents = true ∧
    ∀ e ∈ ((exampleCron.run sortByTime ⟨5000000000, UTC⟩).steps sortByTime exampleEvents).c.entries,
      (e.Prev.IsZero = true ∨
        ∃ x, lastWake none exampleEvents = some x ∧ e.Prev.After x = false) ∧
      (e.Prev.IsZero = false → e.Next.IsZero = false → e.Prev.Before e.Next = true) :=
  ⟨by decide,
    (C22_run_invariant sortByTime (fun l => List.perm_insertionSort _ l) exampleCron
      ⟨5000000000, UTC⟩ none exampleEvents (by decide) (fun x hx => by cases hx)
      exampleCron_prev exampleCron_punctual exampleEvents_punctual).1⟩

/-! ## The code at the last instant a `time.Time` can hold

At `lastInstant` the additions of the code saturate.  They are evaluated here
with `Time.AddSaturating`, the library's `Add`; the steps of the search that
add nothing are evaluated with `nextStep`. -/

/-- C3 (the code at the failing input): for the rule "every second" in UTC
and the last instant a `time.Time` can hold, the search start
`t.Add(1s - nanoseconds)` saturates to the start of the last second; every
test of the search accepts that instant, so `Next` returns it: a time that is
not the zero time and is 0.999999999 s before the given one. -/
theorem C3_Next_at_lastInstant :
    lastInstant.AddSaturating
        (wrapInt64 (wrapInt64 (1 * Second) - wrapInt64 (lastInstant.Nanosecond * Nanosecond)))
      = lastSecond ∧
    nextRun ruleEverySecond UTC UTC (lastSecond.Year + 5) 6 ⟨.WRAP, lastSecond, false⟩
      = some lastSecond ∧
    lastSecond.IsZero = false ∧ lastSecond.Before lastInstant = true ∧
    lastInstant.Before lastSecond = false := by
  decide

/-- C7 (the code at the failing input): for the rule whose `Hour` permits no
value, which no instant satisfies, and the last instant a `time.Time` can
hold, the search starts at the start of the last second and reaches the hour
loop with it; the hour test fails, and the body of the loop, `time.Date` to
the start of the hour followed by `t.Add(1h)`, saturates back to the same
instant, whose hour is 15 and not 0; from then on `t.Add(1h)` leaves the
instant as it is, so the loop never ends and `Next` does not return. -/
theorem C7_Next_hour_loop :
    lastInstant.AddSaturating
        (wrapInt64 (wrapInt64 (1 * Second) - wrapInt64 (lastInstant.Nanosecond * Nanosecond)))
      = lastSecond ∧
    nextStep ruleNoHour UTC UTC (lastSecond.Year + 5) ⟨.WRAP, lastSecond, false⟩
      = .inl ⟨.MONTH, lastSecond, false⟩ ∧
    nextStep ruleNoHour UTC UTC (lastSecond.Year + 5) ⟨.MONTH, lastSecond, false⟩
      = .inl ⟨.DAY, lastSecond, false⟩ ∧
    nextStep ruleNoHour UTC UTC (lastSecond.Year + 5) ⟨.DAY, lastSecond, false⟩
      = .inl ⟨.HOUR, lastSecond, false⟩ ∧
    bitAnd lastSecond.Hour ruleNoHour.Hour = 0 ∧
    (Date lastSecond.Year lastSecond.Month lastSecond.Day lastSecond.Hour 0 0 0
        UTC).AddSaturating (wrapInt64 (1 * Hour)) = lastSecond ∧
    lastSecond.AddSaturating (wrapInt64 (1 * Hour)) = lastSecond ∧
    lastSecond.Hour = 15 := by
  decide

/-- C5 (the code at the failing input): for the rule "every hour at minute
30" in UTC and the last instant a `time.Time` can hold, 15:30:07.999999999,
the search starts at 15:30:07 and reaches the second loop with it; the second
test fails, and the body of the loop, `Truncate(time.Second)` followed by
`t.Add(1s)`, saturates back to the same instant, whose second is 7 and not
0; so the loop never ends and `Next` does not return. -/
theorem C5_Next_second_loop :
    lastInstant.AddSaturating
        (wrapInt64 (wrapInt64 (1 * Second) - wrapInt64 (lastInstant.Nanosecond * Nanosecond)))
      = lastSecond ∧
    nextStep ruleHourly30 UTC UTC (lastSecond.Year + 5) ⟨.WRAP, lastSecond, false⟩
      = .inl ⟨.MONTH, lastSecond, false⟩ ∧
    nextStep ruleHourly30 UTC UTC (lastSecond.Year + 5) ⟨.MONTH, lastSecond, false⟩
      = .inl ⟨.DAY, lastSecond, false⟩ ∧
    nextStep ruleHourly30 UTC UTC (lastSecond.Year + 5) ⟨.DAY, lastSecond, false⟩
      = .inl ⟨.HOUR, lastSecond, false⟩ ∧
    nextStep ruleHourly30 UTC UTC (lastSecond.Year + 5) ⟨.HOUR, lastSecond, false⟩
      = .inl ⟨.MINUTE, lastSecond, false⟩ ∧
    nextStep ruleHourly30 UTC UTC (lastSecond.Year + 5) ⟨.MINUTE, lastSecond, false⟩
      = .inl ⟨.SECOND, lastSecond, false⟩ ∧
    bitAnd lastSecond.Second ruleHourly30.Second = 0 ∧
    (lastSecond.Truncate Second).AddSaturating (wrapInt64 (1 * Second)) = lastSecond ∧
    lastSecond.AddSaturating (wrapInt64 (1 * Second)) = lastSecond ∧
    lastSecond.Second = 7 ∧ lastSecond.Minute = 30 := by
  decide

/-- C18 (the code at the failing input): for `Every(1s)` and the last instant
a `time.Time` can hold, `t.Add(Delay - nanoseconds)` saturates to the start
of the last second, which is `t` truncated to the whole second and not one
second later: `Next(t)` is before `t`, `Next(t).Sub(t)` is negative, and
`Next` applied again returns the same instant. -/
theorem C18_Next_at_lastInstant :
    (Every Second).Delay = Second ∧
    lastInstant.AddSaturating
        (wrapInt64 ((Every Second).Delay - wrapInt64 (lastInstant.Nanosecond * Nanosecond)))
      = lastSecond ∧
    lastSecond.Before lastInstant = true ∧
    lastSecond = lastInstant.zeroSubsecond ∧
    lastSecond.Sub lastInstant = -999999999 ∧
    lastSecond.AddSaturating
        (wrapInt64 ((Every Second).Delay - wrapInt64 (lastSecond.Nanosecond * Nanosecond)))
      = lastSecond ∧
    ¬ lastInstant.AddExact ((Every Second).Delay - lastInstant.Nanosecond) := by
  decide

end Cron
